import Mathlib

/-!
# 3e-damage-tester: a shallow embedding of `Dice.js`, `Bonus.js`, `Weapon.js` and `Stats.js`

The JavaScript sources are embedded as pure functions with explicit state passing.

* JavaScript values are the inductive type `JSVal`.  Numbers are modelled on their
  integer fragment (`JSNum.int`) together with `NaN`; arithmetic on that fragment is exact
  (the doubles of the source agree with it below `2 ^ 53`).  Fractions, infinities,
  exponent and radix literals are outside the fragment: `Number(s)` maps such strings to `NaN`.
* The module-level singleton `random` of `Dice.js` and the octets that
  `crypto.randomBytes` will hand out are the two fields of `World`.
* A thrown exception is an `Except.error`; functions that can throw after having changed
  state return the state next to the `Except`.
* Plain objects are association lists in property-enumeration order; the members that a
  literal object inherits from `Object.prototype` are not modelled.
* The averages of `Stats.report` are doubles (`JSQuot`): every quotient and every sum is
  the exact result rounded to nearest, ties to even; what `report` prints is not modelled.
-/

namespace DamageTester

/-! ## Numbers -/

/-- A JavaScript number: an integer or `NaN`. -/
inductive JSNum where
  | int (i : Int)
  | nan
  deriving DecidableEq, Repr

namespace JSNum

/-- Numeric `a + b`. -/
def add : JSNum → JSNum → JSNum
  | int a, int b => int (a + b)
  | _, _ => nan

/-- Numeric `a * b`. -/
def mul : JSNum → JSNum → JSNum
  | int a, int b => int (a * b)
  | _, _ => nan

/-- Numeric `a % b`: the remainder takes the sign of the dividend, `x % 0` is `NaN`. -/
def rem : JSNum → JSNum → JSNum
  | int a, int b => if b = 0 then nan else int (Int.tmod a b)
  | _, _ => nan

/-- Truthiness of a number: everything but `0` and `NaN`. -/
def truthy : JSNum → Bool
  | int i => decide (i ≠ 0)
  | nan => false

/-- Numeric `a < b`; any comparison with `NaN` is false. -/
def lt : JSNum → JSNum → Bool
  | int a, int b => decide (a < b)
  | _, _ => false

/-- Numeric `a >= b`; any comparison with `NaN` is false. -/
def ge : JSNum → JSNum → Bool
  | int a, int b => decide (b ≤ a)
  | _, _ => false

/-- Numeric `a > b`; any comparison with `NaN` is false. -/
def gt : JSNum → JSNum → Bool
  | int a, int b => decide (b < a)
  | _, _ => false

/-- The decimal rendering `String(n)` of a number. -/
def toStr : JSNum → String
  | int i => if i < 0 then String.mk ('-' :: Nat.toDigits 10 i.natAbs) else String.mk (Nat.toDigits 10 i.toNat)
  | nan => "NaN"

end JSNum

/-! ## Strings to numbers -/

/-- White space and line terminators stripped by `Number(s)`. -/
def isJSSpace (c : Char) : Bool :=
  c.toNat ∈ [0x09, 0x0A, 0x0B, 0x0C, 0x0D, 0x20, 0xA0, 0x1680, 0x2000, 0x2001, 0x2002,
    0x2003, 0x2004, 0x2005, 0x2006, 0x2007, 0x2008, 0x2009, 0x200A, 0x2028, 0x2029, 0x202F,
    0x205F, 0x3000, 0xFEFF]

/-- Strip leading and trailing white space. -/
def trimSpace (cs : List Char) : List Char :=
  ((cs.dropWhile isJSSpace).reverse.dropWhile isJSSpace).reverse

/-- Value of a run of decimal digits read left to right. -/
def digitsValue (cs : List Char) : Nat :=
  cs.foldl (fun acc c => acc * 10 + (c.toNat - 48)) 0

/-- An unsigned decimal integer literal: a non-empty run of digits. -/
def parseDigits (cs : List Char) : Option Nat :=
  if cs ≠ [] ∧ cs.all Char.isDigit then some (digitsValue cs) else none

/-- The conversion `Number(s)` on the integer fragment: the empty or blank string is `0`, an
optionally signed run of decimal digits is its value, everything else is `NaN`. -/
def stringToNumber (s : String) : JSNum :=
  match trimSpace s.toList with
  | [] => .int 0
  | '-' :: ds => match parseDigits ds with
    | some n => .int (-(n : Int))
    | none => .nan
  | '+' :: ds => match parseDigits ds with
    | some n => .int n
    | none => .nan
  | ds => match parseDigits ds with
    | some n => .int n
    | none => .nan

/-- The parts of `s.split(sep)` for a one-character separator. -/
def splitOnChar (sep : Char) : List Char → List (List Char)
  | [] => [[]]
  | c :: cs =>
    if c = sep then [] :: splitOnChar sep cs
    else match splitOnChar sep cs with
      | [] => [[c]]
      | p :: ps => (c :: p) :: ps

/-! ## Values -/

/-- A JavaScript value. -/
inductive JSVal where
  | undef
  | null
  | bool (b : Bool)
  | num (n : JSNum)
  | str (s : String)
  | arr (xs : List JSVal)
  | obj (kvs : List (String × JSVal))

namespace JSVal

/-- Truthiness of a value (`if (v)`, `v || w`, `v && w`). -/
def truthy : JSVal → Bool
  | undef => false
  | null => false
  | bool b => b
  | num n => n.truthy
  | str s => decide (s ≠ "")
  | arr _ => true
  | obj _ => true

/-- The operator `a || b`. -/
def or (a b : JSVal) : JSVal := if a.truthy then a else b

/-- The test `typeof v === 'number'`. -/
def isNumber : JSVal → Bool
  | num _ => true
  | _ => false

/-- The test `typeof v === 'string'`. -/
def isString : JSVal → Bool
  | str _ => true
  | _ => false

/-- The test `typeof v === 'object'`, which holds of `null`, arrays and objects. -/
def isObject : JSVal → Bool
  | null => true
  | arr _ => true
  | obj _ => true
  | _ => false

/-- The test `Array.isArray(v)`. -/
def isArray : JSVal → Bool
  | arr _ => true
  | _ => false

mutual
/-- The conversion `String(v)`. -/
def toStr : JSVal → String
  | undef => "undefined"
  | null => "null"
  | bool b => if b then "true" else "false"
  | num n => n.toStr
  | str s => s
  | arr xs => joinElems xs
  | obj _ => "[object Object]"
/-- The elements of an array joined with commas, as `Array.prototype.join` does:
`undefined` and `null` elements render as the empty string. -/
def joinElems : List JSVal → String
  | [] => ""
  | [x] => elemStr x
  | x :: y :: rest => elemStr x ++ "," ++ joinElems (y :: rest)
/-- One element of a joined array. -/
def elemStr : JSVal → String
  | undef => ""
  | null => ""
  | bool b => if b then "true" else "false"
  | num n => n.toStr
  | str s => s
  | arr xs => joinElems xs
  | obj _ => "[object Object]"
end

/-- The conversion `Number(v)`. -/
def toNumber : JSVal → JSNum
  | undef => .nan
  | null => .int 0
  | bool b => if b then .int 1 else .int 0
  | num n => n
  | str s => stringToNumber s
  | arr xs => stringToNumber (toStr (arr xs))
  | obj kvs => stringToNumber (toStr (obj kvs))

/-- The operator `a * b`. -/
def mul (a b : JSVal) : JSNum := a.toNumber.mul b.toNumber

/-- The conversion to a primitive that `+` and the comparisons apply to their operands. -/
def toPrimitive : JSVal → JSVal
  | arr xs => str (toStr (arr xs))
  | obj kvs => str (toStr (obj kvs))
  | v => v

/-- The operator `a < b`: string order (by code points) when both primitives are strings,
numeric order otherwise. -/
def lt (a b : JSVal) : Bool :=
  match a.toPrimitive, b.toPrimitive with
  | str s, str t => decide (s < t)
  | p, q => p.toNumber.lt q.toNumber

/-- The operator `a > b`. -/
def gt (a b : JSVal) : Bool := lt b a

/-- The operator `a >= b`. -/
def ge (a b : JSVal) : Bool :=
  match a.toPrimitive, b.toPrimitive with
  | str s, str t => !decide (s < t)
  | p, q => p.toNumber.ge q.toNumber

/-- The operator `a + b`: concatenation when either primitive is a string, numeric
addition otherwise. -/
def add (a b : JSVal) : JSVal :=
  match a.toPrimitive, b.toPrimitive with
  | str s, q => str (s ++ q.toStr)
  | p, str t => str (p.toStr ++ t)
  | p, q => num (p.toNumber.add q.toNumber)

end JSVal

/-- Own-property lookup `o[key]` in an association list; an absent key reads `undefined`. -/
def lookupProp (key : String) : List (String × JSVal) → JSVal
  | [] => .undef
  | (k, v) :: rest => if k = key then v else lookupProp key rest

/-- A thrown exception: `new Error(message)`, the `TypeError` of a property read on
`undefined` or `null` (or of `Object.keys(null)`, or of calling what is not a function), or
the `ReferenceError` of reading an identifier that is bound nowhere. -/
inductive JSError where
  | error (message : String)
  | typeError
  | referenceError (name : String)
  deriving DecidableEq, Repr

/-- Canonical array index denoted by a property key, if any. -/
def arrayIndex (key : String) : Option Nat :=
  match parseDigits key.toList with
  | some i => if String.mk (Nat.toDigits 10 i) = key then some i else none
  | none => none

/-- The property read `v[key]`.  Reading a property of `undefined` or `null` throws a
`TypeError`; arrays and strings answer index keys and `length`; booleans and numbers have
none of the properties read by the sources. -/
def JSVal.get (v : JSVal) (key : String) : Except JSError JSVal :=
  match v with
  | .undef => .error .typeError
  | .null => .error .typeError
  | .bool _ => .ok .undef
  | .num _ => .ok .undef
  | .str s =>
    if key = "length" then .ok (.num (.int s.toList.length))
    else match arrayIndex key with
      | some i => match s.toList.get? i with
        | some c => .ok (.str (String.singleton c))
        | none => .ok .undef
      | none => .ok .undef
  | .arr xs =>
    if key = "length" then .ok (.num (.int xs.length))
    else match arrayIndex key with
      | some i => .ok (xs.getD i .undef)
      | none => .ok .undef
  | .obj kvs => .ok (lookupProp key kvs)

/-- Position of the first occurrence of `needle` in `hay` counted from `i`, or `-1`. -/
def indexOfFrom (needle : List Char) : List Char → Nat → Int
  | [], i => if needle = [] then (i : Int) else -1
  | c :: cs, i => if needle.isPrefixOf (c :: cs) then (i : Int) else indexOfFrom needle cs (i + 1)

/-- The method `s.indexOf(needle)`. -/
def indexOf (s needle : String) : JSNum := .int (indexOfFrom needle.toList s.toList 0)

/-! ## `Dice.js` -/

/-- The constant `BUFFER_LENGTH`. -/
def BUFFER_LENGTH : Nat := 256

/-- The octets that successive `crypto.randomBytes` calls return, in order. -/
abbrev ByteSource := Nat → Nat

/-- The call `crypto.randomBytes(n)`: a buffer holding the next `n` octets of the source, and
the source that remains.  A buffer is a function from offsets to octets. -/
def randomBytes (n : Nat) (src : ByteSource) : (Nat → Nat) × ByteSource :=
  (fun i => src i % 256, fun i => src (i + n))

/-- The class `RandomBuffer`: a read cursor and a buffer of `BUFFER_LENGTH` octets. -/
structure RandomBuffer where
  idx : Nat
  buf : Nat → Nat

namespace RandomBuffer

/-- The method `reset`: rewind the cursor and fetch a fresh buffer. -/
def reset (_self : RandomBuffer) (src : ByteSource) : RandomBuffer × ByteSource :=
  (⟨0, (randomBytes BUFFER_LENGTH src).1⟩, (randomBytes BUFFER_LENGTH src).2)

/-- The constructor, which only calls `reset`. -/
def new (src : ByteSource) : RandomBuffer × ByteSource :=
  reset ⟨0, fun _ => 0⟩ src

/-- The call `buf.readUInt8(idx)`. -/
def readUInt8 (self : RandomBuffer) : Nat := self.buf self.idx % 256

/-- The first branch of `read`: serve the octet under the cursor and advance. -/
def serve (self : RandomBuffer) (mod : JSVal) : JSNum × RandomBuffer :=
  let rand := self.readUInt8
  let self1 : RandomBuffer := { self with idx := self.idx + 1 }
  (if mod.truthy && mod.isNumber
    then ((JSNum.int rand).rem mod.toNumber).add (.int 1)
    else .int rand, self1)

/-- The method `read` with its recursion bounded by `fuel`; `none` when the fuel runs out. -/
def readFuel : Nat → RandomBuffer → JSVal → ByteSource → Option (JSNum × RandomBuffer × ByteSource)
  | 0, _, _, _ => none
  | fuel + 1, self, mod, src =>
    if self.idx < BUFFER_LENGTH then
      some ((self.serve mod).1, (self.serve mod).2, src)
    else
      readFuel fuel (self.reset src).1 mod (self.reset src).2

/-- The method `read`.  After `reset` the cursor is `0`, so the recursive call of the source
takes the first branch; `readFuel_eq_read` shows that two units of fuel always suffice. -/
def read (self : RandomBuffer) (mod : JSVal) (src : ByteSource) : JSNum × RandomBuffer × ByteSource :=
  if self.idx < BUFFER_LENGTH then
    ((self.serve mod).1, (self.serve mod).2, src)
  else
    (((self.reset src).1.serve mod).1, ((self.reset src).1.serve mod).2, (self.reset src).2)

end RandomBuffer

/-- The state outside the objects: the module-level singleton `random` of `Dice.js`
(`none` while it is still `null`) and the octets `crypto` has yet to produce. -/
structure World where
  random : Option RandomBuffer
  crypto : ByteSource

namespace Dice

/-- The guard `if (!random) random = new RandomBuffer()` that opens `roll`. -/
def ensureRandom (w : World) : RandomBuffer × ByteSource :=
  match w.random with
  | some rb => (rb, w.crypto)
  | none => RandomBuffer.new w.crypto

/-- The loop `for (let i = 0; i < num; i++) sum += max ? mod : random.read(mod)`,
with the number of remaining iterations as first argument. -/
def rollLoop (max : Bool) (mod : JSNum) :
    Nat → JSNum → RandomBuffer → ByteSource → JSNum × RandomBuffer × ByteSource
  | 0, sum, rb, src => (sum, rb, src)
  | k + 1, sum, rb, src =>
    if max then rollLoop max mod k (sum.add mod) rb src
    else rollLoop max mod k (sum.add (rb.read (.num mod) src).1)
      (rb.read (.num mod) src).2.1 (rb.read (.num mod) src).2.2

/-- Number of iterations of a loop `for (let i = 0; i < num; i++)`. -/
def loopCount : JSNum → Nat
  | .int i => i.toNat
  | .nan => 0

/-- The static method `Dice.roll(dice, max)`.  It returns the sum of the rolls, `null` for a
string whose count or sides is falsy, and `undefined` for anything but a non-empty string. -/
def roll (dice : JSVal) (max : Bool) (w : World) : JSVal × World :=
  let rb := (ensureRandom w).1
  let src := (ensureRandom w).2
  if dice.truthy && dice.isString then
    let parts := splitOnChar 'd' dice.toStr.toList
    let num0 : JSVal := match parts with
      | p :: _ => .str (String.mk p)
      | [] => .undef
    let mod0 : JSVal := match parts with
      | _ :: q :: _ => .str (String.mk q)
      | _ => .undef
    let num : JSNum := match num0 with
      | .str s => if s = "" then .int 1 else stringToNumber s
      | v => v.toNumber
    let mod : JSNum := mod0.toNumber
    if num.truthy && mod.truthy then
      let r := rollLoop max mod (loopCount num) (.int 0) rb src
      (.num r.1, ⟨some r.2.1, r.2.2⟩)
    else
      (.null, ⟨some rb, src⟩)
  else
    (.undef, ⟨some rb, src⟩)

/-- The static method `Dice.d20(num, max)`. -/
def d20 (num : JSVal) (max : Bool) (w : World) : JSVal × World :=
  roll ((num.or (.str "")).add (.str "d20")) max w

end Dice

/-! ## `Bonus.js` -/

/-- The class `Bonus`: a damage type and a bonus expression. -/
structure Bonus where
  type : JSVal
  bonus : JSVal

namespace Bonus

/-- The error thrown by the local function `invalid` of the constructor. -/
def invalid : JSError := .error "Bonus descriptor is invalid"

/-- The constructor `new Bonus(descriptor, bonus)`. -/
def new (descriptor bonus : JSVal) : Except JSError Bonus :=
  if descriptor.isObject then
    if descriptor.isArray then .error invalid
    else
      match descriptor.get "bonus", descriptor.get "type", descriptor.get "name" with
      | .ok b, .ok t, .ok n =>
        if (t.or n).truthy && b.truthy then .ok ⟨t.or n, b⟩ else .error invalid
      | .error e, _, _ => .error e
      | _, .error e, _ => .error e
      | _, _, .error e => .error e
  else
    if descriptor.truthy && bonus.truthy then .ok ⟨descriptor, bonus⟩ else .error invalid

mutual
/-- The static method `Bonus.parse(bonus, max)`.  The world is returned also when the call
throws, since the draws made before the throw stay consumed. -/
def parse : JSVal → Bool → World → Except JSError JSVal × World
  | .num n, _, w => (.ok (.num n), w)
  | .str s, max, w =>
    if (stringToNumber s).truthy then (.ok (.num (stringToNumber s)), w)
    else if (indexOf s "d").gt (.int (-1)) then
      ((.ok (Dice.roll (.str s) max w).1), (Dice.roll (.str s) max w).2)
    else (.error (.error "Invalid bonus syntax"), w)
  | .arr xs, _, w => parseItems xs (.num (.int 0)) w
  | .obj kvs, _, w => parseProps kvs (.num (.int 0)) w
  | .null, _, w => (.error .typeError, w)
  | .undef, _, w => (.error (.error "Invalid bonus syntax"), w)
  | .bool _, _, w => (.error (.error "Invalid bonus syntax"), w)
/-- The loop `bonus.forEach(item => sum += Bonus.parse(item))` over an array. -/
def parseItems : List JSVal → JSVal → World → Except JSError JSVal × World
  | [], sum, w => (.ok sum, w)
  | x :: xs, sum, w =>
    match parse x false w with
    | (.ok v, w1) => parseItems xs (sum.add v) w1
    | (.error e, w1) => (.error e, w1)
/-- The loop `Object.keys(bonus).forEach(key => sum += Bonus.parse(bonus[key]))`. -/
def parseProps : List (String × JSVal) → JSVal → World → Except JSError JSVal × World
  | [], sum, w => (.ok sum, w)
  | (_, x) :: kvs, sum, w =>
    match parse x false w with
    | (.ok v, w1) => parseProps kvs (sum.add v) w1
    | (.error e, w1) => (.error e, w1)
end

/-- The method `evaluate(max)`: the pair `{type, value}`. -/
def evaluate (self : Bonus) (max : Bool) (w : World) : Except JSError (JSVal × JSVal) × World :=
  match parse self.bonus max w with
  | (.ok v, w1) => (.ok (self.type, v), w1)
  | (.error e, w1) => (.error e, w1)

end Bonus

/-! ## `Weapon.js` -/

/-- The object `result` built by `attack`: its own properties in insertion order.  Every
value stored is the product computed by the local function `damage`, hence a number. -/
abbrev Result := List (String × JSNum)

namespace Result

/-- The read `result[key]`; `none` stands for `undefined`. -/
def get (key : String) : Result → Option JSNum
  | [] => none
  | (k, v) :: rest => if k = key then some v else get key rest

/-- The write `result[key] = v`. -/
def set (key : String) (v : JSNum) : Result → Result
  | [] => [(key, v)]
  | (k, x) :: rest => if k = key then (k, v) :: rest else (k, x) :: set key v rest

/-- The keys `Object.keys(result)`. -/
def keys (r : Result) : List String := r.map Prod.fst

end Result

/-- The class `Weapon`. -/
structure Weapon where
  name : JSVal
  minCrit : JSVal
  critMultiplier : JSVal
  enchantments : List Bonus
  bonuses : List Bonus
  damage : JSVal
  numCrits : Nat

namespace Weapon

/-- The call `list.map(e => new Bonus(e))` of the constructor. -/
def newBonuses : List JSVal → Except JSError (List Bonus)
  | [] => .ok []
  | e :: es =>
    match Bonus.new e .undef with
    | .error err => .error err
    | .ok b => match newBonuses es with
      | .error err => .error err
      | .ok bs => .ok (b :: bs)

/-- The expression `Array.isArray(list) ? list.map(e => new Bonus(e)) : []`. -/
def bonusList : JSVal → Except JSError (List Bonus)
  | .arr xs => newBonuses xs
  | _ => .ok []

/-- The constructor `new Weapon(descriptor)`. -/
def new (descriptor : JSVal) : Except JSError Weapon := do
  let name ← descriptor.get "name"
  let critRange ← descriptor.get "critRange"
  let critMultiplier ← descriptor.get "critMultiplier"
  let enchant ← descriptor.get "enchant"
  let bonus ← descriptor.get "bonus"
  let damage ← descriptor.get "damage"
  let enchantments ← bonusList enchant
  let bonuses ← bonusList bonus
  pure {
    name := name.or (.str "Unnamed Weapon")
    minCrit := critRange.or (.num (.int 19))
    critMultiplier := critMultiplier.or (.num (.int 2))
    enchantments := enchantments
    bonuses := bonuses
    damage := damage.or (.str "1d4")
    numCrits := 0 }

/-- The local function `damage` of `attack`: `dmg * multiplier`. -/
def damageOf (multiplier dmg : JSVal) : JSNum := dmg.mul multiplier

/-- The local function `evaluateBonuses` of `attack`: a `forEach` that adds each evaluated
bonus into `result` under its type. -/
def evaluateBonuses (max : Bool) (multiplier : JSVal) :
    List Bonus → Result → World → Except JSError Result × World
  | [], result, w => (.ok result, w)
  | b :: bs, result, w =>
    match b.evaluate max w with
    | (.error e, w1) => (.error e, w1)
    | (.ok (type, value), w1) =>
      match result.get type.toStr with
      | some old =>
        if old.truthy
        then evaluateBonuses max multiplier bs
          (result.set type.toStr (old.add (damageOf multiplier value))) w1
        else evaluateBonuses max multiplier bs
          (result.set type.toStr (damageOf multiplier value)) w1
      | none => evaluateBonuses max multiplier bs
          (result.set type.toStr (damageOf multiplier value)) w1

/-- The value of the attack roll `Dice.d20(1, max || crit)`. -/
def attackRoll (max crit : Bool) (w : World) : JSVal :=
  (Dice.d20 (.num (.int 1)) (max || crit) w).1

/-- The `multiplier` computed by `attack`. -/
def multiplierOf (self : Weapon) (max crit : Bool) (w : World) : JSVal :=
  if (attackRoll max crit w).ge self.minCrit then self.critMultiplier else .num (.int 1)

/-- The method `attack(max, crit)`.  The weapon and the world are returned also when a bonus
throws: the crit counter and the draws made before the throw stay changed. -/
def attack (self : Weapon) (max crit : Bool) (w : World) :
    Except JSError Result × Weapon × World :=
  let w1 := (Dice.d20 (.num (.int 1)) (max || crit) w).2
  let multiplier := self.multiplierOf max crit w
  let self1 : Weapon :=
    if multiplier.gt (.num (.int 1)) && !crit && !max
    then { self with numCrits := self.numCrits + 1 }
    else self
  let base := Dice.roll self.damage max w1
  let result0 : Result := Result.set "Physical" (damageOf multiplier base.1) []
  match evaluateBonuses max multiplier self.enchantments result0 base.2 with
  | (.error e, w3) => (.error e, self1, w3)
  | (.ok result1, w3) =>
    match evaluateBonuses max multiplier self.bonuses result1 w3 with
    | (.error e, w4) => (.error e, self1, w4)
    | (.ok result2, w4) => (.ok result2, self1, w4)

/-- The error thrown by the local function `invalid` of `crit`. -/
def invalidCrit : JSError := .error "Invalid crit range"

/-- The argument `critRange[0] || critRange['min'] || critRange['minimum']` of the
recursive call of `crit`. -/
def critArg (critRange : JSVal) : Except JSError JSVal := do
  let a ← critRange.get "0"
  let b ← critRange.get "min"
  let c ← critRange.get "minimum"
  pure ((a.or b).or c)

/-- The first element `min` of the destructuring `let [min, _] = critRange`, which iterates
a string by characters; `undefined` for the empty string. -/
def firstOf (s : String) : JSVal :=
  match s.toList with
  | [] => .undef
  | c :: _ => .str (String.singleton c)

end Weapon

/-! ### Termination of `Weapon.crit` -/

mutual
/-- A termination measure for `Weapon.crit`: a container ranks above its members, and
every container and primitive above `undefined`. -/
def JSVal.rank : JSVal → Nat
  | .undef => 0
  | .null => 0
  | .bool _ => 1
  | .num _ => 1
  | .str _ => 1
  | .arr xs => rankList xs + 2
  | .obj kvs => rankProps kvs + 2
/-- Sum of the ranks of the elements of an array. -/
def rankList : List JSVal → Nat
  | [] => 0
  | x :: xs => x.rank + rankList xs
/-- Sum of the ranks of the property values of an object. -/
def rankProps : List (String × JSVal) → Nat
  | [] => 0
  | (_, x) :: kvs => x.rank + rankProps kvs
end

theorem rank_getD_le (xs : List JSVal) (i : Nat) : (xs.getD i .undef).rank ≤ rankList xs := by
  induction xs generalizing i with
  | nil => simp [JSVal.rank]
  | cons x xs ih =>
    cases i with
    | zero => simp [rankList]
    | succ i =>
      have := ih i
      simp only [List.getD_cons_succ, rankList]
      omega

theorem rank_lookupProp_le (key : String) (kvs : List (String × JSVal)) :
    (lookupProp key kvs).rank ≤ rankProps kvs := by
  induction kvs with
  | nil => simp [lookupProp, JSVal.rank]
  | cons kv kvs ih =>
    obtain ⟨k, v⟩ := kv
    simp only [lookupProp, rankProps]
    split
    · omega
    · omega

theorem rank_or_lt {a b : JSVal} {n : Nat} (ha : a.rank < n) (hb : b.rank < n) :
    (a.or b).rank < n := by
  unfold JSVal.or
  split <;> assumption

theorem rank_get_lt {v t : JSVal} {key : String} (hn : v.isNumber = false)
    (hs : v.isString = false) (h : v.get key = .ok t) : t.rank < v.rank := by
  cases v with
  | undef => simp [JSVal.get] at h
  | null => simp [JSVal.get] at h
  | bool b =>
    simp only [JSVal.get, Except.ok.injEq] at h
    subst h
    simp [JSVal.rank]
  | num n => simp [JSVal.isNumber] at hn
  | str s => simp [JSVal.isString] at hs
  | arr xs =>
    simp only [JSVal.get] at h
    have hr : ∀ i, (xs.getD i .undef).rank < (JSVal.arr xs).rank := by
      intro i
      have := rank_getD_le xs i
      simp only [JSVal.rank]
      omega
    split at h
    · simp only [Except.ok.injEq] at h
      subst h
      simp [JSVal.rank]
    · split at h
      · simp only [Except.ok.injEq] at h
        subst h
        exact hr _
      · simp only [Except.ok.injEq] at h
        subst h
        simp [JSVal.rank]
  | obj kvs =>
    simp only [JSVal.get, Except.ok.injEq] at h
    subst h
    have := rank_lookupProp_le key kvs
    simp only [JSVal.rank]
    omega

theorem rank_critArg_lt {v t : JSVal} (hn : v.isNumber = false) (hs : v.isString = false)
    (h : Weapon.critArg v = .ok t) : t.rank < v.rank := by
  unfold Weapon.critArg at h
  cases ha : v.get "0" with
  | error e => simp [ha, bind, Except.bind] at h
  | ok a =>
    cases hb : v.get "min" with
    | error e => simp [ha, hb, bind, Except.bind] at h
    | ok b =>
      cases hc : v.get "minimum" with
      | error e => simp [ha, hb, hc, bind, Except.bind] at h
      | ok c =>
        simp only [ha, hb, hc, bind, Except.bind, pure, Except.pure, Except.ok.injEq] at h
        subst h
        exact rank_or_lt (rank_or_lt (rank_get_lt hn hs ha) (rank_get_lt hn hs hb))
          (rank_get_lt hn hs hc)

namespace Weapon

/-- The method `crit(critRange, multiplier)`.  Every throw happens before the first
assignment, so a failed call leaves the weapon as it was. -/
def crit (self : Weapon) (critRange multiplier : JSVal) : Except JSError Weapon :=
  if hn : critRange.isNumber then
    .ok { self with minCrit := critRange, critMultiplier := multiplier }
  else if hs : critRange.isString then
    let staticNum := critRange.toNumber
    if staticNum.truthy then
      .ok { self with minCrit := .num staticNum, critMultiplier := multiplier }
    else if (indexOf critRange.toStr
        (JSVal.bool (JSVal.gt (.str "-") (.num (.int (-1))))).toStr).truthy then
      let minCrit := (firstOf critRange.toStr).toNumber
      if minCrit.truthy then
        .ok { self with minCrit := .num minCrit, critMultiplier := multiplier }
      else .error invalidCrit
    else .error invalidCrit
  else
    match h : critArg critRange with
    | .error e => .error e
    | .ok next => crit self next .undef
termination_by critRange.rank
decreasing_by
  exact rank_critArg_lt (by simpa using hn) (by simpa using hs) h

/-- The method `enchant(descriptor, bonus)`. -/
def enchant (self : Weapon) (descriptor bonus : JSVal) : Except JSError Weapon :=
  match Bonus.new descriptor bonus with
  | .error e => .error e
  | .ok b => .ok { self with enchantments := self.enchantments ++ [b] }

/-- The method `bonus(descriptor, bonus)`. -/
def bonus (self : Weapon) (descriptor bonus : JSVal) : Except JSError Weapon :=
  match Bonus.new descriptor bonus with
  | .error e => .error e
  | .ok b => .ok { self with bonuses := self.bonuses ++ [b] }

end Weapon

/-! ## Vocabulary of the statements -/

/-- The ten decimal digit characters. -/
def digitChars : List Char := ['0', '1', '2', '3', '4', '5', '6', '7', '8', '9']

/-- The numeral of `n` as written by `String(n)`. -/
def numeral (n : Nat) : List Char := Nat.toDigits 10 n

/-- The dice expression `n + 'd' + m` built by JavaScript concatenation. -/
def diceExpr (n m : Nat) : JSVal :=
  ((JSVal.num (.int n)).add (.str "d")).add (.num (.int m))

/-- The octet that the `i`-th next `read` of a buffer will consume: the unread part of the
buffer first, then the octets `crypto` still has to produce. -/
def RandomBuffer.upcoming (rb : RandomBuffer) (src : ByteSource) (i : Nat) : Nat :=
  if rb.idx + i < BUFFER_LENGTH then rb.buf (rb.idx + i) % 256
  else src (i - (BUFFER_LENGTH - rb.idx)) % 256

/-- The octet that the `i`-th next `read` in a world will consume. -/
def World.upcoming (w : World) (i : Nat) : Nat :=
  (Dice.ensureRandom w).1.upcoming (Dice.ensureRandom w).2 i

/-- The world left by a call of `Dice.roll` that draws nothing: the singleton exists, no
octet is consumed. -/
def World.settled (w : World) : World :=
  ⟨some (Dice.ensureRandom w).1, (Dice.ensureRandom w).2⟩

/-- The face shown by a `read(mod)` that consumes the octet `byte`. -/
def face (mod : Int) (byte : Nat) : Int := Int.tmod byte mod + 1

/-- Sum of the faces of `k` successive draws from a stream of octets. -/
def faceSum (mod : Int) (bytes : Nat → Nat) : Nat → Int
  | 0 => 0
  | k + 1 => face mod (bytes 0) + faceSum mod (fun i => bytes (i + 1)) k

/-- A world whose singleton is not yet created and whose octet source counts `3, 4, 5, ...`. -/
def sampleWorld : World := ⟨none, fun i => i + 3⟩

/-- The evaluated bonuses of a list, in order: each bonus is evaluated with `evaluate(max)`
in the world left by the one before it, and yields its property key and its value. -/
def evaluateAll (max : Bool) : List Bonus → World → Except JSError (List (String × JSVal)) × World
  | [], w => (.ok [], w)
  | b :: bs, w =>
    match b.evaluate max w with
    | (.error e, w1) => (.error e, w1)
    | (.ok (type, value), w1) =>
      match evaluateAll max bs w1 with
      | (.error e, w2) => (.error e, w2)
      | (.ok rest, w2) => (.ok ((type.toStr, value) :: rest), w2)

/-- The body of the `forEach` of `evaluateBonuses`, applied to one evaluated bonus. -/
def accumulateOne (multiplier : JSVal) (key : String) (value : JSVal) (r : Result) : Result :=
  match r.get key with
  | some old =>
    if old.truthy then r.set key (old.add (Weapon.damageOf multiplier value))
    else r.set key (Weapon.damageOf multiplier value)
  | none => r.set key (Weapon.damageOf multiplier value)

/-- The map left by `evaluateBonuses` as a function of the evaluated bonuses alone. -/
def accumulate (multiplier : JSVal) : List (String × JSVal) → Result → Result
  | [], r => r
  | (key, value) :: rest, r => accumulate multiplier rest (accumulateOne multiplier key value r)

/-- Sum of the values listed under the key `t`. -/
def sumOf (t : String) : List (String × Int) → Int
  | [] => 0
  | (k, v) :: rest => (if k = t then v else 0) + sumOf t rest

/-- An integer-valued list of evaluated bonuses as JavaScript values. -/
def asValues (vals : List (String × Int)) : List (String × JSVal) :=
  vals.map (fun p => (p.1, JSVal.num (.int p.2)))

/-- The map `r` holds, under every key of `done`, the multiplier times the sum of the values
that `done` lists under that key, and nothing else. -/
def Holds (k : JSNum) (r : Result) (done : List (String × Int)) : Prop :=
  ∀ t, r.get t = if t ∈ done.map Prod.fst then some (k.mul (.int (sumOf t done))) else none

/-- Names of the members that the literal object `result` inherits from
`Object.prototype`; a bonus type with one of these names would read an inherited function
in `result[type]`, which the model of `Result` does not cover. -/
def inheritedKeys : List String :=
  ["constructor", "__proto__", "hasOwnProperty", "isPrototypeOf", "propertyIsEnumerable",
    "toLocaleString", "toString", "valueOf", "__defineGetter__", "__defineSetter__",
    "__lookupGetter__", "__lookupSetter__"]

/-- A well-formed dice expression: a plain integer, a string `NdM` with positive `N` and
`M`, or a sequence or mapping of well-formed dice expressions. -/
inductive DiceExpression : JSVal → Prop where
  | flat (k : Int) : DiceExpression (.num (.int k))
  | dice (n m : Nat) (hn : 0 < n) (hm : 0 < m) : DiceExpression (diceExpr n m)
  | seq (xs : List JSVal) (h : ∀ x, x ∈ xs → DiceExpression x) : DiceExpression (.arr xs)
  | map (kvs : List (String × JSVal)) (h : ∀ kv, kv ∈ kvs → DiceExpression kv.2) :
      DiceExpression (.obj kvs)

/-- A well-formed bonus: its type is not the name of an inherited member and its
expression is a well-formed dice expression. -/
def Bonus.WellFormed (b : Bonus) : Prop :=
  b.type.toStr ∉ inheritedKeys ∧ DiceExpression b.bonus

/-- A weapon with base damage `1d6`, the enchantment `Fire 2d6` and the bonus `Fire 3`. -/
def sampleWeapon : Weapon :=
  { name := .str "Flaming sword", minCrit := .num (.int 19), critMultiplier := .num (.int 2),
    enchantments := [⟨.str "Fire", .str "2d6"⟩], bonuses := [⟨.str "Fire", .num (.int 3)⟩],
    damage := .str "1d6", numCrits := 0 }

/-- A dice expression without containers and without negative values: a non-negative
integer or a string `NdM` with positive `N` and `M`. -/
inductive SimpleExpression : JSVal → Prop where
  | flat (k : Nat) : SimpleExpression (.num (.int k))
  | dice (n m : Nat) (hn : 0 < n) (hm : 0 < m) : SimpleExpression (diceExpr n m)

/-- Two lists of evaluated bonuses with the same keys, the values of the first non-negative
and bounded by those of the second. -/
def Dominated : List (String × Int) → List (String × Int) → Prop
  | [], [] => True
  | a :: as, b :: bs => a.1 = b.1 ∧ 0 ≤ a.2 ∧ a.2 ≤ b.2 ∧ Dominated as bs
  | _, _ => False

/-- The weapon that the constructor builds from a descriptor with damage `1d6` and the single
bonus of type `Penalty` and value `-2`. -/
def penaltyWeapon : Weapon :=
  { name := .str "Unnamed Weapon", minCrit := .num (.int 19), critMultiplier := .num (.int 2),
    enchantments := [], bonuses := [⟨.str "Penalty", .num (.int (-2))⟩],
    damage := .str "1d6", numCrits := 0 }

/-- A weapon with base damage `1d6` and the enchantment `Fire` whose expression is the
one-element sequence holding `1d6`. -/
def containerWeapon : Weapon :=
  { name := .str "Unnamed Weapon", minCrit := .num (.int 19), critMultiplier := .num (.int 2),
    enchantments := [⟨.str "Fire", .arr [.str "1d6"]⟩], bonuses := [],
    damage := .str "1d6", numCrits := 0 }

/-- A world like `sampleWorld` whose octet source counts `4, 5, 6, ...`. -/
def otherWorld : World := ⟨none, fun i => i + 4⟩

/-- The weapon built by `new Weapon` from an empty descriptor. -/
def defaultWeapon : Weapon :=
  { name := .str "Unnamed Weapon", minCrit := .num (.int 19), critMultiplier := .num (.int 2),
    enchantments := [], bonuses := [], damage := .str "1d4", numCrits := 0 }

/-- The invariant of the specification: `minCrit` is an integer in `[2, 20]` and
`critMultiplier` is an integer `>= 1`. -/
def Weapon.Invariant (w : Weapon) : Prop :=
  ∃ L K : Int, w.minCrit = .num (.int L) ∧ 2 ≤ L ∧ L ≤ 20 ∧
    w.critMultiplier = .num (.int K) ∧ 1 ≤ K

/-- The weapon states reachable from the constructor by successful `crit`, `enchant`,
`bonus` and `attack` calls. -/
inductive Reachable : Weapon → Prop where
  | construct (d : JSVal) (w : Weapon) (h : Weapon.new d = .ok w) : Reachable w
  | crit (w w1 : Weapon) (r k : JSVal) (hw : Reachable w) (h : w.crit r k = .ok w1) :
      Reachable w1
  | enchant (w w1 : Weapon) (d b : JSVal) (hw : Reachable w) (h : w.enchant d b = .ok w1) :
      Reachable w1
  | bonus (w w1 : Weapon) (d b : JSVal) (hw : Reachable w) (h : w.bonus d b = .ok w1) :
      Reachable w1
  | attack (w : Weapon) (max crit : Bool) (world : World) (r : Result) (hw : Reachable w)
      (h : (w.attack max crit world).1 = .ok r) : Reachable (w.attack max crit world).2.1

/-- A crit range given as an integer in `[2, 20]`. -/
def RangeArg (v : JSVal) : Prop := ∃ L : Int, v = .num (.int L) ∧ 2 ≤ L ∧ L ≤ 20

/-- A crit multiplier given as an integer `>= 1`. -/
def MultiplierArg (v : JSVal) : Prop := ∃ K : Int, v = .num (.int K) ∧ 1 ≤ K

/-- The weapon states reachable when the descriptor of the constructor leaves `critRange`
and `critMultiplier` out or gives them as integers within bounds, and every `crit` call
passes an integer range in `[2, 20]` and an integer multiplier `>= 1`. -/
inductive ReachableChecked : Weapon → Prop where
  | construct (d cr cm : JSVal) (w : Weapon) (h : Weapon.new d = .ok w)
      (hcr : d.get "critRange" = .ok cr) (hcm : d.get "critMultiplier" = .ok cm)
      (hr : cr = .undef ∨ RangeArg cr) (hm : cm = .undef ∨ MultiplierArg cm) :
      ReachableChecked w
  | crit (w w1 : Weapon) (r k : JSVal) (hw : ReachableChecked w) (hr : RangeArg r)
      (hk : MultiplierArg k) (h : w.crit r k = .ok w1) : ReachableChecked w1
  | enchant (w w1 : Weapon) (d b : JSVal) (hw : ReachableChecked w)
      (h : w.enchant d b = .ok w1) : ReachableChecked w1
  | bonus (w w1 : Weapon) (d b : JSVal) (hw : ReachableChecked w)
      (h : w.bonus d b = .ok w1) : ReachableChecked w1
  | attack (w : Weapon) (max crit : Bool) (world : World) (r : Result)
      (hw : ReachableChecked w) (h : (w.attack max crit world).1 = .ok r) :
      ReachableChecked (w.attack max crit world).2.1

/-! ## Vocabulary for `RandomBuffer` -/

/-- The value that `read(mod)` derives from the octet it consumes: `(byte % mod) + 1` for a
truthy numeric bound, the octet itself otherwise. -/
def RandomBuffer.derive (mod : JSVal) (byte : Nat) : JSNum :=
  if mod.truthy && mod.isNumber
  then ((JSNum.int byte).rem mod.toNumber).add (.int 1)
  else .int byte

/-- The states of a `RandomBuffer` reachable from its constructor by `read` and `reset`. -/
inductive RandomBuffer.Reachable : RandomBuffer → Prop where
  | new (src : ByteSource) : RandomBuffer.Reachable (RandomBuffer.new src).1
  | read (rb : RandomBuffer) (mod : JSVal) (src : ByteSource)
      (h : RandomBuffer.Reachable rb) : RandomBuffer.Reachable (rb.read mod src).2.1
  | reset (rb : RandomBuffer) (src : ByteSource)
      (h : RandomBuffer.Reachable rb) : RandomBuffer.Reachable (rb.reset src).1

/-- The bonus `Fire 2d6`. -/
def fireBonus : Bonus := ⟨.str "Fire", .str "2d6"⟩

/-- A character with which a numeric literal can begin: a digit, a dot, or the `I` of
`Infinity`. -/
def numericStart (c : Char) : Bool := c.isDigit || c = '.' || c = 'I'

/-- Whether the first character of a list can begin a numeric literal. -/
def headNumeric : List Char → Bool
  | [] => false
  | c :: _ => numericStart c

/-- Whether a string begins like a numeric literal: after leading white space and an optional
sign comes a digit, a dot or `I`.  A string that does not is converted by `Number` to `NaN`,
or to `0` when it is blank. -/
def looksNumeric (s : String) : Bool :=
  match trimSpace s.toList with
  | [] => false
  | '-' :: ds => headNumeric ds
  | '+' :: ds => headNumeric ds
  | ds => headNumeric ds

/-- The values of `Bonus.parse(element, false)` for the elements of a container, in order,
each evaluated in the world left by the one before it. -/
def parseEach : List JSVal → World → Except JSError (List JSVal) × World
  | [], w => (.ok [], w)
  | x :: xs, w =>
    match Bonus.parse x false w with
    | (.error e, w1) => (.error e, w1)
    | (.ok v, w1) =>
      match parseEach xs w1 with
      | (.error e, w2) => (.error e, w2)
      | (.ok vs, w2) => (.ok (v :: vs), w2)

/-- A list of integers as JavaScript numbers. -/
def asNumbers (ks : List Int) : List JSVal := ks.map (fun k => JSVal.num (.int k))

/-- The weapon that the constructor builds from a descriptor whose damage is the number `5`. -/
def flatWeapon : Weapon :=
  { name := .str "Unnamed Weapon", minCrit := .num (.int 19), critMultiplier := .num (.int 2),
    enchantments := [], bonuses := [], damage := .num (.int 5), numCrits := 0 }

/-- The weapon that the constructor builds from a descriptor whose damage is the string
`abc`. -/
def malformedWeapon : Weapon :=
  { name := .str "Unnamed Weapon", minCrit := .num (.int 19), critMultiplier := .num (.int 2),
    enchantments := [], bonuses := [], damage := .str "abc", numCrits := 0 }

/-! ## `Stats.js` -/

/-- An object used as a table from property keys to values: its own properties in
enumeration order, each key listed once.  The key `__proto__`, whose assignment replaces the
prototype instead of creating a property, is outside the model. -/
abbrev Table (α : Type) := List (String × α)

namespace Table

/-- The read `table[key]`; `none` stands for `undefined`. -/
def get {α : Type} (key : String) : Table α → Option α
  | [] => none
  | (k, v) :: rest => if k = key then some v else get key rest

/-- The write `table[key] = v`. -/
def set {α : Type} (key : String) (v : α) : Table α → Table α
  | [] => [(key, v)]
  | (k, x) :: rest => if k = key then (k, v) :: rest else (k, x) :: set key v rest

/-- The keys `Object.keys(table)`. -/
def keys {α : Type} (t : Table α) : List String := t.map Prod.fst

end Table

/-- The class `Stats`: the registered weapons, the histories of their normal and of their
forced-critical attacks, and the iteration counter.  A registered weapon is the `Weapon`
object itself: what `attack` changes in it shows in the table. -/
structure Stats where
  weapons : Table Weapon
  attacks : Table (List Result)
  critAttacks : Table (List Result)
  iterations : Nat

/-- The argument of `register` and of the constructor: a `Weapon`, an array of `Weapon`s, a
plain object whose values are `Weapon`s, `null`, or a value whose `typeof` is not
`'object'` (`undefined`, a boolean, a number, a string).  Collections with members that are
not `Weapon`s are outside the model. -/
inductive Registrable where
  | weapon (w : Weapon)
  | list (ws : List Weapon)
  | mapping (kvs : List (String × Weapon))
  | null
  | scalar

namespace Stats

/-- The three assignments `this.weapons[key] = w`, `this.attacks[key] = []` and
`this.critAttacks[key] = []`. -/
def bind (s : Stats) (key : String) (w : Weapon) : Stats :=
  { s with
    weapons := s.weapons.set key w
    attacks := s.attacks.set key []
    critAttacks := s.critAttacks.set key [] }

/-- The loop `weapons.forEach(weapon => ...)` of the array branch of `register`. -/
def registerList : List Weapon → Stats → Stats
  | [], s => s
  | w :: ws, s => registerList ws (s.bind w.name.toStr w)

/-- The identifier `weapon` read in the mapping branch of `register`: the parameter of the
callback is `key`, and no enclosing scope binds `weapon` (no global of that name is
assumed), so the read throws a `ReferenceError`. -/
def unboundWeapon : Except JSError Weapon := .error (.referenceError "weapon")

/-- The loop `Object.keys(weapons).forEach(key => ...)` of the mapping branch of `register`.
The first assignment computes its key `weapons[key].name || key`, then reads `weapon`. -/
def registerMapping : List (String × Weapon) → Stats → Except JSError Stats
  | [], s => .ok s
  | (key, w) :: rest, s =>
    match unboundWeapon with
    | .error e => .error e
    | .ok bound => registerMapping rest (s.bind (w.name.or (.str key)).toStr bound)

/-- The method `register(weapons)`.  A failed call throws before its first assignment and
leaves the aggregator as it was. -/
def register (s : Stats) : Registrable → Except JSError Stats
  | .weapon w => .ok (s.bind w.name.toStr w)
  | .list ws => .ok (registerList ws s)
  | .mapping kvs => registerMapping kvs s
  | .null => .error .typeError
  | .scalar => .ok s

/-- The constructor `new Stats(weapons)`. -/
def new (weapons : Registrable) : Except JSError Stats :=
  register ⟨[], [], [], 0⟩ weapons

/-- The loop `for (let i = 0; i < iterations; i++)` of `run` for the weapon `weapon` found
under `key`, with the number of remaining iterations as first argument.  Each pass reads
`this.attacks[key]`, attacks unforced and pushes the result, then does the same on
`this.critAttacks[key]` with `attack(false, true)`. -/
def runLoop (key : String) : Nat → Weapon → Stats → World →
    Except JSError Unit × Weapon × Stats × World
  | 0, weapon, s, world => (.ok (), weapon, s, world)
  | k + 1, weapon, s, world =>
    match s.attacks.get key with
    | none => (.error .typeError, weapon, s, world)
    | some history =>
      match weapon.attack false false world with
      | (.error e, weapon1, world1) => (.error e, weapon1, s, world1)
      | (.ok result, weapon1, world1) =>
        match s.critAttacks.get key with
        | none =>
          (.error .typeError, weapon1,
            { s with attacks := s.attacks.set key (history ++ [result]) }, world1)
        | some critHistory =>
          match weapon1.attack false true world1 with
          | (.error e, weapon2, world2) =>
            (.error e, weapon2,
              { s with attacks := s.attacks.set key (history ++ [result]) }, world2)
          | (.ok critResult, weapon2, world2) =>
            runLoop key k weapon2
              { s with
                attacks := s.attacks.set key (history ++ [result])
                critAttacks := s.critAttacks.set key (critHistory ++ [critResult]) } world2

/-- The callback of `Object.keys(this.weapons).forEach` in `run`, for one key.  What the
attacks change in the weapon object is written back to the table. -/
def runKey (n : Nat) (key : String) (s : Stats) (world : World) :
    Except JSError Unit × Stats × World :=
  match s.weapons.get key with
  | none => (if n = 0 then .ok () else .error .typeError, s, world)
  | some weapon =>
    ((runLoop key n weapon s world).1,
      { (runLoop key n weapon s world).2.2.1 with
        weapons := (runLoop key n weapon s world).2.2.1.weapons.set key
          (runLoop key n weapon s world).2.1 },
      (runLoop key n weapon s world).2.2.2)

/-- The loop `Object.keys(this.weapons).forEach(...)` of `run` over the keys listed when it
starts. -/
def runKeys (n : Nat) : List String → Stats → World → Except JSError Unit × Stats × World
  | [], s, world => (.ok (), s, world)
  | key :: rest, s, world =>
    match runKey n key s world with
    | (.error e, s1, world1) => (.error e, s1, world1)
    | (.ok _, s1, world1) => runKeys n rest s1 world1

/-- The method `run(iterations)` for a non-negative integer count (`run()` is `run 100`).
The aggregator and the world are returned also when an attack throws. -/
def run (s : Stats) (iterations : Nat) (world : World) : Except JSError Unit × Stats × World :=
  match runKeys iterations s.weapons.keys s world with
  | (.error e, s1, world1) => (.error e, s1, world1)
  | (.ok _, s1, world1) => (.ok (), { s1 with iterations := s1.iterations + iterations }, world1)

end Stats

/-! ## Vocabulary for `Stats` -/

/-- The keys under which `register` binds the weapons of its argument. -/
def Registrable.names : Registrable → List String
  | .weapon w => [w.name.toStr]
  | .list ws => ws.map (fun w => w.name.toStr)
  | .mapping kvs => kvs.map (fun kv => (kv.2.name.or (.str kv.1)).toStr)
  | .null => []
  | .scalar => []

/-- The aggregator `new Stats(sampleWeapon)`. -/
def sampleStats : Stats :=
  { weapons := [("Flaming sword", sampleWeapon)], attacks := [("Flaming sword", [])],
    critAttacks := [("Flaming sword", [])], iterations := 0 }

/-- The aggregator `s1` keeps what `s` has: the counter of `s1` is at least that of `s`, and
every history of `s` is there in `s1`, at least as long. -/
def Stats.Keeps (s s1 : Stats) : Prop :=
  s.iterations ≤ s1.iterations ∧
  (∀ k h, s.attacks.get k = some h →
    ∃ h1, s1.attacks.get k = some h1 ∧ h.length ≤ h1.length) ∧
  (∀ k h, s.critAttacks.get k = some h →
    ∃ h1, s1.critAttacks.get k = some h1 ∧ h.length ≤ h1.length)

/-- No attack of the weapon raises, whatever the flags and the world. -/
def Weapon.NeverRaises (w : Weapon) : Prop :=
  ∀ (max crit : Bool) (world : World), ∃ r : Result, (w.attack max crit world).1 = .ok r

/-- The aggregators reachable from the constructor by successful `register` calls and by
`run` calls (returning or throwing), no weapon being registered under the key `__proto__`. -/
inductive Stats.Reachable : Stats → Prop where
  | new (arg : Registrable) (s : Stats) (h : Stats.new arg = .ok s)
      (hp : "__proto__" ∉ arg.names) : Stats.Reachable s
  | register (s s1 : Stats) (arg : Registrable) (hs : Stats.Reachable s)
      (h : s.register arg = .ok s1) (hp : "__proto__" ∉ arg.names) : Stats.Reachable s1
  | run (s : Stats) (n : Nat) (world : World) (hs : Stats.Reachable s) :
      Stats.Reachable (s.run n world).2.1

/-- Every registered key is listed once and has both of its histories. -/
def Stats.Consistent (s : Stats) : Prop :=
  s.weapons.keys.Nodup ∧
  ∀ k, k ∈ s.weapons.keys →
    (∃ h, s.attacks.get k = some h) ∧ (∃ c, s.critAttacks.get k = some c)

/-- The weapon `new Weapon({name: 'Broken', bonus: [{type: 'Fire', bonus: 'abc'}]})`: its
only bonus has an expression that is neither a number nor a dice string. -/
def brokenWeapon : Weapon :=
  { name := .str "Broken", minCrit := .num (.int 19), critMultiplier := .num (.int 2),
    enchantments := [], bonuses := [⟨.str "Fire", .str "abc"⟩], damage := .str "1d4",
    numCrits := 0 }

/-- The aggregator `new Stats(brokenWeapon)`. -/
def brokenStats : Stats :=
  { weapons := [("Broken", brokenWeapon)], attacks := [("Broken", [])],
    critAttacks := [("Broken", [])], iterations := 0 }

/-! ## `Stats.js`: the local functions of `report` -/

/-- A number computed by `calcAverages`: a double.  A finite double is given by the
rational it denotes (`fin`); the others are the two infinities and `NaN`.  The sign of a
zero is not kept. -/
inductive JSQuot where
  | fin (q : ℚ)
  | inf
  | negInf
  | nan
  deriving DecidableEq

/-- Rounding of a rational to the nearest integer, ties to the even one. -/
def roundHalfEven (x : ℚ) : Int :=
  if x - ⌊x⌋ < 1 / 2 then ⌊x⌋
  else if 1 / 2 < x - ⌊x⌋ then ⌊x⌋ + 1
  else if ⌊x⌋ % 2 = 0 then ⌊x⌋ else ⌊x⌋ + 1

/-- The spacing of the doubles around a non-zero rational `q`: `2 ^ (e - 52)` where
`2 ^ e <= |q| < 2 ^ (e + 1)`, and `2 ^ (-1074)` in the subnormal range `e < -1022`. -/
def ulpOf (q : ℚ) : ℚ := 2 ^ (max (Int.log 2 |q|) (-1022) - 52)

/-- The double that an arithmetic operation returns when its exact result is the rational
`q`: `q` rounded to 53 significant bits, to nearest, ties to even; a result that rounds to
`2 ^ 1024` or beyond in magnitude is an infinity. -/
def toDouble (q : ℚ) : JSQuot :=
  if q = 0 then .fin 0
  else if 2 ^ 1024 ≤ (roundHalfEven (q / ulpOf q) : ℚ) * ulpOf q then .inf
  else if (roundHalfEven (q / ulpOf q) : ℚ) * ulpOf q ≤ -(2 ^ 1024) then .negInf
  else .fin ((roundHalfEven (q / ulpOf q) : ℚ) * ulpOf q)

namespace JSQuot

/-- Numeric `a + b` on doubles: the exact sum, rounded. -/
def add : JSQuot → JSQuot → JSQuot
  | fin a, fin b => toDouble (a + b)
  | nan, _ => nan
  | _, nan => nan
  | inf, negInf => nan
  | negInf, inf => nan
  | inf, _ => inf
  | _, inf => inf
  | negInf, _ => negInf
  | _, negInf => negInf

end JSQuot

/-- Numeric `x / n` for an iteration count `n`, a non-negative integer: the exact quotient,
rounded; division by zero gives an infinity with the sign of `x`, and `0 / 0` is `NaN`. -/
def JSNum.divNat : JSNum → Nat → JSQuot
  | .nan, _ => .nan
  | .int k, n =>
    if n = 0 then (if 0 < k then .inf else if k < 0 then .negInf else .nan)
    else toDouble ((k : ℚ) / (n : ℚ))

/-- The callback of `resultSet.reduce` in `reduceResults`: the loop
`Object.keys(cur).forEach(type => ...)` over the properties of `cur` in enumeration order,
each visited with its value `cur[type]`; `pre[type]` is added to when it is truthy and
assigned otherwise. -/
def reduceInto (pre : Result) : Result → Result
  | [] => pre
  | (type, value) :: rest =>
    match pre.get type with
    | some old =>
      if old.truthy then reduceInto (pre.set type (old.add value)) rest
      else reduceInto (pre.set type value) rest
    | none => reduceInto (pre.set type value) rest

/-- The local function `reduceResults(resultSet)` of `report`: a `reduce` from `{}`. -/
def reduceResults (resultSet : List Result) : Result :=
  resultSet.foldl reduceInto []

/-- The loop `Object.keys(reducedSet).forEach(type => ...)` of `calcAverages`, on the
variables `sum` and `result`. -/
def averageInto (iterations : Nat) : Result → JSQuot × Table JSQuot → JSQuot × Table JSQuot
  | [], acc => acc
  | (type, value) :: rest, (sum, result) =>
    averageInto iterations rest
      (sum.add (value.divNat iterations), result.set type (value.divNat iterations))

/-- The local function `calcAverages(reducedSet, iterations)` of `report`. -/
def calcAverages (reducedSet : Result) (iterations : Nat) : Table JSQuot :=
  (averageInto iterations reducedSet (.fin 0, [])).2.set "Total Damage"
    (averageInto iterations reducedSet (.fin 0, [])).1

/-- An attack result with integer values as a `Result`. -/
def asResult (r : List (String × Int)) : Result :=
  r.map (fun p => (p.1, JSNum.int p.2))

/-- One more name seen: it is listed after the names seen so far unless it is among them. -/
def seeName (seen : List String) (t : String) : List String :=
  if t ∈ seen then seen else seen ++ [t]

/-- The damage types occurring in a list of entries, each listed once, in the order of
their first occurrence. -/
def typesOf (entries : List (String × Int)) : List String :=
  (entries.map Prod.fst).foldl seeName []

/-- The average of the type `t` over `n` iterations: the sum of the values that the entries
list under `t`, divided by `n`, as a double. -/
def averageOf (entries : List (String × Int)) (n : Nat) (t : String) : JSQuot :=
  toDouble ((sumOf t entries : ℚ) / (n : ℚ))

/-- The sum of the per-type averages, added up as doubles from `0` in the order of the first
occurrence of the types. -/
def totalOf (entries : List (String × Int)) (n : Nat) : JSQuot :=
  (typesOf entries).foldl (fun acc t => acc.add (averageOf entries n t)) (.fin 0)

/-- The string is an array index, the canonical numeral of an integer in `[0, 2 ^ 32 - 2]`:
the keys that an object enumerates first and in ascending order, whenever they were
inserted. -/
def isArrayIndex (s : String) : Bool :=
  match s.toNat? with
  | some k => decide (k < 4294967295) && decide (String.mk (numeral k) = s)
  | none => false

/-- The map `r` holds, under every type of `done`, the sum of the values that `done` lists
under that type, and nothing else. -/
def Sums (r : Result) (done : List (String × Int)) : Prop :=
  ∀ t, r.get t = if t ∈ done.map Prod.fst then some (.int (sumOf t done)) else none

/-- The weapon `new Weapon({enchant: [{type: 'Total Damage', bonus: 3}]})`. -/
def totalWeapon : Weapon :=
  { name := .str "Unnamed Weapon", minCrit := .num (.int 19), critMultiplier := .num (.int 2),
    enchantments := [⟨.str "Total Damage", .num (.int 3)⟩], bonuses := [],
    damage := .str "1d4", numCrits := 0 }

/-- A history of one attack result with the types `Physical` and `Fire`. -/
def sampleHistory : List (List (String × Int)) :=
  [[("Physical", 1), ("Fire", 2)]]

/-! # Theorems -/

/-! ### Decimal numerals -/

theorem digitChar_mem : ∀ k, k < 10 → Nat.digitChar k ∈ digitChars := by decide

theorem digitChar_value : ∀ k, k < 10 → (Nat.digitChar k).toNat - 48 = k := by decide

theorem digitChars_isDigit : ∀ c ∈ digitChars, c.isDigit = true := by decide

theorem digitChars_not_space : ∀ c ∈ digitChars, isJSSpace c = false := by decide

theorem digitChars_ne_d : ∀ c ∈ digitChars, c ≠ 'd' := by decide

theorem digitChars_ne_minus : ∀ c ∈ digitChars, c ≠ '-' := by decide

theorem digitChars_ne_plus : ∀ c ∈ digitChars, c ≠ '+' := by decide

theorem toDigitsCore_append (fuel : Nat) : ∀ (n : Nat) (ds : List Char),
    Nat.toDigitsCore 10 fuel n ds = Nat.toDigitsCore 10 fuel n [] ++ ds := by
  induction fuel with
  | zero => intro n ds; simp [Nat.toDigitsCore]
  | succ fuel ih =>
    intro n ds
    simp only [Nat.toDigitsCore]
    split
    · simp
    · rw [ih (n / 10) (Nat.digitChar (n % 10) :: ds), ih (n / 10) [Nat.digitChar (n % 10)]]
      simp

theorem digitsValue_append (xs : List Char) (c : Char) :
    digitsValue (xs ++ [c]) = digitsValue xs * 10 + (c.toNat - 48) := by
  simp [digitsValue, List.foldl_append]

theorem toDigitsCore_spec (fuel : Nat) : ∀ n, n < fuel →
    Nat.toDigitsCore 10 fuel n [] ≠ [] ∧
    (∀ c ∈ Nat.toDigitsCore 10 fuel n [], c ∈ digitChars) ∧
    digitsValue (Nat.toDigitsCore 10 fuel n []) = n := by
  induction fuel with
  | zero => intro n h; omega
  | succ fuel ih =>
    intro n hn
    have hmod : n % 10 < 10 := Nat.mod_lt _ (by decide)
    simp only [Nat.toDigitsCore]
    split
    · rename_i h0
      refine ⟨by simp, ?_, ?_⟩
      · intro c hc
        simp only [List.mem_singleton] at hc
        subst hc
        exact digitChar_mem _ hmod
      · have : digitsValue [Nat.digitChar (n % 10)] = (Nat.digitChar (n % 10)).toNat - 48 := by
          simp [digitsValue]
        rw [this, digitChar_value _ hmod]
        omega
    · rename_i h0
      have hlt : n / 10 < fuel := by omega
      obtain ⟨_, h2, h3⟩ := ih (n / 10) hlt
      rw [toDigitsCore_append]
      refine ⟨by simp, ?_, ?_⟩
      · intro c hc
        rcases List.mem_append.mp hc with hc | hc
        · exact h2 c hc
        · simp only [List.mem_singleton] at hc
          subst hc
          exact digitChar_mem _ hmod
      · rw [digitsValue_append, h3, digitChar_value _ hmod]
        omega

theorem numeral_ne_nil (n : Nat) : numeral n ≠ [] :=
  (toDigitsCore_spec (n + 1) n (Nat.lt_succ_self n)).1

theorem numeral_digits (n : Nat) : ∀ c ∈ numeral n, c ∈ digitChars :=
  (toDigitsCore_spec (n + 1) n (Nat.lt_succ_self n)).2.1

theorem numeral_value (n : Nat) : digitsValue (numeral n) = n :=
  (toDigitsCore_spec (n + 1) n (Nat.lt_succ_self n)).2.2

theorem parseDigits_numeral (n : Nat) : parseDigits (numeral n) = some n := by
  unfold parseDigits
  have h1 := numeral_ne_nil n
  have h2 : (numeral n).all Char.isDigit = true := by
    rw [List.all_eq_true]
    intro c hc
    exact digitChars_isDigit c (numeral_digits n c hc)
  simp [h1, h2, numeral_value]

theorem dropWhile_of_all_false {p : Char → Bool} (l : List Char)
    (h : ∀ c ∈ l, p c = false) : l.dropWhile p = l := by
  cases l with
  | nil => rfl
  | cons c cs => simp [List.dropWhile, h c (List.mem_cons_self c cs)]

theorem trimSpace_of_no_space (l : List Char) (h : ∀ c ∈ l, isJSSpace c = false) :
    trimSpace l = l := by
  unfold trimSpace
  rw [dropWhile_of_all_false l h, dropWhile_of_all_false l.reverse]
  · simp
  · intro c hc
    exact h c (List.mem_reverse.mp hc)

theorem stringToNumber_numeral (n : Nat) :
    stringToNumber (String.mk (numeral n)) = .int n := by
  have hd := numeral_digits n
  have hne := numeral_ne_nil n
  have htrim : trimSpace (numeral n) = numeral n :=
    trimSpace_of_no_space _ (fun c hc => digitChars_not_space c (hd c hc))
  unfold stringToNumber
  simp only [String.toList, htrim]
  split
  · rename_i h; exact absurd h hne
  · rename_i ds h
    have : '-' ∈ numeral n := by rw [h]; exact List.mem_cons_self _ _
    exact absurd rfl (digitChars_ne_minus _ (hd _ this))
  · rename_i ds h
    have : '+' ∈ numeral n := by rw [h]; exact List.mem_cons_self _ _
    exact absurd rfl (digitChars_ne_plus _ (hd _ this))
  · simp [parseDigits_numeral]

theorem splitOnChar_of_not_mem (sep : Char) (l : List Char) (h : sep ∉ l) :
    splitOnChar sep l = [l] := by
  induction l with
  | nil => rfl
  | cons c cs ih =>
    have hc : c ≠ sep := fun e => h (e ▸ List.mem_cons_self c cs)
    have hcs : sep ∉ cs := fun e => h (List.mem_cons_of_mem c e)
    simp [splitOnChar, hc, ih hcs]

theorem splitOnChar_append (sep : Char) (l r : List Char) (h : sep ∉ l) :
    splitOnChar sep (l ++ sep :: r) = l :: splitOnChar sep r := by
  induction l with
  | nil => simp [splitOnChar]
  | cons c cs ih =>
    have hc : c ≠ sep := fun e => h (e ▸ List.mem_cons_self c cs)
    have hcs : sep ∉ cs := fun e => h (List.mem_cons_of_mem c e)
    simp [splitOnChar, hc, ih hcs]

theorem d_not_mem_numeral (n : Nat) : 'd' ∉ numeral n :=
  fun h => digitChars_ne_d _ (numeral_digits n _ h) rfl

theorem splitOnChar_dice (n m : Nat) :
    splitOnChar 'd' (numeral n ++ 'd' :: numeral m) = [numeral n, numeral m] := by
  rw [splitOnChar_append _ _ _ (d_not_mem_numeral n),
    splitOnChar_of_not_mem _ _ (d_not_mem_numeral m)]

theorem diceExpr_eq (n m : Nat) :
    diceExpr n m = .str (String.mk (numeral n ++ 'd' :: numeral m)) := by
  have h1 : ¬ ((n : Int) < 0) := by omega
  have h2 : ¬ ((m : Int) < 0) := by omega
  simp only [diceExpr, JSVal.add, JSVal.toPrimitive, JSVal.toStr, JSNum.toStr, h1, h2,
    if_false, Int.toNat_ofNat, numeral]
  congr 1
  apply String.ext
  simp [String.data_append]

/-! ## The random source as a stream of octets -/

theorem RandomBuffer.readFuel_eq_read (fuel : Nat) (rb : RandomBuffer) (mod : JSVal)
    (src : ByteSource) : rb.readFuel (fuel + 2) mod src = some (rb.read mod src) := by
  simp only [RandomBuffer.readFuel, RandomBuffer.read]
  split
  · rfl
  · simp [RandomBuffer.reset, BUFFER_LENGTH]

theorem RandomBuffer.read_value (rb : RandomBuffer) (mod : JSVal) (src : ByteSource) :
    (rb.read mod src).1 =
      if mod.truthy && mod.isNumber
      then ((JSNum.int (rb.upcoming src 0)).rem mod.toNumber).add (.int 1)
      else .int (rb.upcoming src 0) := by
  simp only [RandomBuffer.read, RandomBuffer.upcoming, Nat.add_zero]
  split
  · simp [RandomBuffer.serve, RandomBuffer.readUInt8]
  · rename_i h
    have : BUFFER_LENGTH - rb.idx = 0 := by omega
    simp [RandomBuffer.serve, RandomBuffer.readUInt8, RandomBuffer.reset, randomBytes, this]

theorem RandomBuffer.read_upcoming (rb : RandomBuffer) (mod : JSVal) (src : ByteSource)
    (i : Nat) :
    (rb.read mod src).2.1.upcoming (rb.read mod src).2.2 i = rb.upcoming src (i + 1) := by
  simp only [RandomBuffer.read, RandomBuffer.upcoming]
  by_cases h : rb.idx < BUFFER_LENGTH
  · simp only [h, if_true, RandomBuffer.serve]
    by_cases h2 : rb.idx + 1 + i < BUFFER_LENGTH
    · have h3 : rb.idx + (i + 1) < BUFFER_LENGTH := by omega
      simp only [h2, h3, if_true]
      congr 2
      omega
    · have h3 : ¬ rb.idx + (i + 1) < BUFFER_LENGTH := by omega
      simp only [h2, h3, if_false]
      congr 2
      omega
  · have h0 : BUFFER_LENGTH - rb.idx = 0 := by omega
    have h3 : ¬ rb.idx + (i + 1) < BUFFER_LENGTH := by omega
    simp only [h, h3, if_false, RandomBuffer.serve, RandomBuffer.reset, randomBytes, h0]
    by_cases h2 : 0 + 1 + i < BUFFER_LENGTH
    · simp only [h2, if_true, Nat.mod_mod]
      congr 2
      omega
    · simp only [h2, if_false]
      have e : i - (BUFFER_LENGTH - (0 + 1)) + BUFFER_LENGTH = i + 1 - 0 := by
        simp only [BUFFER_LENGTH] at h2 ⊢
        omega
      rw [e]

theorem RandomBuffer.read_idx_pos (rb : RandomBuffer) (mod : JSVal) (src : ByteSource) :
    0 < (rb.read mod src).2.1.idx := by
  simp only [RandomBuffer.read]
  split <;> simp [RandomBuffer.serve]

theorem face_bounds (mod : Int) (byte : Nat) (h : 0 < mod) :
    1 ≤ face mod byte ∧ face mod byte ≤ mod := by
  unfold face
  have h0 : (0 : Int) ≤ (byte : Int) := Int.ofNat_nonneg byte
  have h1 : 0 ≤ Int.tmod (byte : Int) mod := Int.tmod_nonneg _ h0
  have h2 : Int.tmod (byte : Int) mod < mod := Int.tmod_lt_of_pos _ h
  omega

theorem faceSum_bounds (mod : Int) (h : 0 < mod) (k : Nat) : ∀ bytes : Nat → Nat,
    (k : Int) ≤ faceSum mod bytes k ∧ faceSum mod bytes k ≤ k * mod := by
  induction k with
  | zero => intro bytes; simp [faceSum]
  | succ k ih =>
    intro bytes
    have h1 := face_bounds mod (bytes 0) h
    have h2 := ih (fun i => bytes (i + 1))
    simp only [faceSum]
    push_cast
    constructor
    · omega
    · nlinarith [h1.2, h2.2]

theorem faceSum_congr (mod : Int) (k : Nat) : ∀ (a b : Nat → Nat),
    (∀ i, i < k → a i = b i) → faceSum mod a k = faceSum mod b k := by
  induction k with
  | zero => intro a b _; rfl
  | succ k ih =>
    intro a b h
    simp only [faceSum]
    rw [h 0 (Nat.succ_pos k), ih (fun i => a (i + 1)) (fun i => b (i + 1))
      (fun i hi => h (i + 1) (Nat.succ_lt_succ hi))]

/-! ## `Dice.roll` on the expression `n + 'd' + m` -/

theorem rollLoop_max (m : Int) (rb : RandomBuffer) (src : ByteSource) (k : Nat) :
    ∀ s : Int, Dice.rollLoop true (.int m) k (.int s) rb src = (.int (s + k * m), rb, src) := by
  induction k with
  | zero => intro s; simp [Dice.rollLoop]
  | succ k ih =>
    intro s
    simp only [Dice.rollLoop, if_true, JSNum.add, ih]
    push_cast
    congr 2
    ring

theorem read_face (rb : RandomBuffer) (src : ByteSource) (m : Int) (hm : m ≠ 0) :
    (rb.read (.num (.int m)) src).1 = .int (face m (rb.upcoming src 0)) := by
  rw [RandomBuffer.read_value]
  simp [JSVal.truthy, JSNum.truthy, JSVal.isNumber, JSVal.toNumber, JSNum.rem, JSNum.add, hm,
    face]

theorem rollLoop_random (m : Int) (hm : m ≠ 0) (k : Nat) :
    ∀ (s : Int) (rb : RandomBuffer) (src : ByteSource),
      (Dice.rollLoop false (.int m) k (.int s) rb src).1 =
        .int (s + faceSum m (rb.upcoming src) k) := by
  induction k with
  | zero => intro s rb src; simp [Dice.rollLoop, faceSum]
  | succ k ih =>
    intro s rb src
    have hup : ((rb.read (.num (.int m)) src).2.1.upcoming (rb.read (.num (.int m)) src).2.2) =
        fun i => rb.upcoming src (i + 1) := by
      funext i
      exact RandomBuffer.read_upcoming rb _ src i
    simp only [Dice.rollLoop, Bool.false_eq_true, if_false, read_face rb src m hm, JSNum.add,
      ih, hup, faceSum]
    congr 1
    ring

theorem numeral_head (n : Nat) : ∃ c cs, numeral n = c :: cs ∧ c ∈ digitChars := by
  have hne := numeral_ne_nil n
  have hd := numeral_digits n
  cases h : numeral n with
  | nil => exact absurd h hne
  | cons c cs => exact ⟨c, cs, rfl, hd c (by rw [h]; exact List.mem_cons_self c cs)⟩

theorem mk_numeral_ne_empty (n : Nat) : String.mk (numeral n) ≠ "" := by
  intro h
  have : (String.mk (numeral n)).data = "".data := by rw [h]
  exact numeral_ne_nil n this

theorem roll_diceExpr (n m : Nat) (hn : 0 < n) (hm : 0 < m) (max : Bool) (w : World) :
    Dice.roll (diceExpr n m) max w =
      (.num (Dice.rollLoop max (.int m) n (.int 0) (Dice.ensureRandom w).1
          (Dice.ensureRandom w).2).1,
        ⟨some (Dice.rollLoop max (.int m) n (.int 0) (Dice.ensureRandom w).1
          (Dice.ensureRandom w).2).2.1,
        (Dice.rollLoop max (.int m) n (.int 0) (Dice.ensureRandom w).1
          (Dice.ensureRandom w).2).2.2⟩) := by
  obtain ⟨c, cs, hc, _⟩ := numeral_head n
  have hne : String.mk (numeral n ++ 'd' :: numeral m) ≠ "" := by
    intro h
    have : (String.mk (numeral n ++ 'd' :: numeral m)).data = "".data := by rw [h]
    simp [hc] at this
  have hn0 : ¬ ((n : Int) = 0) := by omega
  have hm0 : ¬ ((m : Int) = 0) := by omega
  rw [diceExpr_eq]
  simp only [Dice.roll, JSVal.truthy, JSVal.isString, JSVal.toStr, String.toList,
    splitOnChar_dice, hne, mk_numeral_ne_empty, stringToNumber_numeral, JSVal.toNumber,
    JSNum.truthy, Dice.loopCount, Int.toNat_ofNat, ne_eq, not_false_eq_true, decide_True,
    Bool.and_self, if_true, if_false, hn0, hm0]

theorem indexOfFrom_singleton_mem (c : Char) (l : List Char) (h : c ∈ l) :
    ∀ i : Nat, (i : Int) ≤ indexOfFrom [c] l i := by
  induction l with
  | nil => simp at h
  | cons x xs ih =>
    intro i
    simp only [indexOfFrom]
    split
    · exact le_refl _
    · rename_i hp
      have hx : c ≠ x := by
        intro e
        apply hp
        simp [List.isPrefixOf, e]
      have hxs : c ∈ xs := by
        rcases List.mem_cons.mp h with h | h
        · exact absurd h hx
        · exact h
      have := ih hxs (i + 1)
      push_cast at this
      omega

theorem stringToNumber_dice (n m : Nat) :
    stringToNumber (String.mk (numeral n ++ 'd' :: numeral m)) = .nan := by
  obtain ⟨c, cs, hc, hcd⟩ := numeral_head n
  have hsp : ∀ x ∈ numeral n ++ 'd' :: numeral m, isJSSpace x = false := by
    intro x hx
    rcases List.mem_append.mp hx with hx | hx
    · exact digitChars_not_space x (numeral_digits n x hx)
    · rcases List.mem_cons.mp hx with hx | hx
      · subst hx; decide
      · exact digitChars_not_space x (numeral_digits m x hx)
  have hnd : parseDigits (numeral n ++ 'd' :: numeral m) = none := by
    unfold parseDigits
    have : (numeral n ++ 'd' :: numeral m).all Char.isDigit = false := by
      rw [List.all_eq_false]
      exact ⟨'d', by simp, by decide⟩
    simp [this]
  unfold stringToNumber
  simp only [String.toList, trimSpace_of_no_space _ hsp]
  split
  · rename_i h; simp [hc] at h
  · rename_i ds h
    simp only [hc, List.cons_append, List.cons.injEq] at h
    exact absurd h.1 (digitChars_ne_minus c hcd)
  · rename_i ds h
    simp only [hc, List.cons_append, List.cons.injEq] at h
    exact absurd h.1 (digitChars_ne_plus c hcd)
  · simp [hnd]

theorem parse_diceExpr (n m : Nat) (max : Bool) (w : World) :
    Bonus.parse (diceExpr n m) max w =
      (.ok (Dice.roll (diceExpr n m) max w).1, (Dice.roll (diceExpr n m) max w).2) := by
  have hidx : (indexOf (String.mk (numeral n ++ 'd' :: numeral m)) "d").gt (.int (-1))
      = true := by
    have := indexOfFrom_singleton_mem 'd' (numeral n ++ 'd' :: numeral m) (by simp) 0
    simp only [indexOf, JSNum.gt, String.toList, decide_eq_true_eq]
    push_cast at this
    omega
  rw [diceExpr_eq]
  simp [Bonus.parse, stringToNumber_dice, JSNum.truthy, hidx]

theorem settled_upcoming (w : World) (i : Nat) : w.settled.upcoming i = w.upcoming i := by
  simp [World.upcoming, World.settled, Dice.ensureRandom]

theorem roll_diceExpr_max (n m : Nat) (hn : 0 < n) (hm : 0 < m) (w : World) :
    Dice.roll (diceExpr n m) true w = (.num (.int (n * m)), w.settled) := by
  rw [roll_diceExpr n m hn hm, rollLoop_max]
  simp [World.settled]

theorem parse_diceExpr_max (n m : Nat) (hn : 0 < n) (hm : 0 < m) (w : World) :
    Bonus.parse (diceExpr n m) true w = (.ok (.num (.int (n * m))), w.settled) := by
  rw [parse_diceExpr, roll_diceExpr_max n m hn hm]

/-- C4: for positive integers `n` and `m`, evaluating the dice string `n + 'd' + m` with the
max flag set returns exactly `n * m`, through `Dice.roll` and through `Bonus.parse` alike, and
consumes no random octet: the world left behind only has its singleton created, and the
octets still to be drawn are the same as before. -/
theorem dice_max_roll_eq_product (n m : Nat) (hn : 0 < n) (hm : 0 < m) (w : World) :
    Dice.roll (diceExpr n m) true w = (.num (.int (n * m)), w.settled) ∧
    Bonus.parse (diceExpr n m) true w = (.ok (.num (.int (n * m))), w.settled) ∧
    (∀ i, w.settled.upcoming i = w.upcoming i) := by
  exact ⟨roll_diceExpr_max n m hn hm w, parse_diceExpr_max n m hn hm w, settled_upcoming w⟩

/-- C4 at the dice `2d6` in the sample world. -/
theorem dice_max_roll_eq_product_witness :
    (0 < 2 ∧ 0 < 6) ∧
    Dice.roll (diceExpr 2 6) true sampleWorld = (.num (.int ((2 : Nat) * (6 : Nat))), sampleWorld.settled) ∧
    Bonus.parse (diceExpr 2 6) true sampleWorld
      = (.ok (.num (.int ((2 : Nat) * (6 : Nat)))), sampleWorld.settled) ∧
    (∀ i, sampleWorld.settled.upcoming i = sampleWorld.upcoming i) :=
  ⟨by decide, dice_max_roll_eq_product 2 6 (by decide) (by decide) sampleWorld⟩

theorem roll_diceExpr_random (n m : Nat) (hn : 0 < n) (hm : 0 < m) (w : World) :
    (Dice.roll (diceExpr n m) false w).1 = .num (.int (faceSum m w.upcoming n)) := by
  have hm0 : (m : Int) ≠ 0 := by omega
  rw [roll_diceExpr n m hn hm, rollLoop_random m hm0]
  simp only [Int.zero_add]
  rfl

theorem face_eq_mod (m byte : Nat) : face m byte = ((byte % m : Nat) : Int) + 1 := by
  unfold face
  rw [Int.natCast_mod]
  congr 1

theorem RandomBuffer.upcoming_lt (rb : RandomBuffer) (src : ByteSource) (i : Nat) :
    rb.upcoming src i < 256 := by
  unfold RandomBuffer.upcoming
  split <;> exact Nat.mod_lt _ (by decide)

/-- C5: for every positive bound `m` and every state of the buffer, `read(m)` returns the
integer `(octet % m) + 1` of the octet it consumes, which lies in `[1, m]`; `read` with an
absent or falsy bound returns that raw octet itself, in `[0, 255]`; every `read` consumes
exactly that one octet (the octets still to come are the former ones shifted by one); hence
for positive `n` and `m` an unforced `Dice.roll(n + 'd' + m)` is the sum of the faces of the
next `n` octets, lies in `[n, n * m]`, and two worlds that serve the same next `n` octets
yield the same result. -/
theorem read_and_roll_bounds (n m : Nat) (hn : 0 < n) (hm : 0 < m) :
    (∀ (rb : RandomBuffer) (src : ByteSource),
      (rb.read (.num (.int m)) src).1 = .int (((rb.upcoming src 0 % m : Nat) : Int) + 1) ∧
      (1 : Int) ≤ ((rb.upcoming src 0 % m : Nat) : Int) + 1 ∧
      ((rb.upcoming src 0 % m : Nat) : Int) + 1 ≤ m) ∧
    (∀ (rb : RandomBuffer) (src : ByteSource) (mod : JSVal), mod.truthy = false →
      (rb.read mod src).1 = .int (rb.upcoming src 0) ∧ rb.upcoming src 0 ≤ 255) ∧
    (∀ (rb : RandomBuffer) (src : ByteSource) (mod : JSVal) (i : Nat),
      (rb.read mod src).2.1.upcoming (rb.read mod src).2.2 i = rb.upcoming src (i + 1)) ∧
    (∀ w : World,
      (Dice.roll (diceExpr n m) false w).1 = .num (.int (faceSum m w.upcoming n)) ∧
      (n : Int) ≤ faceSum m w.upcoming n ∧ faceSum m w.upcoming n ≤ n * m) ∧
    (∀ w1 w2 : World, (∀ i, i < n → w1.upcoming i = w2.upcoming i) →
      (Dice.roll (diceExpr n m) false w1).1 = (Dice.roll (diceExpr n m) false w2).1) := by
  have hm0 : (m : Int) ≠ 0 := by omega
  have hmpos : (0 : Int) < m := by omega
  refine ⟨?_, ?_, ?_, ?_, ?_⟩
  · intro rb src
    have hb := face_bounds m (rb.upcoming src 0) hmpos
    rw [face_eq_mod] at hb
    exact ⟨(read_face rb src m hm0).trans (congrArg JSNum.int (face_eq_mod m _)), hb.1, hb.2⟩
  · intro rb src mod hmod
    refine ⟨?_, ?_⟩
    · rw [RandomBuffer.read_value]
      simp [hmod]
    · have := RandomBuffer.upcoming_lt rb src 0
      omega
  · intro rb src mod i
    exact RandomBuffer.read_upcoming rb mod src i
  · intro w
    exact ⟨roll_diceExpr_random n m hn hm w, faceSum_bounds m hmpos n w.upcoming⟩
  · intro w1 w2 h
    rw [roll_diceExpr_random n m hn hm, roll_diceExpr_random n m hn hm,
      faceSum_congr m n w1.upcoming w2.upcoming h]

/-- C5 at the dice `2d6`: every unforced roll is the sum of the faces of the next two
octets and lies in `[2, 12]`; in the sample world, whose next octets are 3 and 4, it is
`(3 % 6 + 1) + (4 % 6 + 1) = 9`. -/
theorem read_and_roll_bounds_witness :
    (0 < 2 ∧ 0 < 6) ∧
    (∀ w : World,
      (Dice.roll (diceExpr 2 6) false w).1 = .num (.int (faceSum (6 : Nat) w.upcoming 2)) ∧
      ((2 : Nat) : Int) ≤ faceSum (6 : Nat) w.upcoming 2 ∧
      faceSum (6 : Nat) w.upcoming 2 ≤ (2 : Nat) * (6 : Nat)) ∧
    faceSum (6 : Nat) sampleWorld.upcoming 2 = 9 :=
  ⟨by decide, (read_and_roll_bounds 2 6 (by decide) (by decide)).2.2.2.1, by decide⟩

/-! ## `Weapon.attack`: the crit counter -/

theorem attack_weapon (self : Weapon) (max crit : Bool) (w : World) :
    (self.attack max crit w).2.1 =
      if (self.multiplierOf max crit w).gt (.num (.int 1)) && !crit && !max
      then { self with numCrits := self.numCrits + 1 }
      else self := by
  simp only [Weapon.attack]
  split
  · rfl
  · split <;> rfl

/-- C3: `attack` called with `max = true` or `crit = true` returns the weapon unchanged (the
crit counter and every other field); an unforced `attack()` changes nothing but `numCrits`,
which grows by exactly 1 when the d20 roll is `>= minCrit` and `critMultiplier > 1`, and
stays as it was otherwise. -/
theorem attack_crit_counter (self : Weapon) (max crit : Bool) (w : World) :
    (self.attack true crit w).2.1 = self ∧
    (self.attack max true w).2.1 = self ∧
    (self.attack false false w).2.1 =
      { self with numCrits := self.numCrits +
          if (Weapon.attackRoll false false w).ge self.minCrit
            && self.critMultiplier.gt (.num (.int 1)) then 1 else 0 } := by
  refine ⟨?_, ?_, ?_⟩
  · rw [attack_weapon]; simp
  · rw [attack_weapon]; simp
  · rw [attack_weapon]
    simp only [Weapon.multiplierOf]
    by_cases h : (Weapon.attackRoll false false w).ge self.minCrit = true
    · by_cases h2 : self.critMultiplier.gt (.num (.int 1)) = true
      · simp [h, h2]
      · simp [h, h2]
    · have h1 : JSVal.gt (.num (.int 1)) (.num (.int 1)) = false := by decide
      simp [h, h1]

/-! ## `Weapon.attack`: the result map -/

theorem evaluateBonuses_eq_accumulate (max : Bool) (multiplier : JSVal) (bs : List Bonus) :
    ∀ (r : Result) (w w2 : World) (vals : List (String × JSVal)),
      evaluateAll max bs w = (.ok vals, w2) →
      Weapon.evaluateBonuses max multiplier bs r w = (.ok (accumulate multiplier vals r), w2) := by
  induction bs with
  | nil =>
    intro r w w2 vals h
    simp only [evaluateAll, Prod.mk.injEq, Except.ok.injEq] at h
    obtain ⟨h1, h2⟩ := h
    subst h1 h2
    rfl
  | cons b bs ih =>
    intro r w w2 vals h
    simp only [evaluateAll] at h
    simp only [Weapon.evaluateBonuses]
    cases hb : b.evaluate max w with
    | mk res w1 =>
      cases res with
      | error e => simp [hb] at h
      | ok tv =>
        obtain ⟨type, value⟩ := tv
        simp only [hb] at h
        cases hrest : evaluateAll max bs w1 with
        | mk res2 w3 =>
          cases res2 with
          | error e => simp [hrest] at h
          | ok rest =>
            simp only [hrest, Prod.mk.injEq, Except.ok.injEq] at h
            obtain ⟨h1, h2⟩ := h
            subst h1 h2
            simp only [accumulate, accumulateOne]
            cases hg : Result.get type.toStr r with
            | none => exact ih _ _ _ _ hrest
            | some old =>
              by_cases ht : old.truthy = true
              · simp only [ht, if_true]; exact ih _ _ _ _ hrest
              · simp only [ht]; exact ih _ _ _ _ hrest

theorem evaluateAll_append (max : Bool) (as bs : List Bonus) (w w1 w2 : World)
    (va vb : List (String × JSVal)) (ha : evaluateAll max as w = (.ok va, w1))
    (hb : evaluateAll max bs w1 = (.ok vb, w2)) :
    evaluateAll max (as ++ bs) w = (.ok (va ++ vb), w2) := by
  induction as generalizing w va with
  | nil =>
    simp only [evaluateAll, Prod.mk.injEq, Except.ok.injEq] at ha
    obtain ⟨h1, h2⟩ := ha
    subst h1 h2
    simpa using hb
  | cons a as ih =>
    simp only [evaluateAll] at ha
    simp only [List.cons_append, evaluateAll]
    cases he : a.evaluate max w with
    | mk res w3 =>
      cases res with
      | error e => simp [he] at ha
      | ok tv =>
        obtain ⟨type, value⟩ := tv
        simp only [he] at ha
        cases hrest : evaluateAll max as w3 with
        | mk res2 w4 =>
          cases res2 with
          | error e => simp [hrest] at ha
          | ok rest =>
            simp only [hrest, Prod.mk.injEq, Except.ok.injEq] at ha
            obtain ⟨h1, h2⟩ := ha
            subst h1 h2
            simp [ih w3 rest hrest]

theorem accumulate_append (multiplier : JSVal) (va vb : List (String × JSVal)) :
    ∀ r, accumulate multiplier (va ++ vb) r = accumulate multiplier vb (accumulate multiplier va r) := by
  induction va with
  | nil => intro r; rfl
  | cons kv va ih =>
    intro r
    obtain ⟨k, v⟩ := kv
    simp only [List.cons_append, accumulate]
    exact ih _

theorem attack_eq_accumulate (self : Weapon) (max crit : Bool) (w w3 w4 : World)
    (v1 v2 : List (String × JSVal))
    (h1 : evaluateAll max self.enchantments
      (Dice.roll self.damage max (Dice.d20 (.num (.int 1)) (max || crit) w).2).2 = (.ok v1, w3))
    (h2 : evaluateAll max self.bonuses w3 = (.ok v2, w4)) :
    (self.attack max crit w).1 = .ok (accumulate (self.multiplierOf max crit w) (v1 ++ v2)
      [("Physical", Weapon.damageOf (self.multiplierOf max crit w)
        (Dice.roll self.damage max (Dice.d20 (.num (.int 1)) (max || crit) w).2).1)]) ∧
    (self.attack max crit w).2.2 = w4 := by
  simp only [Weapon.attack, Result.set,
    evaluateBonuses_eq_accumulate max _ self.enchantments _ _ w3 v1 h1,
    evaluateBonuses_eq_accumulate max _ self.bonuses _ _ w4 v2 h2, accumulate_append]
  trivial

theorem Result.get_set_same (key : String) (v : JSNum) (r : Result) :
    (r.set key v).get key = some v := by
  induction r with
  | nil => simp [Result.set, Result.get]
  | cons kv r ih =>
    obtain ⟨k, x⟩ := kv
    by_cases h : k = key
    · simp [Result.set, Result.get, h]
    · simp [Result.set, Result.get, h, ih]

theorem Result.get_set_other (key t : String) (v : JSNum) (r : Result) (h : t ≠ key) :
    (r.set key v).get t = r.get t := by
  induction r with
  | nil =>
    have : key ≠ t := fun e => h e.symm
    simp [Result.set, Result.get, this]
  | cons kv r ih =>
    obtain ⟨k, x⟩ := kv
    by_cases hk : k = key
    · have : ¬ k = t := fun e => h (e ▸ hk)
      have h2 : ¬ key = t := fun e => h e.symm
      simp [Result.set, Result.get, hk, h2]
    · by_cases hkt : k = t
      · subst hkt
        simp [Result.set, Result.get, hk]
      · simp [Result.set, Result.get, hk, hkt, ih]

theorem Result.mem_keys_iff (t : String) (r : Result) : t ∈ r.keys ↔ r.get t ≠ none := by
  induction r with
  | nil => simp [Result.keys, Result.get]
  | cons kv r ih =>
    obtain ⟨k, x⟩ := kv
    simp only [Result.keys, List.map_cons, List.mem_cons, Result.get] at ih ⊢
    by_cases h : k = t
    · simp [h]
    · have h2 : ¬ t = k := fun e => h e.symm
      simp [h, h2, ih]

theorem JSNum.mul_comm (a b : JSNum) : a.mul b = b.mul a := by
  cases a <;> cases b <;> simp [JSNum.mul, Int.mul_comm]

theorem sumOf_append (t : String) (a b : List (String × Int)) :
    sumOf t (a ++ b) = sumOf t a + sumOf t b := by
  induction a with
  | nil => simp [sumOf]
  | cons kv a ih =>
    obtain ⟨k, v⟩ := kv
    show (if k = t then v else 0) + sumOf t (a ++ b) = (if k = t then v else 0) + sumOf t a + sumOf t b
    rw [ih]
    omega

theorem sumOf_of_not_mem (t : String) (a : List (String × Int)) (h : t ∉ a.map Prod.fst) :
    sumOf t a = 0 := by
  induction a with
  | nil => rfl
  | cons kv a ih =>
    obtain ⟨k, v⟩ := kv
    simp only [List.map_cons, List.mem_cons, not_or] at h
    have hk : ¬ k = t := fun e => h.1 e.symm
    simp [sumOf, hk, ih h.2]

theorem holds_accumulateOne (multiplier : JSVal) (key : String) (v : Int) (r : Result)
    (done : List (String × Int)) (h : Holds multiplier.toNumber r done) :
    Holds multiplier.toNumber (accumulateOne multiplier key (.num (.int v)) r)
      (done ++ [(key, v)]) := by
  have hd : Weapon.damageOf multiplier (.num (.int v)) = multiplier.toNumber.mul (.int v) := by
    simp only [Weapon.damageOf, JSVal.mul, JSVal.toNumber]
    exact JSNum.mul_comm _ _
  intro t
  have ht := h t
  have hkey := h key
  by_cases htk : t = key
  · subst htk
    have hmem : t ∈ (done ++ [(t, v)]).map Prod.fst := by simp
    have hsum : sumOf t (done ++ [(t, v)]) = sumOf t done + v := by
      simp [sumOf_append, sumOf]
    rw [if_pos hmem, hsum]
    unfold accumulateOne
    by_cases hin : t ∈ done.map Prod.fst
    · rw [if_pos hin] at ht
      rw [ht]
      simp only [hd]
      cases hk : multiplier.toNumber with
      | nan => simp [JSNum.mul, JSNum.truthy, Result.get_set_same]
      | int c =>
        by_cases hz : c * sumOf t done = 0
        · simp [JSNum.mul, JSNum.truthy, Result.get_set_same, hz, Int.mul_add]
        · simp [JSNum.mul, JSNum.truthy, Result.get_set_same, hz, JSNum.add, Int.mul_add]
    · rw [if_neg hin] at ht
      rw [ht]
      simp only [hd, Result.get_set_same, sumOf_of_not_mem t done hin, Int.zero_add]
  · have hmem : t ∈ (done ++ [(key, v)]).map Prod.fst ↔ t ∈ done.map Prod.fst := by
      simp [htk]
    have hsum : sumOf t (done ++ [(key, v)]) = sumOf t done := by
      have : ¬ key = t := fun e => htk e.symm
      simp [sumOf_append, sumOf, this]
    have hget : (accumulateOne multiplier key (.num (.int v)) r).get t = r.get t := by
      unfold accumulateOne
      split
      · split <;> exact Result.get_set_other _ _ _ _ htk
      · exact Result.get_set_other _ _ _ _ htk
    rw [hget, ht, hsum]
    by_cases hin : t ∈ done.map Prod.fst
    · rw [if_pos hin, if_pos (hmem.mpr hin)]
    · rw [if_neg hin, if_neg (fun e => hin (hmem.mp e))]

theorem holds_accumulate (multiplier : JSVal) (vals : List (String × Int)) :
    ∀ (r : Result) (done : List (String × Int)), Holds multiplier.toNumber r done →
      Holds multiplier.toNumber (accumulate multiplier (asValues vals) r) (done ++ vals) := by
  induction vals with
  | nil => intro r done h; simpa [asValues, accumulate] using h
  | cons kv vals ih =>
    intro r done h
    obtain ⟨k, v⟩ := kv
    have := ih _ _ (holds_accumulateOne multiplier k v r done h)
    simpa [asValues, accumulate, List.append_assoc] using this

theorem holds_initial (multiplier : JSVal) (base : Int) :
    Holds multiplier.toNumber
      [("Physical", Weapon.damageOf multiplier (.num (.int base)))] [("Physical", base)] := by
  intro t
  have hd : Weapon.damageOf multiplier (.num (.int base))
      = multiplier.toNumber.mul (.int base) := by
    simp only [Weapon.damageOf, JSVal.mul, JSVal.toNumber]
    exact JSNum.mul_comm _ _
  by_cases h : t = "Physical"
  · subst h
    simp [Result.get, sumOf, hd]
  · have h2 : ¬ "Physical" = t := fun e => h e.symm
    simp [Result.get, h, h2]

/-! ## Well-formed dice expressions -/

theorem roll_diceExpr_value (n m : Nat) (hn : 0 < n) (hm : 0 < m) (max : Bool) (w : World) :
    ∃ v : Int, (Dice.roll (diceExpr n m) max w).1 = .num (.int v) ∧
      (max = true → v = n * m) ∧ (n : Int) ≤ v ∧ v ≤ n * m := by
  cases max with
  | true =>
    refine ⟨n * m, ?_, fun _ => rfl, ?_, le_refl _⟩
    · rw [roll_diceExpr_max n m hn hm w]
    · have : (1 : Int) ≤ m := by omega
      nlinarith
  | false =>
    have hmpos : (0 : Int) < m := by omega
    exact ⟨faceSum m w.upcoming n, roll_diceExpr_random n m hn hm w, fun h => by simp at h,
      faceSum_bounds m hmpos n w.upcoming⟩

theorem add_int_int (a b : Int) :
    (JSVal.num (.int a)).add (.num (.int b)) = .num (.int (a + b)) := rfl

theorem parseItems_int (xs : List JSVal)
    (h : ∀ x, x ∈ xs → ∀ (max : Bool) (w : World),
      ∃ (v : Int) (w1 : World), Bonus.parse x max w = (.ok (.num (.int v)), w1)) :
    ∀ (s : Int) (w : World), ∃ (v : Int) (w1 : World),
      Bonus.parseItems xs (.num (.int s)) w = (.ok (.num (.int v)), w1) := by
  induction xs with
  | nil => intro s w; exact ⟨s, w, by simp [Bonus.parseItems]⟩
  | cons x xs ih =>
    intro s w
    obtain ⟨v, w1, hv⟩ := h x (List.mem_cons_self x xs) false w
    obtain ⟨v2, w2, hv2⟩ := ih (fun y hy => h y (List.mem_cons_of_mem x hy)) (s + v) w1
    exact ⟨v2, w2, by simp [Bonus.parseItems, hv, add_int_int, hv2]⟩

theorem parseProps_int (kvs : List (String × JSVal))
    (h : ∀ kv, kv ∈ kvs → ∀ (max : Bool) (w : World),
      ∃ (v : Int) (w1 : World), Bonus.parse kv.2 max w = (.ok (.num (.int v)), w1)) :
    ∀ (s : Int) (w : World), ∃ (v : Int) (w1 : World),
      Bonus.parseProps kvs (.num (.int s)) w = (.ok (.num (.int v)), w1) := by
  induction kvs with
  | nil => intro s w; exact ⟨s, w, by simp [Bonus.parseProps]⟩
  | cons kv kvs ih =>
    intro s w
    obtain ⟨k, x⟩ := kv
    obtain ⟨v, w1, hv⟩ := h (k, x) (List.mem_cons_self _ kvs) false w
    obtain ⟨v2, w2, hv2⟩ := ih (fun y hy => h y (List.mem_cons_of_mem _ hy)) (s + v) w1
    exact ⟨v2, w2, by simp [Bonus.parseProps, hv, add_int_int, hv2]⟩

theorem parse_wellFormed {e : JSVal} (h : DiceExpression e) :
    ∀ (max : Bool) (w : World),
      ∃ (v : Int) (w1 : World), Bonus.parse e max w = (.ok (.num (.int v)), w1) := by
  induction h with
  | flat k => intro max w; exact ⟨k, w, by simp [Bonus.parse]⟩
  | dice n m hn hm =>
    intro max w
    obtain ⟨v, hv, _⟩ := roll_diceExpr_value n m hn hm max w
    exact ⟨v, (Dice.roll (diceExpr n m) max w).2, by rw [parse_diceExpr, hv]⟩
  | seq xs _ ih =>
    intro max w
    obtain ⟨v, w1, hv⟩ := parseItems_int xs ih 0 w
    exact ⟨v, w1, by simp only [Bonus.parse]; exact hv⟩
  | map kvs _ ih =>
    intro max w
    obtain ⟨v, w1, hv⟩ := parseProps_int kvs ih 0 w
    exact ⟨v, w1, by simp only [Bonus.parse]; exact hv⟩

theorem evaluateAll_wellFormed (max : Bool) (bs : List Bonus)
    (h : ∀ b, b ∈ bs → DiceExpression b.bonus) :
    ∀ w : World, ∃ (vals : List (String × Int)) (w1 : World),
      evaluateAll max bs w = (.ok (asValues vals), w1) ∧
      vals.map Prod.fst = bs.map (fun b => b.type.toStr) := by
  induction bs with
  | nil => intro w; exact ⟨[], w, by simp [evaluateAll, asValues], rfl⟩
  | cons b bs ih =>
    intro w
    obtain ⟨v, w1, hv⟩ := parse_wellFormed (h b (List.mem_cons_self b bs)) max w
    obtain ⟨vals, w2, hvals, hkeys⟩ := ih (fun c hc => h c (List.mem_cons_of_mem b hc)) w1
    refine ⟨(b.type.toStr, v) :: vals, w2, ?_, by simp [hkeys]⟩
    simp [evaluateAll, Bonus.evaluate, hv, hvals, asValues]

/-- C2: for a weapon whose base damage is a string `NdM` with positive `N`, `M` and whose
enchantments and bonuses are well-formed, and for every flag combination, `attack` succeeds;
the draws are consumed in the order d20, base damage, enchantments, bonuses (each evaluation
starts in the world left by the one before); the keys of the result are exactly `Physical`
and the types of the enchantments and bonuses; and the value under each key `t` is the
multiplier times the sum of the evaluated values of type `t`, plus the evaluated base damage
when `t` is `Physical`, where the multiplier is `critMultiplier` if the d20 roll is
`>= minCrit` and `1` otherwise. -/
theorem attack_result_formula (self : Weapon) (n m : Nat) (hn : 0 < n) (hm : 0 < m)
    (hdmg : self.damage = diceExpr n m)
    (hwf : ∀ b, b ∈ self.enchantments ++ self.bonuses → b.WellFormed)
    (max crit : Bool) (w : World) :
    ∃ (base : Int) (vals1 vals2 : List (String × Int)) (w3 w4 : World) (result : Result),
      (Dice.roll self.damage max (Dice.d20 (.num (.int 1)) (max || crit) w).2).1
        = .num (.int base) ∧
      evaluateAll max self.enchantments
        (Dice.roll self.damage max (Dice.d20 (.num (.int 1)) (max || crit) w).2).2
        = (.ok (asValues vals1), w3) ∧
      evaluateAll max self.bonuses w3 = (.ok (asValues vals2), w4) ∧
      (self.attack max crit w).1 = .ok result ∧
      (self.attack max crit w).2.2 = w4 ∧
      (∀ t, t ∈ result.keys ↔
        t = "Physical" ∨ ∃ b, b ∈ self.enchantments ++ self.bonuses ∧ b.type.toStr = t) ∧
      (∀ t, t ∈ result.keys → result.get t = some
        ((if (Dice.d20 (.num (.int 1)) (max || crit) w).1.ge self.minCrit
            then self.critMultiplier else .num (.int 1)).toNumber.mul
          (.int ((if t = "Physical" then base else 0) + sumOf t (vals1 ++ vals2))))) := by
  obtain ⟨base, hbase, _⟩ := roll_diceExpr_value n m hn hm max
    (Dice.d20 (.num (.int 1)) (max || crit) w).2
  rw [← hdmg] at hbase
  obtain ⟨vals1, w3, h1, hk1⟩ := evaluateAll_wellFormed max self.enchantments
    (fun b hb => (hwf b (List.mem_append_left _ hb)).2)
    (Dice.roll self.damage max (Dice.d20 (.num (.int 1)) (max || crit) w).2).2
  obtain ⟨vals2, w4, h2, hk2⟩ := evaluateAll_wellFormed max self.bonuses
    (fun b hb => (hwf b (List.mem_append_right _ hb)).2) w3
  obtain ⟨hres, hworld⟩ := attack_eq_accumulate self max crit w w3 w4 _ _ h1 h2
  have hval : asValues vals1 ++ asValues vals2 = asValues (vals1 ++ vals2) := by
    simp [asValues]
  rw [hbase, hval] at hres
  have hholds := holds_accumulate (self.multiplierOf max crit w) (vals1 ++ vals2) _ _
    (holds_initial (self.multiplierOf max crit w) base)
  have hkeys : ∀ t, t ∈ ([("Physical", base)] ++ (vals1 ++ vals2)).map Prod.fst ↔
      t = "Physical" ∨ ∃ b, b ∈ self.enchantments ++ self.bonuses ∧ b.type.toStr = t := by
    intro t
    simp only [List.map_append, List.map_cons, List.map_nil, List.singleton_append,
      List.mem_cons, List.mem_append, hk1, hk2, List.mem_map]
    constructor
    · rintro (h | ⟨b, hb, rfl⟩ | ⟨b, hb, rfl⟩)
      · exact Or.inl h
      · exact Or.inr ⟨b, Or.inl hb, rfl⟩
      · exact Or.inr ⟨b, Or.inr hb, rfl⟩
    · rintro (h | ⟨b, hb | hb, rfl⟩)
      · exact Or.inl h
      · exact Or.inr (Or.inl ⟨b, hb, rfl⟩)
      · exact Or.inr (Or.inr ⟨b, hb, rfl⟩)
  refine ⟨base, vals1, vals2, w3, w4, _, hbase, h1, h2, hres, hworld, ?_, ?_⟩
  · intro t
    rw [Result.mem_keys_iff, hholds t, ← hkeys t]
    by_cases hin : t ∈ ([("Physical", base)] ++ (vals1 ++ vals2)).map Prod.fst
    · rw [if_pos hin]
      exact ⟨fun _ => hin, fun _ => Option.some_ne_none _⟩
    · rw [if_neg hin]
      exact ⟨fun h => absurd rfl h, fun h => absurd h hin⟩
  · intro t ht
    rw [Result.mem_keys_iff, hholds t] at ht
    rw [hholds t]
    by_cases hin : t ∈ ([("Physical", base)] ++ (vals1 ++ vals2)).map Prod.fst
    · rw [if_pos hin]
      have hs : sumOf t ([("Physical", base)] ++ (vals1 ++ vals2))
          = (if t = "Physical" then base else 0) + sumOf t (vals1 ++ vals2) := by
        rw [sumOf_append]
        by_cases hp : t = "Physical"
        · subst hp; simp [sumOf]
        · have : ¬ "Physical" = t := fun e => hp e.symm
          simp [sumOf, hp, this]
      rw [hs]
      rfl
    · rw [if_neg hin] at ht
      exact absurd rfl ht

theorem sampleWeapon_wellFormed :
    ∀ b, b ∈ sampleWeapon.enchantments ++ sampleWeapon.bonuses → b.WellFormed := by
  intro b hb
  simp only [sampleWeapon, List.singleton_append, List.mem_cons, List.mem_singleton] at hb
  have hnil : ¬ b ∈ ([] : List Bonus) := List.not_mem_nil b
  rcases hb with rfl | rfl | hb
  · exact ⟨by decide, DiceExpression.dice 2 6 (by decide) (by decide)⟩
  · exact ⟨by decide, DiceExpression.flat 3⟩
  · exact absurd hb hnil

/-- C2 at the sample weapon, attacked unforced in the sample world. -/
theorem attack_result_formula_witness :
    (0 < 1 ∧ 0 < 6 ∧ sampleWeapon.damage = diceExpr 1 6) ∧
    ∃ result : Result, (sampleWeapon.attack false false sampleWorld).1 = .ok result ∧
      ∀ t, t ∈ result.keys ↔
        t = "Physical" ∨
          ∃ b, b ∈ sampleWeapon.enchantments ++ sampleWeapon.bonuses ∧ b.type.toStr = t := by
  refine ⟨⟨by decide, by decide, rfl⟩, ?_⟩
  obtain ⟨_, _, _, _, _, r, _, _, _, hr, _, hk, _⟩ :=
    attack_result_formula sampleWeapon 1 6 (by decide) (by decide) rfl
      sampleWeapon_wellFormed false false sampleWorld
  exact ⟨r, hr, hk⟩

/-! ## `Weapon.attack(true)` as a maximum -/

theorem d20_one (flag : Bool) (w : World) :
    Dice.d20 (.num (.int 1)) flag w = Dice.roll (diceExpr 1 20) flag w := rfl

theorem attackRoll_value (max crit : Bool) (w : World) :
    ∃ r : Int, (Dice.d20 (.num (.int 1)) (max || crit) w).1 = .num (.int r) ∧
      r ≤ 20 ∧ ((max || crit) = true → r = 20) := by
  rw [d20_one]
  obtain ⟨v, hv, hmax, _, hle⟩ :=
    roll_diceExpr_value 1 20 (by decide) (by decide) (max || crit) w
  refine ⟨v, hv, ?_, ?_⟩
  · simpa using hle
  · intro h
    simpa using hmax h

theorem ge_num (a : JSNum) (mc : JSVal) :
    (JSVal.num a).ge mc = a.ge mc.toPrimitive.toNumber := by
  unfold JSVal.ge
  simp only [JSVal.toPrimitive]
  generalize mc.toPrimitive = q
  cases q <;> rfl

theorem ge_of_ge_of_le (r s : Int) (mc : JSVal) (hrs : r ≤ s)
    (h : (JSVal.num (.int r)).ge mc = true) : (JSVal.num (.int s)).ge mc = true := by
  rw [ge_num] at h ⊢
  cases hq : mc.toPrimitive.toNumber with
  | nan => simp [hq, JSNum.ge] at h
  | int c =>
    simp only [hq, JSNum.ge, decide_eq_true_eq] at h ⊢
    omega

theorem parse_simple {e : JSVal} (h : SimpleExpression e) :
    ∃ top : Int,
      (∀ w : World, ∃ w1 : World, Bonus.parse e true w = (.ok (.num (.int top)), w1)) ∧
      (∀ (max : Bool) (w : World), ∃ (v : Int) (w1 : World),
        Bonus.parse e max w = (.ok (.num (.int v)), w1) ∧ 0 ≤ v ∧ v ≤ top) := by
  cases h with
  | flat k =>
    refine ⟨k, fun w => ⟨w, by simp [Bonus.parse]⟩, fun max w => ⟨k, w, ?_, ?_, le_refl _⟩⟩
    · simp [Bonus.parse]
    · omega
  | dice n m hn hm =>
    refine ⟨n * m, fun w => ?_, fun max w => ?_⟩
    · exact ⟨w.settled, parse_diceExpr_max n m hn hm w⟩
    · obtain ⟨v, hv, _, hlo, hhi⟩ := roll_diceExpr_value n m hn hm max w
      exact ⟨v, (Dice.roll (diceExpr n m) max w).2, by rw [parse_diceExpr, hv],
        by omega, hhi⟩

theorem evaluateAll_simple (bs : List Bonus) (h : ∀ b, b ∈ bs → SimpleExpression b.bonus) :
    ∃ top : List (String × Int),
      top.map Prod.fst = bs.map (fun b => b.type.toStr) ∧
      (∀ w : World, ∃ w1 : World, evaluateAll true bs w = (.ok (asValues top), w1)) ∧
      (∀ (max : Bool) (w : World), ∃ (vals : List (String × Int)) (w1 : World),
        evaluateAll max bs w = (.ok (asValues vals), w1) ∧ Dominated vals top) := by
  induction bs with
  | nil =>
    exact ⟨[], rfl, fun w => ⟨w, by simp [evaluateAll, asValues]⟩,
      fun max w => ⟨[], w, by simp [evaluateAll, asValues], trivial⟩⟩
  | cons b bs ih =>
    obtain ⟨top, htop, hany⟩ := parse_simple (h b (List.mem_cons_self b bs))
    obtain ⟨tops, hkeys, htops, hanys⟩ := ih (fun c hc => h c (List.mem_cons_of_mem b hc))
    refine ⟨(b.type.toStr, top) :: tops, by simp [hkeys], fun w => ?_, fun max w => ?_⟩
    · obtain ⟨w1, h1⟩ := htop w
      obtain ⟨w2, h2⟩ := htops w1
      exact ⟨w2, by simp [evaluateAll, Bonus.evaluate, h1, h2, asValues]⟩
    · obtain ⟨v, w1, h1, hlo, hhi⟩ := hany max w
      obtain ⟨vals, w2, h2, hdom⟩ := hanys max w1
      exact ⟨(b.type.toStr, v) :: vals, w2,
        by simp [evaluateAll, Bonus.evaluate, h1, h2, asValues], rfl, hlo, hhi, hdom⟩

theorem dominated_append {a b c d : List (String × Int)} (h1 : Dominated a b)
    (h2 : Dominated c d) : Dominated (a ++ c) (b ++ d) := by
  induction a generalizing b with
  | nil =>
    cases b with
    | nil => simpa using h2
    | cons y b => exact absurd h1 (by simp [Dominated])
  | cons x a ih =>
    cases b with
    | nil => exact absurd h1 (by simp [Dominated])
    | cons y b =>
      obtain ⟨e, lo, hi, rest⟩ := h1
      exact ⟨e, lo, hi, ih rest⟩

theorem dominated_keys {a b : List (String × Int)} (h : Dominated a b) :
    a.map Prod.fst = b.map Prod.fst := by
  induction a generalizing b with
  | nil =>
    cases b with
    | nil => rfl
    | cons y b => exact absurd h (by simp [Dominated])
  | cons x a ih =>
    cases b with
    | nil => exact absurd h (by simp [Dominated])
    | cons y b =>
      obtain ⟨e, _, _, rest⟩ := h
      simp [e, ih rest]

theorem dominated_sumOf (t : String) {a b : List (String × Int)} (h : Dominated a b) :
    0 ≤ sumOf t a ∧ sumOf t a ≤ sumOf t b := by
  induction a generalizing b with
  | nil =>
    cases b with
    | nil => simp [sumOf]
    | cons y b => exact absurd h (by simp [Dominated])
  | cons x a ih =>
    cases b with
    | nil => exact absurd h (by simp [Dominated])
    | cons y b =>
      obtain ⟨e, lo, hi, rest⟩ := h
      obtain ⟨k, v⟩ := x
      obtain ⟨k2, v2⟩ := y
      simp only at e lo hi
      subst e
      have := ih rest
      simp only [sumOf]
      split <;> omega

theorem attack_holds (self : Weapon) (max crit : Bool) (w w3 w4 : World) (base : Int)
    (vals1 vals2 : List (String × Int))
    (hbase : (Dice.roll self.damage max (Dice.d20 (.num (.int 1)) (max || crit) w).2).1
      = .num (.int base))
    (h1 : evaluateAll max self.enchantments
      (Dice.roll self.damage max (Dice.d20 (.num (.int 1)) (max || crit) w).2).2
      = (.ok (asValues vals1), w3))
    (h2 : evaluateAll max self.bonuses w3 = (.ok (asValues vals2), w4)) :
    (self.attack max crit w).1 = .ok (accumulate (self.multiplierOf max crit w)
      (asValues (vals1 ++ vals2))
      [("Physical", Weapon.damageOf (self.multiplierOf max crit w) (.num (.int base)))]) ∧
    Holds (self.multiplierOf max crit w).toNumber (accumulate (self.multiplierOf max crit w)
      (asValues (vals1 ++ vals2))
      [("Physical", Weapon.damageOf (self.multiplierOf max crit w) (.num (.int base)))])
      ([("Physical", base)] ++ (vals1 ++ vals2)) := by
  obtain ⟨hres, _⟩ := attack_eq_accumulate self max crit w w3 w4 _ _ h1 h2
  have hval : asValues vals1 ++ asValues vals2 = asValues (vals1 ++ vals2) := by
    simp [asValues]
  rw [hbase, hval] at hres
  exact ⟨hres, holds_accumulate _ _ _ _ (holds_initial _ base)⟩

theorem multiplierOf_int (self : Weapon) (c : Int) (hmult : self.critMultiplier = .num (.int c))
    (max crit : Bool) (w : World) (r : Int)
    (hr : (Dice.d20 (.num (.int 1)) (max || crit) w).1 = .num (.int r)) :
    self.multiplierOf max crit w =
      .num (.int (if (JSVal.num (.int r)).ge self.minCrit = true then c else 1)) := by
  simp only [Weapon.multiplierOf, Weapon.attackRoll, hr, hmult]
  split <;> rfl

theorem physical_sample_attack (x : Weapon) (k : Int) (w : World) (hd : x.damage = .str "1d6")
    (he : x.enchantments = []) (hb : x.bonuses = []) (hm : x.critMultiplier = .num (.int 2))
    (hc : x.minCrit = .num (.int k)) (hk : k ≤ 20) :
    (x.attack true false w).1 = .ok [("Physical", .int 12)] := by
  obtain ⟨r, hr, _, h20⟩ := attackRoll_value true false w
  have hr20 : r = 20 := h20 rfl
  subst hr20
  have hd2 : x.damage = diceExpr 1 6 := hd
  have hbase := roll_diceExpr_max 1 6 (by decide) (by decide)
    (Dice.d20 (.num (.int 1)) (true || false) w).2
  rw [← hd2] at hbase
  have hbase1 : (Dice.roll x.damage true (Dice.d20 (.num (.int 1)) (true || false) w).2).1
      = .num (.int 6) := by rw [hbase]; rfl
  obtain ⟨hres, _⟩ := attack_holds x true false w _ _ 6 [] [] hbase1
    (by rw [he]; rfl) (by rw [hb]; rfl)
  rw [hres, multiplierOf_int x 2 hm true false w 20 hr]
  have hge : (JSVal.num (.int 20)).ge x.minCrit = true := by
    rw [hc, ge_num]
    simp [JSVal.toPrimitive, JSVal.toNumber, JSNum.ge, hk]
  simp only [hge, if_true]
  rfl

/-- C1 (amended): for a weapon whose base damage is a string `NdM` with positive `N`, `M`,
whose enchantment and bonus expressions are strings `NdM` (positive `N`, `M`) or
non-negative integers, and whose `critMultiplier` is an integer `>= 1`, `attack(true)`
returns one and the same map `top` whatever the random octets are, and for every damage type
no result of `attack()`, `attack(false, true)` or `attack(true)` exceeds the value that `top`
holds for that type.  A weapon with damage `1d6`, no enchantments or bonuses,
`critMultiplier` 2 and an integer `minCrit <= 20` returns exactly `{Physical: 12}`. -/
theorem attack_max_is_maximum (self : Weapon) (n m : Nat) (hn : 0 < n) (hm : 0 < m) (c : Int)
    (hc : 1 ≤ c) (hdmg : self.damage = diceExpr n m) (hmult : self.critMultiplier = .num (.int c))
    (hb : ∀ b, b ∈ self.enchantments ++ self.bonuses →
      b.type.toStr ∉ inheritedKeys ∧ SimpleExpression b.bonus) :
    (∃ top : Result,
      (∀ w : World, (self.attack true false w).1 = .ok top) ∧
      (∀ (max crit : Bool) (w : World), ∃ r : Result, (self.attack max crit w).1 = .ok r ∧
        ∀ t, t ∈ r.keys → ∃ x xtop : Int,
          r.get t = some (.int x) ∧ top.get t = some (.int xtop) ∧ x ≤ xtop)) ∧
    (∀ (x : Weapon) (k : Int) (w : World), x.damage = .str "1d6" → x.enchantments = [] →
      x.bonuses = [] → x.critMultiplier = .num (.int 2) → x.minCrit = .num (.int k) → k ≤ 20 →
      (x.attack true false w).1 = .ok [("Physical", .int 12)]) := by
  refine ⟨?_, fun x k w hd he hbn hm2 hmc hk => physical_sample_attack x k w hd he hbn hm2 hmc hk⟩
  obtain ⟨tops1, _, ht1, ha1⟩ := evaluateAll_simple self.enchantments
    (fun b h => (hb b (List.mem_append_left _ h)).2)
  obtain ⟨tops2, _, ht2, ha2⟩ := evaluateAll_simple self.bonuses
    (fun b h => (hb b (List.mem_append_right _ h)).2)
  have htop : Holds (JSNum.int (if (JSVal.num (.int 20)).ge self.minCrit = true then c else 1))
      (accumulate (.num (.int (if (JSVal.num (.int 20)).ge self.minCrit = true then c else 1)))
        (asValues (tops1 ++ tops2))
        [("Physical", Weapon.damageOf
          (.num (.int (if (JSVal.num (.int 20)).ge self.minCrit = true then c else 1)))
          (.num (.int (n * m))))])
      ([("Physical", (n : Int) * m)] ++ (tops1 ++ tops2)) :=
    holds_accumulate _ _ _ _ (holds_initial _ _)
  refine ⟨accumulate
      (.num (.int (if (JSVal.num (.int 20)).ge self.minCrit = true then c else 1)))
      (asValues (tops1 ++ tops2))
      [("Physical", Weapon.damageOf
        (.num (.int (if (JSVal.num (.int 20)).ge self.minCrit = true then c else 1)))
        (.num (.int (n * m))))], fun w => ?_, fun max crit w => ?_⟩
  · obtain ⟨r, hr, _, h20⟩ := attackRoll_value true false w
    have hr20 : r = 20 := h20 rfl
    subst hr20
    have hbase := roll_diceExpr_max n m hn hm
      (Dice.d20 (.num (.int 1)) (true || false) w).2
    rw [← hdmg] at hbase
    have hbase1 : (Dice.roll self.damage true (Dice.d20 (.num (.int 1)) (true || false) w).2).1
        = .num (.int (n * m)) := by rw [hbase]
    obtain ⟨w3, h1⟩ := ht1 (Dice.roll self.damage true
      (Dice.d20 (.num (.int 1)) (true || false) w).2).2
    obtain ⟨w4, h2⟩ := ht2 w3
    obtain ⟨hres, _⟩ := attack_holds self true false w w3 w4 _ tops1 tops2 hbase1 h1 h2
    rw [hres, multiplierOf_int self c hmult true false w 20 hr]
  · obtain ⟨r, hr, hr20, _⟩ := attackRoll_value max crit w
    obtain ⟨v, hv, _, hvlo, hvhi⟩ := roll_diceExpr_value n m hn hm max
      (Dice.d20 (.num (.int 1)) (max || crit) w).2
    rw [← hdmg] at hv
    obtain ⟨vals1, w3, h1, hd1⟩ := ha1 max (Dice.roll self.damage max
      (Dice.d20 (.num (.int 1)) (max || crit) w).2).2
    obtain ⟨vals2, w4, h2, hd2⟩ := ha2 max w3
    obtain ⟨hres, hholds⟩ := attack_holds self max crit w w3 w4 v vals1 vals2 hv h1 h2
    rw [multiplierOf_int self c hmult max crit w r hr] at hres hholds
    refine ⟨_, hres, fun t ht => ?_⟩
    have hdom : Dominated ([("Physical", v)] ++ (vals1 ++ vals2))
        ([("Physical", (n : Int) * m)] ++ (tops1 ++ tops2)) := by
      have hrest := dominated_append hd1 hd2
      simp only [List.singleton_append, Dominated]
      exact ⟨trivial, by omega, hvhi, hrest⟩
    have hkeys := dominated_keys hdom
    obtain ⟨hs0, hs1⟩ := dominated_sumOf t hdom
    rw [Result.mem_keys_iff, hholds t] at ht
    have hin : t ∈ ([("Physical", v)] ++ (vals1 ++ vals2)).map Prod.fst := by
      by_contra hne
      rw [if_neg hne] at ht
      exact ht rfl
    refine ⟨(if (JSVal.num (.int r)).ge self.minCrit = true then c else 1)
        * sumOf t ([("Physical", v)] ++ (vals1 ++ vals2)),
      (if (JSVal.num (.int 20)).ge self.minCrit = true then c else 1)
        * sumOf t ([("Physical", (n : Int) * m)] ++ (tops1 ++ tops2)), ?_, ?_, ?_⟩
    · rw [hholds t, if_pos hin]
      rfl
    · rw [htop t, if_pos (hkeys ▸ hin)]
      rfl
    · have hkr : (if (JSVal.num (.int r)).ge self.minCrit = true then c else 1)
          ≤ (if (JSVal.num (.int 20)).ge self.minCrit = true then c else 1) := by
        by_cases hge : (JSVal.num (.int r)).ge self.minCrit = true
        · rw [if_pos hge, if_pos (ge_of_ge_of_le r 20 _ hr20 hge)]
        · rw [if_neg hge]
          split <;> omega
      have hk0 : (0 : Int) ≤ (if (JSVal.num (.int 20)).ge self.minCrit = true then c else 1) := by
        split <;> omega
      exact Int.mul_le_mul hkr hs1 hs0 hk0

theorem sampleWeapon_simple :
    ∀ b, b ∈ sampleWeapon.enchantments ++ sampleWeapon.bonuses →
      b.type.toStr ∉ inheritedKeys ∧ SimpleExpression b.bonus := by
  intro b hb
  simp only [sampleWeapon, List.singleton_append, List.mem_cons, List.mem_singleton] at hb
  have hnil : ¬ b ∈ ([] : List Bonus) := List.not_mem_nil b
  rcases hb with rfl | rfl | hb
  · exact ⟨by decide, SimpleExpression.dice 2 6 (by decide) (by decide)⟩
  · exact ⟨by decide, SimpleExpression.flat 3⟩
  · exact absurd hb hnil

/-- C1 (amended) at the sample weapon. -/
theorem attack_max_is_maximum_witness :
    (0 < 1 ∧ 0 < 6 ∧ (1 : Int) ≤ 2 ∧ sampleWeapon.damage = diceExpr 1 6 ∧
      sampleWeapon.critMultiplier = .num (.int 2)) ∧
    ∃ top : Result,
      (∀ w : World, (sampleWeapon.attack true false w).1 = .ok top) ∧
      (∀ (max crit : Bool) (w : World), ∃ r : Result,
        (sampleWeapon.attack max crit w).1 = .ok r ∧
        ∀ t, t ∈ r.keys → ∃ x xtop : Int,
          r.get t = some (.int x) ∧ top.get t = some (.int xtop) ∧ x ≤ xtop) :=
  ⟨⟨by decide, by decide, by decide, rfl, rfl⟩,
    (attack_max_is_maximum sampleWeapon 1 6 (by decide) (by decide) 2 (by decide) rfl rfl
      sampleWeapon_simple).1⟩

/-- C1 (counterexample): the weapon `penaltyWeapon` is what the constructor builds from a
descriptor with damage `1d6` and the bonus `Penalty -2`; in the sample world `attack(true)`
reports `-4` for `Penalty` while the unforced `attack()` (d20 roll 4, no crit) yields `-2`,
which exceeds it.  Moreover `attack(true)` on `containerWeapon`, whose enchantment is a
sequence, reports `Fire 8` in one world and `Fire 10` in another: it depends on the octets. -/
theorem attack_max_exceeded :
    Weapon.new (.obj [("damage", .str "1d6"),
      ("bonus", .arr [.obj [("type", .str "Penalty"), ("bonus", .num (.int (-2)))]])])
      = .ok penaltyWeapon ∧
    (penaltyWeapon.attack true false sampleWorld).1
      = .ok [("Physical", .int 12), ("Penalty", .int (-4))] ∧
    (penaltyWeapon.attack false false sampleWorld).1
      = .ok [("Physical", .int 5), ("Penalty", .int (-2))] ∧
    (-4 : Int) < -2 ∧
    (containerWeapon.attack true false sampleWorld).1
      = .ok [("Physical", .int 12), ("Fire", .int 8)] ∧
    (containerWeapon.attack true false otherWorld).1
      = .ok [("Physical", .int 12), ("Fire", .int 10)] :=
  ⟨rfl, rfl, rfl, by decide, rfl, rfl⟩

/-! ## `Weapon.crit` -/

theorem crit_number (self : Weapon) (n : JSNum) (k : JSVal) :
    self.crit (.num n) k = .ok { self with minCrit := .num n, critMultiplier := k } := by
  rw [Weapon.crit]
  simp [JSVal.isNumber]

theorem crit_string (self : Weapon) (s : String) (k : JSVal) :
    self.crit (.str s) k =
      if (stringToNumber s).truthy then
        .ok { self with minCrit := .num (stringToNumber s), critMultiplier := k }
      else if (indexOf s
          (JSVal.bool (JSVal.gt (.str "-") (.num (.int (-1))))).toStr).truthy then
        if (Weapon.firstOf s).toNumber.truthy then
          .ok { self with minCrit := .num (Weapon.firstOf s).toNumber, critMultiplier := k }
        else .error Weapon.invalidCrit
      else .error Weapon.invalidCrit := by
  rw [Weapon.crit]
  simp [JSVal.isNumber, JSVal.isString, JSVal.toNumber, JSVal.toStr]

theorem crit_container (self : Weapon) (v k : JSVal) (hn : v.isNumber = false)
    (hs : v.isString = false) :
    self.crit v k =
      match Weapon.critArg v with
      | .error e => .error e
      | .ok next => self.crit next .undef := by
  rw [Weapon.crit]
  simp only [hn, hs, Bool.false_eq_true, dite_false]
  split <;> simp_all

theorem new_empty : Weapon.new (.obj []) = .ok defaultWeapon := rfl

theorem toStr_natCast (n : Nat) :
    (JSVal.num (.int (n : Int))).toStr = String.mk (numeral n) := by
  have h1 : ¬ ((n : Int) < 0) := by omega
  simp only [JSVal.toStr, JSNum.toStr, h1, if_false, Int.toNat_ofNat, numeral]

theorem toStr_negSucc (n : Nat) :
    (JSVal.num (.int (-((n + 1 : Nat) : Int)))).toStr = String.mk ('-' :: numeral (n + 1)) := by
  have h1 : -((n + 1 : Nat) : Int) < 0 := by omega
  have h2 : (-((n + 1 : Nat) : Int)).natAbs = n + 1 := by omega
  simp only [JSVal.toStr, JSNum.toStr, h1, if_true, h2, numeral]

theorem stringToNumber_minus_numeral (n : Nat) :
    stringToNumber (String.mk ('-' :: numeral n)) = .int (-(n : Int)) := by
  have hsp : ∀ x ∈ '-' :: numeral n, isJSSpace x = false := by
    intro x hx
    rcases List.mem_cons.mp hx with hx | hx
    · subst hx; decide
    · exact digitChars_not_space x (numeral_digits n x hx)
  unfold stringToNumber
  simp only [String.toList, trimSpace_of_no_space _ hsp, parseDigits_numeral]

theorem crit_numeric_string (self : Weapon) (k : JSVal) (l : Nat) :
    self.crit (.str (String.mk (numeral (l + 1)))) k
      = .ok { self with minCrit := .num (.int ((l + 1 : Nat) : Int)), critMultiplier := k } := by
  have ht : (JSNum.int ((l + 1 : Nat) : Int)).truthy = true := by
    simp only [JSNum.truthy, decide_eq_true_eq]
    omega
  rw [crit_string, stringToNumber_numeral, if_pos ht]

/-- C6 (code at the failing input): on a weapon built from an empty descriptor,
`crit('18-20', 2)` succeeds and sets `minCrit` to `1`, the first character of the string,
where the docstring promises the range 18-20; any weapon and any multiplier behave alike,
and so does every hyphenated string `L + '-20'` with `L` from 10 to 19.  The integer form
and the numeric string form do set `minCrit` to `L`. -/
theorem crit_hyphenated_takes_first_char :
    Weapon.new (.obj []) = .ok defaultWeapon ∧
    defaultWeapon.crit (.str "18-20") (.num (.int 2))
      = .ok { defaultWeapon with minCrit := .num (.int 1), critMultiplier := .num (.int 2) } ∧
    (∀ (self : Weapon) (k : JSVal) (d : Fin 10),
      self.crit (((JSVal.num (.int (10 + d.val))).add (.str "-")).add (.num (.int 20))) k
        = .ok { self with minCrit := .num (.int 1), critMultiplier := k }) ∧
    (∀ (self : Weapon) (k : JSVal) (l : Int), self.crit (.num (.int l)) k
      = .ok { self with minCrit := .num (.int l), critMultiplier := k }) ∧
    (∀ (self : Weapon) (k : JSVal) (l : Nat),
      self.crit (.str (JSVal.num (.int ((l + 1 : Nat) : Int))).toStr) k
        = .ok { self with minCrit := .num (.int ((l + 1 : Nat) : Int)), critMultiplier := k }) := by
  refine ⟨rfl, ?_, ?_, ?_, ?_⟩
  · rw [crit_string]; rfl
  · intro self k d
    fin_cases d <;> exact (crit_string self _ k).trans rfl
  · intro self k l
    exact crit_number self _ k
  · intro self k l
    rw [toStr_natCast]
    exact crit_numeric_string self k l

/-- C7 (code at the failing input): `crit([18], 3)` sets `minCrit` to `18` but leaves
`critMultiplier` `undefined` instead of `3`: the recursive call on the extracted minimum
drops the multiplier; the same holds for the object forms. -/
theorem crit_container_drops_multiplier :
    defaultWeapon.crit (.arr [.num (.int 18)]) (.num (.int 3))
      = .ok { defaultWeapon with minCrit := .num (.int 18), critMultiplier := .undef } ∧
    (∀ (self : Weapon) (k : JSVal) (l : Nat), self.crit (.arr [.num (.int (l + 1))]) k
      = .ok { self with minCrit := .num (.int (l + 1)), critMultiplier := .undef }) ∧
    (∀ (self : Weapon) (k : JSVal), self.crit (.obj [("min", .str "18")]) k
      = .ok { self with minCrit := .num (.int 18), critMultiplier := .undef }) ∧
    (∀ (self : Weapon) (k : JSVal), self.crit (.obj [("minimum", .num (.int 18))]) k
      = .ok { self with minCrit := .num (.int 18), critMultiplier := .undef }) := by
  have harr : ∀ (self : Weapon) (k : JSVal) (n : JSNum), n.truthy = true →
      self.crit (.arr [.num n]) k
        = .ok { self with minCrit := .num n, critMultiplier := .undef } := by
    intro self k n hn
    rw [crit_container self (.arr [.num n]) k rfl rfl]
    have harg : Weapon.critArg (.arr [.num n]) = .ok (.num n) := by
      have h0 : JSVal.get (.arr [.num n]) "0" = .ok (.num n) := rfl
      have h1 : JSVal.get (.arr [.num n]) "min" = .ok .undef := rfl
      have h2 : JSVal.get (.arr [.num n]) "minimum" = .ok .undef := rfl
      simp [Weapon.critArg, h0, h1, h2, bind, Except.bind, pure, Except.pure, JSVal.or,
        JSVal.truthy, hn]
    simp only [harg]
    exact crit_number self n .undef
  have hpos : ∀ l : Nat, (JSNum.int (l + 1)).truthy = true := by
    intro l
    simp only [JSNum.truthy, decide_eq_true_eq]
    omega
  refine ⟨harr _ _ _ rfl, fun self k l => harr self k _ (hpos l), ?_, ?_⟩
  · intro self k
    rw [crit_container self (.obj [("min", .str "18")]) k rfl rfl]
    have harg : Weapon.critArg (.obj [("min", .str "18")]) = .ok (.str "18") := rfl
    simp only [harg]
    rw [crit_string]; rfl
  · intro self k
    rw [crit_container self (.obj [("minimum", .num (.int 18))]) k rfl rfl]
    have harg : Weapon.critArg (.obj [("minimum", .num (.int 18))]) = .ok (.num (.int 18)) := rfl
    simp only [harg]
    exact crit_number self (.int 18) JSVal.undef

/-- C8 (code at the failing input): `crit([])` and `crit` of an object with neither `min` nor
`minimum` recurse on `undefined` and throw the `TypeError` of reading a property of
`undefined`, not the error `Invalid crit range`; the non-numeric string `'abc'` does throw
`Invalid crit range`. -/
theorem crit_empty_throws_typeError (self : Weapon) (k : JSVal) :
    self.crit (.arr []) k = .error .typeError ∧
    self.crit (.obj []) k = .error .typeError ∧
    self.crit (.obj [("max", .num (.int 20))]) k = .error .typeError ∧
    self.crit (.str "abc") k = .error (.error "Invalid crit range") ∧
    JSError.typeError ≠ JSError.error "Invalid crit range" := by
  have hu : ∀ k2 : JSVal, self.crit .undef k2 = .error .typeError := by
    intro k2
    rw [crit_container self .undef k2 rfl rfl]
    rfl
  refine ⟨?_, ?_, ?_, ?_, by decide⟩
  · rw [crit_container self (.arr []) k rfl rfl]
    have harg : Weapon.critArg (.arr []) = .ok .undef := rfl
    simp only [harg]
    exact hu _
  · rw [crit_container self (.obj []) k rfl rfl]
    have harg : Weapon.critArg (.obj []) = .ok .undef := rfl
    simp only [harg]
    exact hu _
  · rw [crit_container self (.obj [("max", .num (.int 20))]) k rfl rfl]
    have harg : Weapon.critArg (.obj [("max", .num (.int 20))]) = .ok .undef := rfl
    simp only [harg]
    exact hu _
  · rw [crit_string]; rfl

/-! ## The invariant on `minCrit` and `critMultiplier` -/

theorem new_fields (d cr cm : JSVal) (w : Weapon) (h : Weapon.new d = .ok w)
    (hcr : d.get "critRange" = .ok cr) (hcm : d.get "critMultiplier" = .ok cm) :
    w.minCrit = cr.or (.num (.int 19)) ∧ w.critMultiplier = cm.or (.num (.int 2)) := by
  simp only [Weapon.new, bind, Except.bind, hcr, hcm, pure, Except.pure] at h
  split at h
  · exact absurd h (by simp)
  · split at h
    · exact absurd h (by simp)
    · split at h
      · exact absurd h (by simp)
      · split at h
        · exact absurd h (by simp)
        · split at h
          · exact absurd h (by simp)
          · split at h
            · exact absurd h (by simp)
            · simp only [Except.ok.injEq] at h
              subst h
              exact ⟨rfl, rfl⟩

theorem attack_keeps_crit_fields (w : Weapon) (max crit : Bool) (world : World) :
    (w.attack max crit world).2.1.minCrit = w.minCrit ∧
    (w.attack max crit world).2.1.critMultiplier = w.critMultiplier := by
  rw [attack_weapon]
  split <;> exact ⟨rfl, rfl⟩

theorem enchant_keeps_crit_fields (w w1 : Weapon) (d b : JSVal) (h : w.enchant d b = .ok w1) :
    w1.minCrit = w.minCrit ∧ w1.critMultiplier = w.critMultiplier := by
  unfold Weapon.enchant at h
  split at h
  · exact absurd h (by simp)
  · simp only [Except.ok.injEq] at h
    subst h
    exact ⟨rfl, rfl⟩

theorem bonus_keeps_crit_fields (w w1 : Weapon) (d b : JSVal) (h : w.bonus d b = .ok w1) :
    w1.minCrit = w.minCrit ∧ w1.critMultiplier = w.critMultiplier := by
  unfold Weapon.bonus at h
  split at h
  · exact absurd h (by simp)
  · simp only [Except.ok.injEq] at h
    subst h
    exact ⟨rfl, rfl⟩

/-- C9 (counterexample): `new Weapon` of an empty descriptor followed by `crit(25, 2)` is a
reachable state whose `minCrit` is `25`, outside `[2, 20]`. -/
theorem invariant_broken_by_crit :
    defaultWeapon.crit (.num (.int 25)) (.num (.int 2))
      = .ok { defaultWeapon with minCrit := .num (.int 25) } ∧
    Reachable { defaultWeapon with minCrit := .num (.int 25) } ∧
    ¬ Weapon.Invariant { defaultWeapon with minCrit := .num (.int 25) } := by
  have hc : defaultWeapon.crit (.num (.int 25)) (.num (.int 2))
      = .ok { defaultWeapon with minCrit := .num (.int 25) } := crit_number _ _ _
  refine ⟨hc, Reachable.crit defaultWeapon _ _ _ (Reachable.construct (.obj []) _ new_empty) hc,
    ?_⟩
  rintro ⟨L, K, h1, _, h3, _⟩
  simp only [JSVal.num.injEq, JSNum.int.injEq] at h1
  omega

/-- C9 (amended): every weapon state reachable from a constructor whose descriptor leaves
`critRange` and `critMultiplier` out or gives them as integers in `[2, 20]` and `>= 1`,
by successful `enchant`, `bonus` and `attack` calls and by `crit` calls that pass an integer
range in `[2, 20]` and an integer multiplier `>= 1`, satisfies the invariant: `minCrit` is
an integer in `[2, 20]` and `critMultiplier` is an integer `>= 1`. -/
theorem invariant_of_checked_calls (w : Weapon) (h : ReachableChecked w) : w.Invariant := by
  induction h with
  | construct d cr cm w h hcr hcm hr hm =>
    obtain ⟨h1, h2⟩ := new_fields d cr cm w h hcr hcm
    have hmin : ∃ L : Int, w.minCrit = .num (.int L) ∧ 2 ≤ L ∧ L ≤ 20 := by
      rcases hr with rfl | ⟨L, rfl, hlo, hhi⟩
      · exact ⟨19, h1, by decide, by decide⟩
      · refine ⟨L, ?_, hlo, hhi⟩
        have hL : ¬ L = 0 := by omega
        rw [h1]
        simp [JSVal.or, JSVal.truthy, JSNum.truthy, hL]
    have hmul : ∃ K : Int, w.critMultiplier = .num (.int K) ∧ 1 ≤ K := by
      rcases hm with rfl | ⟨K, rfl, hlo⟩
      · exact ⟨2, h2, by decide⟩
      · refine ⟨K, ?_, hlo⟩
        have hK : ¬ K = 0 := by omega
        rw [h2]
        simp [JSVal.or, JSVal.truthy, JSNum.truthy, hK]
    obtain ⟨L, hL, hlo, hhi⟩ := hmin
    obtain ⟨K, hK, hk⟩ := hmul
    exact ⟨L, K, hL, hlo, hhi, hK, hk⟩
  | crit w w1 r k _ hr hk h _ =>
    obtain ⟨L, rfl, hlo, hhi⟩ := hr
    obtain ⟨K, rfl, hk1⟩ := hk
    rw [crit_number] at h
    simp only [Except.ok.injEq] at h
    subst h
    exact ⟨L, K, rfl, hlo, hhi, rfl, hk1⟩
  | enchant w w1 d b _ h ih =>
    obtain ⟨e1, e2⟩ := enchant_keeps_crit_fields w w1 d b h
    obtain ⟨L, K, h1, h2, h3, h4, h5⟩ := ih
    exact ⟨L, K, e1 ▸ h1, h2, h3, e2 ▸ h4, h5⟩
  | bonus w w1 d b _ h ih =>
    obtain ⟨e1, e2⟩ := bonus_keeps_crit_fields w w1 d b h
    obtain ⟨L, K, h1, h2, h3, h4, h5⟩ := ih
    exact ⟨L, K, e1 ▸ h1, h2, h3, e2 ▸ h4, h5⟩
  | attack w max crit world r _ _ ih =>
    obtain ⟨e1, e2⟩ := attack_keeps_crit_fields w max crit world
    obtain ⟨L, K, h1, h2, h3, h4, h5⟩ := ih
    exact ⟨L, K, e1 ▸ h1, h2, h3, e2 ▸ h4, h5⟩

/-- C9 (amended) at the state reached by `new Weapon` of an empty descriptor followed by
`crit(18, 3)`. -/
theorem invariant_of_checked_calls_witness :
    ReachableChecked { defaultWeapon with minCrit := .num (.int 18), critMultiplier := .num (.int 3) } ∧
    Weapon.Invariant { defaultWeapon with minCrit := .num (.int 18), critMultiplier := .num (.int 3) } :=
  have hr : ReachableChecked
      { defaultWeapon with minCrit := .num (.int 18), critMultiplier := .num (.int 3) } :=
    ReachableChecked.crit defaultWeapon _ (.num (.int 18)) (.num (.int 3))
      (ReachableChecked.construct (.obj []) .undef .undef defaultWeapon new_empty rfl rfl
        (Or.inl rfl) (Or.inl rfl))
      ⟨18, rfl, by decide, by decide⟩ ⟨3, rfl, by decide⟩ (crit_number _ _ _)
  ⟨hr, invariant_of_checked_calls _ hr⟩

/-! ## `Bonus.parse`: numeric passthrough -/

/-- C10 (code at the failing input): `Bonus.parse('0', max)` throws `Invalid bonus syntax`
for both values of the max flag, although `'0'` parses fully to the number `0`.  Every number
is passed through unchanged, zero included, and so is every numeric string `String(k)` of a
non-zero integer `k`, positive or negative, without touching the world. -/
theorem parse_zero_string_throws (max : Bool) (w : World) :
    stringToNumber "0" = .int 0 ∧
    Bonus.parse (.str "0") max w = (.error (.error "Invalid bonus syntax"), w) ∧
    (∀ k : JSNum, Bonus.parse (.num k) max w = (.ok (.num k), w)) ∧
    (∀ l : Nat, Bonus.parse (.str (JSVal.num (.int ((l + 1 : Nat) : Int))).toStr) max w
      = (.ok (.num (.int ((l + 1 : Nat) : Int))), w)) ∧
    (∀ l : Nat, Bonus.parse (.str (JSVal.num (.int (-((l + 1 : Nat) : Int)))).toStr) max w
      = (.ok (.num (.int (-((l + 1 : Nat) : Int)))), w)) := by
  refine ⟨by decide, ?_, ?_, ?_, ?_⟩
  · simp only [Bonus.parse]
    rfl
  · intro k
    simp only [Bonus.parse]
  · intro l
    have ht : (JSNum.int ((l + 1 : Nat) : Int)).truthy = true := by
      simp only [JSNum.truthy, decide_eq_true_eq]
      omega
    rw [toStr_natCast]
    simp only [Bonus.parse, stringToNumber_numeral, ht, if_true]
  · intro l
    have ht : (JSNum.int (-((l + 1 : Nat) : Int))).truthy = true := by
      simp only [JSNum.truthy, decide_eq_true_eq]
      omega
    rw [toStr_negSucc]
    simp only [Bonus.parse, stringToNumber_minus_numeral, ht, if_true]

/-! ## `Weapon` constructor defaults -/

theorem new_undefined : Weapon.new JSVal.undef = .error .typeError := rfl

/-- C19 (code at the failing input): `new Weapon()` with the descriptor omitted throws the
`TypeError` of destructuring `undefined` instead of building a weapon, although the
constructor documents the descriptor as optional and the examples call `new Weapon()`.
With an empty descriptor the constructor succeeds and yields name `Unnamed Weapon`,
`minCrit` 19, `critMultiplier` 2, damage `1d4`, no enchantments, no bonuses and
`numCrits` 0. -/
theorem new_without_descriptor_throws :
    Weapon.new JSVal.undef = .error .typeError ∧
    Weapon.new (.obj []) = .ok defaultWeapon ∧
    defaultWeapon.name = .str "Unnamed Weapon" ∧
    defaultWeapon.minCrit = .num (.int 19) ∧
    defaultWeapon.critMultiplier = .num (.int 2) ∧
    defaultWeapon.damage = .str "1d4" ∧
    defaultWeapon.enchantments = [] ∧
    defaultWeapon.bonuses = [] ∧
    defaultWeapon.numCrits = 0 :=
  ⟨new_undefined, new_empty, rfl, rfl, rfl, rfl, rfl, rfl, rfl⟩

/-! ## `RandomBuffer`: cursor invariant and `read` -/

theorem RandomBuffer.read_eq (rb : RandomBuffer) (mod : JSVal) (src : ByteSource) :
    rb.read mod src =
      if rb.idx < BUFFER_LENGTH
      then (RandomBuffer.derive mod (rb.buf rb.idx % 256), ⟨rb.idx + 1, rb.buf⟩, src)
      else (RandomBuffer.derive mod (src 0 % 256), ⟨1, fun i => src i % 256⟩,
        fun i => src (i + BUFFER_LENGTH)) := by
  simp only [RandomBuffer.read, RandomBuffer.serve, RandomBuffer.readUInt8,
    RandomBuffer.reset, randomBytes, RandomBuffer.derive]
  split
  · rfl
  · simp

theorem RandomBuffer.reachable_idx_le (rb : RandomBuffer) (h : RandomBuffer.Reachable rb) :
    rb.idx ≤ BUFFER_LENGTH := by
  induction h with
  | new src => simp [RandomBuffer.new, RandomBuffer.reset]
  | read rb mod src _ ih =>
    rw [RandomBuffer.read_eq]
    split
    · simp only; omega
    · simp [BUFFER_LENGTH]
  | reset rb src _ _ => simp [RandomBuffer.reset]

/-- C20: in every state of a `RandomBuffer` reachable from its constructor the cursor
satisfies `0 <= idx <= 256`, also after the next `read`; `read` returns with at most one
refill (two units of fuel always suffice); it consumes exactly the first pending octet and
shifts the pending octets by one; if `idx < 256` it returns the value derived from
`buf[idx]` and sets `idx` to `idx + 1`, otherwise `idx = 256`, the buffer is refreshed from
the source and the value derived from the first octet of the fresh buffer is returned,
leaving `idx = 1`. -/
theorem RandomBuffer.read_contract (rb : RandomBuffer) (h : RandomBuffer.Reachable rb)
    (mod : JSVal) (src : ByteSource) (fuel : Nat) :
    (0 ≤ rb.idx ∧ rb.idx ≤ BUFFER_LENGTH) ∧
    (rb.read mod src).2.1.idx ≤ BUFFER_LENGTH ∧
    rb.readFuel (fuel + 2) mod src = some (rb.read mod src) ∧
    (rb.read mod src).1 = RandomBuffer.derive mod (rb.upcoming src 0) ∧
    (∀ i, (rb.read mod src).2.1.upcoming (rb.read mod src).2.2 i = rb.upcoming src (i + 1)) ∧
    (rb.idx < BUFFER_LENGTH ∨ rb.idx = BUFFER_LENGTH) ∧
    rb.read mod src =
      (if rb.idx < BUFFER_LENGTH
      then (RandomBuffer.derive mod (rb.buf rb.idx % 256), ⟨rb.idx + 1, rb.buf⟩, src)
      else (RandomBuffer.derive mod (src 0 % 256), ⟨1, fun i => src i % 256⟩,
        fun i => src (i + BUFFER_LENGTH))) := by
  have hle := RandomBuffer.reachable_idx_le rb h
  refine ⟨⟨Nat.zero_le _, hle⟩,
    RandomBuffer.reachable_idx_le _ (RandomBuffer.Reachable.read rb mod src h),
    RandomBuffer.readFuel_eq_read fuel rb mod src, ?_,
    RandomBuffer.read_upcoming rb mod src, ?_, RandomBuffer.read_eq rb mod src⟩
  · rw [RandomBuffer.read_value]
    rfl
  · omega

/-- C20 at a freshly constructed buffer. -/
theorem RandomBuffer.read_contract_witness :
    RandomBuffer.Reachable (RandomBuffer.new (fun i => i + 3)).1 ∧
    (RandomBuffer.new (fun i => i + 3)).1.idx ≤ BUFFER_LENGTH ∧
    ((RandomBuffer.new (fun i => i + 3)).1.read (.num (.int 6))
      (RandomBuffer.new (fun i => i + 3)).2).1 = .int 4 :=
  ⟨RandomBuffer.Reachable.new _,
    (RandomBuffer.read_contract _ (RandomBuffer.Reachable.new _) (.num (.int 6))
      (RandomBuffer.new (fun i => i + 3)).2 0).1.2,
    ((RandomBuffer.read_contract _ (RandomBuffer.Reachable.new _) (.num (.int 6))
      (RandomBuffer.new (fun i => i + 3)).2 0).2.2.2.1).trans (by decide)⟩

/-! ## `Bonus` construction -/

theorem Bonus.new_null (b : JSVal) : Bonus.new JSVal.null b = .error .typeError := rfl

theorem fireBonus_evaluate (max : Bool) (w : World) :
    ∃ v : Int, fireBonus.evaluate max w
        = (.ok (.str "Fire", .num (.int v)), (Dice.roll (.str "2d6") max w).2) ∧
      2 ≤ v ∧ v ≤ 12 := by
  obtain ⟨v, hv, _, hlo, hhi⟩ := roll_diceExpr_value 2 6 (by decide) (by decide) max w
  have hp := parse_diceExpr 2 6 max w
  have he : diceExpr 2 6 = .str "2d6" := rfl
  rw [he] at hp hv
  refine ⟨v, ?_, by simpa using hlo, by simpa using hhi⟩
  simp only [Bonus.evaluate, fireBonus, hp, hv]

/-- C14: `new Bonus` normalises both input shapes to a `(type, bonus)` pair or fails.  For an
object descriptor the type is `d.type || d.name` and the expression is `d.bonus`, whatever
the second argument is; for the positional form (a string, number, boolean or `undefined`
first argument) the pair is the two arguments; the call throws `Bonus descriptor is
invalid` for an array and whenever the resulting type or expression is falsy (as in
`new Bonus` of an empty object).  The descriptor with type `Fire` and bonus `2d6` and the
call `new Bonus('Fire', '2d6')` build the same bonus, which evaluates to type `Fire` and a
value in `[2, 12]` drawn from the same octets. -/
theorem bonus_new_normalises :
    (∀ (kvs : List (String × JSVal)) (b2 : JSVal), Bonus.new (.obj kvs) b2 =
      if ((lookupProp "type" kvs).or (lookupProp "name" kvs)).truthy
          && (lookupProp "bonus" kvs).truthy
      then .ok ⟨(lookupProp "type" kvs).or (lookupProp "name" kvs), lookupProp "bonus" kvs⟩
      else .error (.error "Bonus descriptor is invalid")) ∧
    (∀ (s : String) (b : JSVal), Bonus.new (.str s) b =
      if (JSVal.str s).truthy && b.truthy then .ok ⟨.str s, b⟩
      else .error (.error "Bonus descriptor is invalid")) ∧
    (∀ (n : JSNum) (b : JSVal), Bonus.new (.num n) b =
      if (JSVal.num n).truthy && b.truthy then .ok ⟨.num n, b⟩
      else .error (.error "Bonus descriptor is invalid")) ∧
    (∀ (c : Bool) (b : JSVal), Bonus.new (.bool c) b =
      if (JSVal.bool c).truthy && b.truthy then .ok ⟨.bool c, b⟩
      else .error (.error "Bonus descriptor is invalid")) ∧
    (∀ b : JSVal, Bonus.new JSVal.undef b = .error (.error "Bonus descriptor is invalid")) ∧
    (∀ (xs : List JSVal) (b : JSVal),
      Bonus.new (.arr xs) b = .error (.error "Bonus descriptor is invalid")) ∧
    Bonus.new (.obj []) JSVal.undef = .error (.error "Bonus descriptor is invalid") ∧
    (∀ b2 : JSVal, Bonus.new (.obj [("type", .str "Fire"), ("bonus", .str "2d6")]) b2
      = .ok fireBonus) ∧
    Bonus.new (.str "Fire") (.str "2d6") = .ok fireBonus ∧
    (∀ (max : Bool) (w : World), ∃ v : Int, fireBonus.evaluate max w
        = (.ok (.str "Fire", .num (.int v)), (Dice.roll (.str "2d6") max w).2) ∧
      2 ≤ v ∧ v ≤ 12) := by
  refine ⟨?_, ?_, ?_, ?_, fun _ => rfl, ?_, rfl, fun _ => rfl, rfl, fireBonus_evaluate⟩
  · intro kvs b2
    simp only [Bonus.new, JSVal.isObject, JSVal.isArray, JSVal.get, Bonus.invalid, if_true]
    rfl
  · intro s b
    simp only [Bonus.new, JSVal.isObject, Bonus.invalid]
    rfl
  · intro n b
    simp only [Bonus.new, JSVal.isObject, Bonus.invalid]
    rfl
  · intro c b
    simp only [Bonus.new, JSVal.isObject, Bonus.invalid]
    rfl
  · intro xs b
    rfl

/-! ## `Bonus.parse` on strings that are not numbers -/

theorem indexOfFrom_singleton_not_mem (c : Char) (l : List Char) (h : c ∉ l) :
    ∀ i : Nat, indexOfFrom [c] l i = -1 := by
  induction l with
  | nil => intro i; simp [indexOfFrom]
  | cons x xs ih =>
    intro i
    have hx : ¬ c = x := fun e => h (e ▸ List.mem_cons_self c xs)
    have hxs : c ∉ xs := fun e => h (List.mem_cons_of_mem x e)
    simp only [indexOfFrom]
    split
    · rename_i hp
      simp [List.isPrefixOf, hx] at hp
    · exact ih hxs (i + 1)

theorem indexOf_d_gt (s : String) :
    (indexOf s "d").gt (.int (-1)) = decide ('d' ∈ s.toList) := by
  show decide (-1 < indexOfFrom ['d'] s.toList 0) = decide ('d' ∈ s.toList)
  by_cases h : 'd' ∈ s.toList
  · have := indexOfFrom_singleton_mem 'd' s.toList h 0
    have h2 : -1 < indexOfFrom ['d'] s.toList 0 := by
      push_cast at this
      omega
    rw [decide_eq_true h2, decide_eq_true h]
  · have := indexOfFrom_singleton_not_mem 'd' s.toList h 0
    have h2 : ¬ -1 < indexOfFrom ['d'] s.toList 0 := by
      rw [this]
      omega
    rw [decide_eq_false h2, decide_eq_false h]

theorem parseDigits_of_head_not_digit (c : Char) (cs : List Char) (h : c.isDigit = false) :
    parseDigits (c :: cs) = none := by
  simp [parseDigits, h]

theorem headNumeric_false_parseDigits (ds : List Char) (h : headNumeric ds = false) :
    parseDigits ds = none := by
  cases ds with
  | nil => simp [parseDigits]
  | cons c cs =>
    simp only [headNumeric, numericStart, Bool.or_eq_false_iff] at h
    exact parseDigits_of_head_not_digit c cs h.1.1

theorem stringToNumber_of_not_looksNumeric (s : String) (h : looksNumeric s = false) :
    (stringToNumber s).truthy = false := by
  unfold looksNumeric at h
  unfold stringToNumber
  split
  · rfl
  · rename_i ds heq
    simp only [heq] at h
    simp [headNumeric_false_parseDigits ds h, JSNum.truthy]
  · rename_i ds heq
    simp only [heq] at h
    simp [headNumeric_false_parseDigits ds h, JSNum.truthy]
  · rename_i ds h1 h2 h3
    have h4 : headNumeric (trimSpace s.toList) = false := by
      revert h
      split
      · rename_i hh; exact absurd hh h1
      · rename_i hh; exact absurd hh (h2 _)
      · rename_i hh; exact absurd hh (h3 _)
      · exact id
    have h5 := headNumeric_false_parseDigits _ h4
    simp only [String.toList] at h5
    simp [h5, JSNum.truthy]

theorem parse_string (s : String) (max : Bool) (w : World) :
    Bonus.parse (.str s) max w =
      if (stringToNumber s).truthy then (.ok (.num (stringToNumber s)), w)
      else if 'd' ∈ s.toList then
        (.ok (Dice.roll (.str s) max w).1, (Dice.roll (.str s) max w).2)
      else (.error (.error "Invalid bonus syntax"), w) := by
  simp only [Bonus.parse, indexOf_d_gt, decide_eq_true_eq]

/-- C11 (counterexample): the strings `'abcd'`, `'d'` and `'2dx'` contain `d`, so
`Bonus.parse` hands them to `Dice.roll`, which finds a count or sides that is `NaN` or `0`
and returns `null`; `'-2d6'` has the truthy count `-2`, rolls no die and returns `0`.  None
of the four calls raises. -/
theorem parse_malformed_dice_returns :
    Bonus.parse (.str "abcd") false sampleWorld = (.ok .null, sampleWorld.settled) ∧
    Bonus.parse (.str "d") false sampleWorld = (.ok .null, sampleWorld.settled) ∧
    Bonus.parse (.str "2dx") false sampleWorld = (.ok .null, sampleWorld.settled) ∧
    Bonus.parse (.str "-2d6") false sampleWorld
      = (.ok (.num (.int 0)), sampleWorld.settled) :=
  ⟨rfl, rfl, rfl, rfl⟩

/-- C11 (amended): for every string that does not begin like a numeric literal (after white
space and an optional sign comes no digit, dot or `I`), `Bonus.parse` raises `Invalid bonus
syntax` when the string contains no `d`, and raises nothing when it contains `d`: it then
returns whatever `Dice.roll` returns for the string, in the world `Dice.roll` leaves. -/
theorem parse_non_numeric_string (s : String) (max : Bool) (w : World)
    (h : looksNumeric s = false) :
    Bonus.parse (.str s) max w =
      if 'd' ∈ s.toList then
        (.ok (Dice.roll (.str s) max w).1, (Dice.roll (.str s) max w).2)
      else (.error (.error "Invalid bonus syntax"), w) := by
  rw [parse_string, stringToNumber_of_not_looksNumeric s h]
  simp

/-- C11 (amended) at the string `'abc'`, which raises. -/
theorem parse_non_numeric_string_witness :
    looksNumeric "abc" = false ∧
    Bonus.parse (.str "abc") true sampleWorld
      = (.error (.error "Invalid bonus syntax"), sampleWorld) :=
  ⟨by decide, (parse_non_numeric_string "abc" true sampleWorld (by decide)).trans rfl⟩

/-! ## `Bonus.parse` on containers -/

theorem parseItems_sum (xs : List JSVal) (h : ∀ x, x ∈ xs → DiceExpression x) :
    ∀ (s : Int) (w : World), ∃ (vals : List Int) (w1 : World),
      parseEach xs w = (.ok (asNumbers vals), w1) ∧
      Bonus.parseItems xs (.num (.int s)) w = (.ok (.num (.int (s + vals.sum))), w1) := by
  induction xs with
  | nil => intro s w; exact ⟨[], w, rfl, by simp [Bonus.parseItems]⟩
  | cons x xs ih =>
    intro s w
    obtain ⟨v, w1, hv⟩ := parse_wellFormed (h x (List.mem_cons_self x xs)) false w
    obtain ⟨vals, w2, h1, h2⟩ := ih (fun y hy => h y (List.mem_cons_of_mem x hy)) (s + v) w1
    refine ⟨v :: vals, w2, ?_, ?_⟩
    · simp [parseEach, hv, h1, asNumbers]
    · simp only [Bonus.parseItems, hv, add_int_int, h2, List.sum_cons]
      congr 4
      omega

theorem parseProps_sum (kvs : List (String × JSVal))
    (h : ∀ kv, kv ∈ kvs → DiceExpression kv.2) :
    ∀ (s : Int) (w : World), ∃ (vals : List Int) (w1 : World),
      parseEach (kvs.map Prod.snd) w = (.ok (asNumbers vals), w1) ∧
      Bonus.parseProps kvs (.num (.int s)) w = (.ok (.num (.int (s + vals.sum))), w1) := by
  induction kvs with
  | nil => intro s w; exact ⟨[], w, rfl, by simp [Bonus.parseProps]⟩
  | cons kv kvs ih =>
    intro s w
    obtain ⟨k, x⟩ := kv
    obtain ⟨v, w1, hv⟩ := parse_wellFormed (h (k, x) (List.mem_cons_self _ kvs)) false w
    obtain ⟨vals, w2, h1, h2⟩ := ih (fun y hy => h y (List.mem_cons_of_mem _ hy)) (s + v) w1
    refine ⟨v :: vals, w2, ?_, ?_⟩
    · simp [parseEach, hv, h1, asNumbers]
    · simp only [Bonus.parseProps, hv, add_int_int, h2, List.sum_cons]
      congr 4
      omega

theorem parseItems_numbers (ks : List Int) :
    ∀ (s : Int) (w : World),
      Bonus.parseItems (asNumbers ks) (.num (.int s)) w = (.ok (.num (.int (s + ks.sum))), w) := by
  induction ks with
  | nil => intro s w; simp [asNumbers, Bonus.parseItems]
  | cons k ks ih =>
    intro s w
    have := ih (s + k) w
    simp only [asNumbers, List.map_cons, Bonus.parseItems, Bonus.parse, add_int_int,
      List.sum_cons] at this ⊢
    rw [this]
    congr 4
    omega

/-- C12: for a sequence and for a mapping whose elements are well-formed dice expressions and
for both values of the max flag, `Bonus.parse(container, max)` succeeds and returns the sum
of the values `Bonus.parse(element, false)` of the elements taken in order, in the world the
last of them leaves; the result does not depend on the max flag; a sequence of plain
numbers evaluates to their sum and the empty containers to `0`, without drawing. -/
theorem parse_container_sum (xs : List JSVal) (kvs : List (String × JSVal))
    (hxs : ∀ x, x ∈ xs → DiceExpression x) (hkvs : ∀ kv, kv ∈ kvs → DiceExpression kv.2)
    (max : Bool) (w : World) :
    (∃ (vals : List Int) (w1 : World),
      parseEach xs w = (.ok (asNumbers vals), w1) ∧
      Bonus.parse (.arr xs) max w = (.ok (.num (.int vals.sum)), w1)) ∧
    (∃ (vals : List Int) (w1 : World),
      parseEach (kvs.map Prod.snd) w = (.ok (asNumbers vals), w1) ∧
      Bonus.parse (.obj kvs) max w = (.ok (.num (.int vals.sum)), w1)) ∧
    Bonus.parse (.arr xs) true w = Bonus.parse (.arr xs) false w ∧
    Bonus.parse (.obj kvs) true w = Bonus.parse (.obj kvs) false w ∧
    (∀ ks : List Int, Bonus.parse (.arr (asNumbers ks)) max w = (.ok (.num (.int ks.sum)), w)) ∧
    Bonus.parse (.arr []) max w = (.ok (.num (.int 0)), w) ∧
    Bonus.parse (.obj []) max w = (.ok (.num (.int 0)), w) := by
  refine ⟨?_, ?_, ?_, ?_, ?_, ?_, ?_⟩
  · obtain ⟨vals, w1, h1, h2⟩ := parseItems_sum xs hxs 0 w
    refine ⟨vals, w1, h1, ?_⟩
    simp only [Bonus.parse, h2, Int.zero_add]
  · obtain ⟨vals, w1, h1, h2⟩ := parseProps_sum kvs hkvs 0 w
    refine ⟨vals, w1, h1, ?_⟩
    simp only [Bonus.parse, h2, Int.zero_add]
  · simp only [Bonus.parse]
  · simp only [Bonus.parse]
  · intro ks
    simp only [Bonus.parse, parseItems_numbers, Int.zero_add]
  · simp only [Bonus.parse, Bonus.parseItems]
  · simp only [Bonus.parse, Bonus.parseProps]

/-- C12 at the sequence holding `1d6` and `4`, evaluated with the max flag in the sample
world: the die is drawn (octet 3, face 4), not maximised. -/
theorem parse_container_sum_witness :
    (∀ x, x ∈ [JSVal.str "1d6", JSVal.num (.int 4)] → DiceExpression x) ∧
    Bonus.parse (.arr [.str "1d6", .num (.int 4)]) true sampleWorld
      = Bonus.parse (.arr [.str "1d6", .num (.int 4)]) false sampleWorld ∧
    (Bonus.parse (.arr [.str "1d6", .num (.int 4)]) true sampleWorld).1
      = .ok (.num (.int 8)) := by
  have hwf : ∀ x, x ∈ [JSVal.str "1d6", JSVal.num (.int 4)] → DiceExpression x := by
    intro x hx
    simp only [List.mem_cons, List.mem_singleton, List.not_mem_nil, or_false] at hx
    rcases hx with rfl | rfl
    · exact DiceExpression.dice 1 6 (by decide) (by decide)
    · exact DiceExpression.flat 4
  exact ⟨hwf, (parse_container_sum _ [] hwf (fun _ h => absurd h (List.not_mem_nil _))
    true sampleWorld).2.2.1, rfl⟩

/-! ## `Weapon.attack`: the base damage -/

/-- C13 (counterexample): a weapon built with the plain integer damage `5` reports `NaN` for
`Physical`, in a maximised as in an unforced attack, because `attack` evaluates the base
damage with `Dice.roll`, which returns `undefined` for anything but a string, whereas
`Bonus.parse(5, true)` is `5`.  A weapon built with damage `'abc'` attacks without raising
and reports `Physical 0`, whereas `Bonus.parse('abc')` raises. -/
theorem base_damage_not_parsed :
    Weapon.new (.obj [("damage", .num (.int 5))]) = .ok flatWeapon ∧
    (flatWeapon.attack true false sampleWorld).1 = .ok [("Physical", .nan)] ∧
    (flatWeapon.attack false false sampleWorld).1 = .ok [("Physical", .nan)] ∧
    (Bonus.parse (.num (.int 5)) true sampleWorld).1 = .ok (.num (.int 5)) ∧
    Weapon.new (.obj [("damage", .str "abc")]) = .ok malformedWeapon ∧
    (malformedWeapon.attack false false sampleWorld).1 = .ok [("Physical", .int 0)] ∧
    (Bonus.parse (.str "abc") false sampleWorld).1 = .error (.error "Invalid bonus syntax") :=
  ⟨rfl, rfl, rfl, rfl, rfl, rfl, rfl⟩

/-- C13 (amended): for every weapon whose base damage is a string `NdM` with positive `N`
and `M`, and for every flag combination, `Bonus.parse(damage, max)` evaluated where `attack`
evaluates the base damage (in the world left by the d20 roll) succeeds with the very value
and world of the `Dice.roll` call that `attack` makes, and the result of `attack` is what the
enchantments and bonuses accumulate onto the single entry `Physical` holding that value times
the multiplier. -/
theorem base_damage_as_parse (self : Weapon) (n m : Nat) (hn : 0 < n) (hm : 0 < m)
    (hdmg : self.damage = diceExpr n m) (max crit : Bool) (w : World) :
    ∃ v : Int,
      Bonus.parse self.damage max (Dice.d20 (.num (.int 1)) (max || crit) w).2
        = (.ok (.num (.int v)),
          (Dice.roll self.damage max (Dice.d20 (.num (.int 1)) (max || crit) w).2).2) ∧
      (n : Int) ≤ v ∧ v ≤ n * m ∧
      ∀ (v1 v2 : List (String × JSVal)) (w3 w4 : World),
        evaluateAll max self.enchantments
          (Dice.roll self.damage max (Dice.d20 (.num (.int 1)) (max || crit) w).2).2
          = (.ok v1, w3) →
        evaluateAll max self.bonuses w3 = (.ok v2, w4) →
        (self.attack max crit w).1 = .ok (accumulate (self.multiplierOf max crit w) (v1 ++ v2)
          [("Physical", (JSVal.num (.int v)).mul (self.multiplierOf max crit w))]) := by
  obtain ⟨v, hv, _, hlo, hhi⟩ := roll_diceExpr_value n m hn hm max
    (Dice.d20 (.num (.int 1)) (max || crit) w).2
  have hp := parse_diceExpr n m max (Dice.d20 (.num (.int 1)) (max || crit) w).2
  rw [← hdmg] at hv hp
  refine ⟨v, by rw [hp, hv], hlo, hhi, ?_⟩
  intro v1 v2 w3 w4 h1 h2
  obtain ⟨hres, _⟩ := attack_eq_accumulate self max crit w w3 w4 v1 v2 h1 h2
  rw [hres, hv]
  rfl

/-- C13 (amended) at the weapon built from an empty descriptor but for damage `1d6`,
attacked with the max flag: `Physical` is `6 * 2`. -/
theorem base_damage_as_parse_witness :
    (0 < 1 ∧ 0 < 6 ∧ ({ defaultWeapon with damage := .str "1d6" } : Weapon).damage = diceExpr 1 6) ∧
    ∃ v : Int,
      Bonus.parse (.str "1d6") true (Dice.d20 (.num (.int 1)) (true || false) sampleWorld).2
        = (.ok (.num (.int v)),
          (Dice.roll (.str "1d6") true
            (Dice.d20 (.num (.int 1)) (true || false) sampleWorld).2).2) ∧
      ((1 : Nat) : Int) ≤ v := by
  refine ⟨⟨by decide, by decide, rfl⟩, ?_⟩
  obtain ⟨v, h1, h2, _⟩ := base_damage_as_parse { defaultWeapon with damage := .str "1d6" } 1 6
    (by decide) (by decide) rfl true false sampleWorld
  exact ⟨v, h1, h2⟩

/-! ## `Stats.register` -/

theorem Table.get_set_self {α : Type} (key : String) (v : α) (t : Table α) :
    (t.set key v).get key = some v := by
  induction t with
  | nil => simp [Table.set, Table.get]
  | cons kv t ih =>
    obtain ⟨k, x⟩ := kv
    by_cases h : k = key
    · simp [Table.set, Table.get, h]
    · simp [Table.set, Table.get, h, ih]

theorem Table.get_set_ne {α : Type} (key k2 : String) (v : α) (t : Table α)
    (h : k2 ≠ key) : (t.set key v).get k2 = t.get k2 := by
  induction t with
  | nil =>
    have : key ≠ k2 := fun e => h e.symm
    simp [Table.set, Table.get, this]
  | cons kv t ih =>
    obtain ⟨k, x⟩ := kv
    by_cases hk : k = key
    · have h2 : ¬ key = k2 := fun e => h e.symm
      subst hk
      simp [Table.set, Table.get, h2]
    · by_cases hkt : k = k2
      · subst hkt
        simp [Table.set, Table.get, hk]
      · simp [Table.set, Table.get, hk, hkt, ih]

theorem Table.mem_keys_iff_get {α : Type} (key : String) (t : Table α) :
    key ∈ t.keys ↔ t.get key ≠ none := by
  induction t with
  | nil => simp [Table.keys, Table.get]
  | cons kv t ih =>
    obtain ⟨k, x⟩ := kv
    simp only [Table.keys, List.map_cons, List.mem_cons, Table.get] at ih ⊢
    by_cases h : k = key
    · simp [h]
    · have h2 : ¬ key = k := fun e => h e.symm
      simp [h, h2, ih]

theorem Table.keys_set_of_mem {α : Type} (key : String) (v : α) (t : Table α)
    (h : key ∈ t.keys) : (t.set key v).keys = t.keys := by
  induction t with
  | nil => simp [Table.keys] at h
  | cons kv t ih =>
    obtain ⟨k, x⟩ := kv
    by_cases hk : k = key
    · simp [Table.set, Table.keys, hk]
    · have hmem : key ∈ Table.keys t := by
        simp only [Table.keys, List.map_cons, List.mem_cons] at h
        rcases h with h | h
        · exact absurd h.symm hk
        · exact h
      have := ih hmem
      simp only [Table.keys] at this
      simp [Table.set, Table.keys, hk, this]

theorem Stats.bind_get (s : Stats) (key : String) (w : Weapon) :
    (s.bind key w).weapons.get key = some w ∧
    (s.bind key w).attacks.get key = some [] ∧
    (s.bind key w).critAttacks.get key = some [] ∧
    (s.bind key w).iterations = s.iterations :=
  ⟨Table.get_set_self _ _ _, Table.get_set_self _ _ _, Table.get_set_self _ _ _, rfl⟩

theorem Stats.bind_get_other (s : Stats) (key k2 : String) (w : Weapon) (h : k2 ≠ key) :
    (s.bind key w).weapons.get k2 = s.weapons.get k2 ∧
    (s.bind key w).attacks.get k2 = s.attacks.get k2 ∧
    (s.bind key w).critAttacks.get k2 = s.critAttacks.get k2 :=
  ⟨Table.get_set_ne _ _ _ _ h, Table.get_set_ne _ _ _ _ h,
    Table.get_set_ne _ _ _ _ h⟩

/-- C16 (code at the failing input): `register` of a mapping with at least one entry throws
the `ReferenceError` of the unbound identifier `weapon` and binds nothing, for every
aggregator, also from the constructor.  The single-weapon form binds the weapon under its
name with empty histories, and the array form does so for each element, a later element
replacing an earlier one of the same name. -/
theorem register_mapping_throws :
    (∀ (s : Stats) (key : String) (w : Weapon) (rest : List (String × Weapon)),
      s.register (.mapping ((key, w) :: rest)) = .error (.referenceError "weapon")) ∧
    Stats.new (.mapping [("sword", sampleWeapon)]) = .error (.referenceError "weapon") ∧
    (∀ (s : Stats) (w : Weapon), ∃ s1 : Stats, s.register (.weapon w) = .ok s1 ∧
      s1.weapons.get w.name.toStr = some w ∧
      s1.attacks.get w.name.toStr = some [] ∧
      s1.critAttacks.get w.name.toStr = some []) ∧
    (∀ (s : Stats) (w1 w2 : Weapon), ∃ s1 : Stats, s.register (.list [w1, w2]) = .ok s1 ∧
      s1.weapons.get w2.name.toStr = some w2 ∧
      s1.weapons.get w1.name.toStr
        = some (if w1.name.toStr = w2.name.toStr then w2 else w1) ∧
      s1.attacks.get w1.name.toStr = some [] ∧
      s1.critAttacks.get w1.name.toStr = some [] ∧
      s1.attacks.get w2.name.toStr = some [] ∧
      s1.critAttacks.get w2.name.toStr = some []) := by
  refine ⟨fun _ _ _ _ => rfl, rfl, ?_, ?_⟩
  · intro s w
    obtain ⟨h1, h2, h3, _⟩ := Stats.bind_get s w.name.toStr w
    exact ⟨_, rfl, h1, h2, h3⟩
  · intro s w1 w2
    refine ⟨_, rfl, ?_⟩
    simp only [Stats.registerList]
    obtain ⟨h1, h2, h3, _⟩ := Stats.bind_get (s.bind w1.name.toStr w1) w2.name.toStr w2
    obtain ⟨g1, g2, g3, _⟩ := Stats.bind_get s w1.name.toStr w1
    by_cases he : w1.name.toStr = w2.name.toStr
    · rw [if_pos he]
      exact ⟨h1, (congrArg (fun k => Table.get k _) he).trans h1,
        (congrArg (fun k => Table.get k _) he).trans h2,
        (congrArg (fun k => Table.get k _) he).trans h3, h2, h3⟩
    · obtain ⟨o1, o2, o3⟩ :=
        Stats.bind_get_other (s.bind w1.name.toStr w1) w2.name.toStr w1.name.toStr w2 he
      rw [if_neg he]
      exact ⟨h1, o1.trans g1, o2.trans g2, o3.trans g3, h2, h3⟩

/-! ## `Stats`: histories under `run` and `register` -/

theorem Stats.keeps_refl (s : Stats) : s.Keeps s :=
  ⟨le_refl _, fun _ h hh => ⟨h, hh, le_refl _⟩, fun _ h hh => ⟨h, hh, le_refl _⟩⟩

theorem Stats.keeps_trans {a b c : Stats} (h1 : a.Keeps b) (h2 : b.Keeps c) : a.Keeps c := by
  obtain ⟨i1, a1, c1⟩ := h1
  obtain ⟨i2, a2, c2⟩ := h2
  refine ⟨le_trans i1 i2, ?_, ?_⟩
  · intro k h hh
    obtain ⟨hb, hb1, hb2⟩ := a1 k h hh
    obtain ⟨hc, hc1, hc2⟩ := a2 k hb hb1
    exact ⟨hc, hc1, le_trans hb2 hc2⟩
  · intro k h hh
    obtain ⟨hb, hb1, hb2⟩ := c1 k h hh
    obtain ⟨hc, hc1, hc2⟩ := c2 k hb hb1
    exact ⟨hc, hc1, le_trans hb2 hc2⟩

theorem Table.get_set_longer (t : Table (List Result)) (key : String) (old new : List Result)
    (hold : t.get key = some old) (hlen : old.length ≤ new.length) :
    ∀ k h, t.get k = some h →
      ∃ h1, (t.set key new).get k = some h1 ∧ h.length ≤ h1.length := by
  intro k h hh
  by_cases hk : k = key
  · subst hk
    rw [hold] at hh
    simp only [Option.some.injEq] at hh
    subst hh
    exact ⟨new, Table.get_set_self _ _ _, hlen⟩
  · exact ⟨h, (Table.get_set_ne _ _ _ _ hk).trans hh, le_refl _⟩

theorem Stats.keeps_push_attack (s : Stats) (key : String) (history : List Result)
    (r : Result) (h : s.attacks.get key = some history) :
    s.Keeps { s with attacks := s.attacks.set key (history ++ [r]) } :=
  ⟨le_refl _, Table.get_set_longer _ _ _ _ h (by simp), fun _ c hc => ⟨c, hc, le_refl _⟩⟩

theorem Stats.keeps_push_crit (s : Stats) (key : String) (history : List Result)
    (r : Result) (h : s.critAttacks.get key = some history) :
    s.Keeps { s with critAttacks := s.critAttacks.set key (history ++ [r]) } :=
  ⟨le_refl _, fun _ c hc => ⟨c, hc, le_refl _⟩, Table.get_set_longer _ _ _ _ h (by simp)⟩

theorem Stats.runLoop_keeps (key : String) (n : Nat) :
    ∀ (weapon : Weapon) (s : Stats) (world : World),
      s.Keeps (Stats.runLoop key n weapon s world).2.2.1 := by
  induction n with
  | zero => intro weapon s world; exact Stats.keeps_refl s
  | succ n ih =>
    intro weapon s world
    simp only [Stats.runLoop]
    cases ha : s.attacks.get key with
    | none => exact Stats.keeps_refl s
    | some history =>
      simp only []
      cases h1 : weapon.attack false false world with
      | mk res rest =>
        obtain ⟨weapon1, world1⟩ := rest
        cases res with
        | error e => exact Stats.keeps_refl s
        | ok result =>
          simp only []
          have k1 := Stats.keeps_push_attack s key history result ha
          cases hc : s.critAttacks.get key with
          | none => exact k1
          | some critHistory =>
            simp only []
            cases h2 : weapon1.attack false true world1 with
            | mk res2 rest2 =>
              obtain ⟨weapon2, world2⟩ := rest2
              cases res2 with
              | error e => exact k1
              | ok critResult =>
                simp only []
                refine Stats.keeps_trans k1 (Stats.keeps_trans ?_ (ih weapon2 _ world2))
                exact Stats.keeps_push_crit
                  { s with attacks := s.attacks.set key (history ++ [result]) } key
                  critHistory critResult hc

theorem Stats.keeps_set_weapon (s : Stats) (key : String) (w : Weapon) :
    s.Keeps { s with weapons := s.weapons.set key w } :=
  ⟨le_refl _, fun _ h hh => ⟨h, hh, le_refl _⟩, fun _ h hh => ⟨h, hh, le_refl _⟩⟩

theorem Stats.runKey_keeps (n : Nat) (key : String) (s : Stats) (world : World) :
    s.Keeps (Stats.runKey n key s world).2.1 := by
  simp only [Stats.runKey]
  cases s.weapons.get key with
  | none => exact Stats.keeps_refl s
  | some weapon =>
    exact Stats.keeps_trans (Stats.runLoop_keeps key n weapon s world)
      (Stats.keeps_set_weapon _ _ _)

theorem Stats.runKeys_keeps (n : Nat) (keys : List String) :
    ∀ (s : Stats) (world : World), s.Keeps (Stats.runKeys n keys s world).2.1 := by
  induction keys with
  | nil => intro s world; exact Stats.keeps_refl s
  | cons key rest ih =>
    intro s world
    simp only [Stats.runKeys]
    have hk := Stats.runKey_keeps n key s world
    cases h : Stats.runKey n key s world with
    | mk res st =>
      obtain ⟨s1, world1⟩ := st
      rw [h] at hk
      cases res with
      | error e => exact hk
      | ok u => exact Stats.keeps_trans hk (ih s1 world1)

theorem Stats.run_keeps (s : Stats) (n : Nat) (world : World) :
    s.Keeps (s.run n world).2.1 := by
  simp only [Stats.run]
  have hk := Stats.runKeys_keeps n s.weapons.keys s world
  cases h : Stats.runKeys n s.weapons.keys s world with
  | mk res st =>
    obtain ⟨s1, world1⟩ := st
    rw [h] at hk
    cases res with
    | error e => exact hk
    | ok u =>
      refine Stats.keeps_trans hk ⟨?_, fun _ h hh => ⟨h, hh, le_refl _⟩,
        fun _ h hh => ⟨h, hh, le_refl _⟩⟩
      exact Nat.le_add_right _ _

theorem Stats.registerList_get (ws : List Weapon) :
    ∀ (s : Stats) (k : String),
      (Stats.registerList ws s).iterations = s.iterations ∧
      (Stats.registerList ws s).attacks.get k
        = (if k ∈ ws.map (fun w => w.name.toStr) then some [] else s.attacks.get k) ∧
      (Stats.registerList ws s).critAttacks.get k
        = (if k ∈ ws.map (fun w => w.name.toStr) then some [] else s.critAttacks.get k) := by
  induction ws with
  | nil => intro s k; simp [Stats.registerList]
  | cons w ws ih =>
    intro s k
    obtain ⟨i1, a1, c1⟩ := ih (s.bind w.name.toStr w) k
    simp only [Stats.registerList, List.map_cons, List.mem_cons]
    refine ⟨i1, ?_, ?_⟩
    · rw [a1]
      by_cases hin : k ∈ ws.map (fun w => w.name.toStr)
      · simp [hin]
      · by_cases hk : k = w.name.toStr
        · subst hk
          simp [hin, (Stats.bind_get s w.name.toStr w).2.1]
        · simp [hin, hk, (Stats.bind_get_other s w.name.toStr k w hk).2.1]
    · rw [c1]
      by_cases hin : k ∈ ws.map (fun w => w.name.toStr)
      · simp [hin]
      · by_cases hk : k = w.name.toStr
        · subst hk
          simp [hin, (Stats.bind_get s w.name.toStr w).2.2.1]
        · simp [hin, hk, (Stats.bind_get_other s w.name.toStr k w hk).2.2]

theorem Stats.register_get (s s1 : Stats) (arg : Registrable) (h : s.register arg = .ok s1)
    (k : String) :
    s1.iterations = s.iterations ∧
    s1.attacks.get k = (if k ∈ arg.names then some [] else s.attacks.get k) ∧
    s1.critAttacks.get k = (if k ∈ arg.names then some [] else s.critAttacks.get k) := by
  cases arg with
  | weapon w =>
    simp only [Stats.register, Except.ok.injEq] at h
    subst h
    have := Stats.registerList_get [w] s k
    simpa [Stats.registerList, Registrable.names] using this
  | list ws =>
    simp only [Stats.register, Except.ok.injEq] at h
    subst h
    simpa [Registrable.names] using Stats.registerList_get ws s k
  | mapping kvs =>
    cases kvs with
    | nil =>
      simp only [Stats.register, Stats.registerMapping, Except.ok.injEq] at h
      subst h
      simp [Registrable.names]
    | cons kv rest =>
      obtain ⟨key, w⟩ := kv
      simp [Stats.register, Stats.registerMapping, Stats.unboundWeapon] at h
  | null => simp [Stats.register] at h
  | scalar =>
    simp only [Stats.register, Except.ok.injEq] at h
    subst h
    simp [Registrable.names]

/-- C17 (counterexample): the aggregator built by `new Stats(sampleWeapon)` has, after a
successful `run(1)`, one entry in the normal and one in the crit history of the weapon;
registering the same weapon again succeeds and leaves both histories empty. -/
theorem register_resets_history :
    Stats.new (.weapon sampleWeapon) = .ok sampleStats ∧
    (sampleStats.run 1 sampleWorld).1 = .ok () ∧
    ((sampleStats.run 1 sampleWorld).2.1.attacks.get "Flaming sword").map List.length
      = some 1 ∧
    ((sampleStats.run 1 sampleWorld).2.1.critAttacks.get "Flaming sword").map List.length
      = some 1 ∧
    ∃ s2 : Stats,
      (sampleStats.run 1 sampleWorld).2.1.register (.weapon sampleWeapon) = .ok s2 ∧
      s2.attacks.get "Flaming sword" = some [] ∧
      s2.critAttacks.get "Flaming sword" = some [] :=
  ⟨rfl, rfl, rfl, rfl, _, rfl, rfl, rfl⟩

/-- C17 (amended): `run` never shrinks a history and never decreases the counter, whether it
returns or throws: a normal or crit history present before the call is present after it, at
least as long.  A successful `register` leaves the counter unchanged and leaves the histories
of every name it does not register as they were; the histories of the names it registers are
empty after the call. -/
theorem run_never_shrinks (s : Stats) (n : Nat) (world : World) (k : String)
    (h c : List Result) (hh : s.attacks.get k = some h) (hc : s.critAttacks.get k = some c)
    (arg : Registrable) (s1 : Stats) (hreg : s.register arg = .ok s1) :
    (∃ h1 c1 : List Result,
      (s.run n world).2.1.attacks.get k = some h1 ∧ h.length ≤ h1.length ∧
      (s.run n world).2.1.critAttacks.get k = some c1 ∧ c.length ≤ c1.length) ∧
    s.iterations ≤ (s.run n world).2.1.iterations ∧
    s1.iterations = s.iterations ∧
    s1.attacks.get k = (if k ∈ arg.names then some [] else some h) ∧
    s1.critAttacks.get k = (if k ∈ arg.names then some [] else some c) := by
  obtain ⟨hi, ha, hcr⟩ := Stats.run_keeps s n world
  obtain ⟨h1, e1, l1⟩ := ha k h hh
  obtain ⟨c1, e2, l2⟩ := hcr k c hc
  obtain ⟨r1, r2, r3⟩ := Stats.register_get s s1 arg hreg k
  exact ⟨⟨h1, c1, e1, l1, e2, l2⟩, hi, r1, hh ▸ r2, hc ▸ r3⟩

/-- C17 (amended) at the sample aggregator: a `run(2)` keeps its histories, and registering
the sample weapon again empties them. -/
theorem run_never_shrinks_witness :
    (sampleStats.attacks.get "Flaming sword" = some [] ∧
      sampleStats.critAttacks.get "Flaming sword" = some [] ∧
      sampleStats.register (.weapon sampleWeapon) = .ok sampleStats) ∧
    sampleStats.iterations ≤ (sampleStats.run 2 sampleWorld).2.1.iterations :=
  ⟨⟨rfl, rfl, rfl⟩,
    (run_never_shrinks sampleStats 2 sampleWorld "Flaming sword" [] [] rfl rfl
      (.weapon sampleWeapon) sampleStats rfl).2.1⟩

/-! ## `Stats.run`: what it appends -/

theorem attack_result_numCrits (w : Weapon) (k : Nat) (max crit : Bool) (world : World) :
    (({ w with numCrits := k } : Weapon).attack max crit world).1
      = (w.attack max crit world).1 := by
  simp only [Weapon.attack, Weapon.multiplierOf]
  rcases evaluateBonuses_cases : Weapon.evaluateBonuses max
      (if (Weapon.attackRoll max crit world).ge w.minCrit = true then w.critMultiplier
        else JSVal.num (JSNum.int 1))
      w.enchantments
      (Result.set "Physical"
        (Weapon.damageOf
          (if (Weapon.attackRoll max crit world).ge w.minCrit = true then w.critMultiplier
            else JSVal.num (JSNum.int 1))
          (Dice.roll w.damage max (Dice.d20 (JSVal.num (JSNum.int 1)) (max || crit) world).2).1)
        [])
      (Dice.roll w.damage max (Dice.d20 (JSVal.num (JSNum.int 1)) (max || crit) world).2).2
    with ⟨res, w3⟩
  cases res with
  | error e => rfl
  | ok r1 =>
    simp only []
    split <;> split <;> simp_all

theorem neverRaises_after_attack (w : Weapon) (h : w.NeverRaises) (max crit : Bool)
    (world : World) :
    (w.attack max crit world).2.1.NeverRaises ∧
    (w.attack max crit world).2.1
      = { w with numCrits := (w.attack max crit world).2.1.numCrits } := by
  rw [attack_weapon]
  split
  · refine ⟨?_, rfl⟩
    intro m c wd
    obtain ⟨r, hr⟩ := h m c wd
    exact ⟨r, (attack_result_numCrits w _ m c wd).trans hr⟩
  · exact ⟨h, rfl⟩

theorem attack_result_of_numCrits_eq (w w1 : Weapon)
    (e : w1 = { w with numCrits := w1.numCrits }) (max crit : Bool) (world : World) :
    (w1.attack max crit world).1 = (w.attack max crit world).1 := by
  rw [e]
  exact attack_result_numCrits w _ max crit world

theorem Stats.runLoop_ok (key : String) (n : Nat) :
    ∀ (weapon : Weapon) (s : Stats) (world : World) (h c : List Result),
      weapon.NeverRaises → s.attacks.get key = some h → s.critAttacks.get key = some c →
      ∃ (rs cs : List Result) (weapon1 : Weapon) (s1 : Stats) (world1 : World),
        Stats.runLoop key n weapon s world = (.ok (), weapon1, s1, world1) ∧
        rs.length = n ∧ cs.length = n ∧
        weapon1.NeverRaises ∧ weapon1 = { weapon with numCrits := weapon1.numCrits } ∧
        s1.weapons = s.weapons ∧ s1.iterations = s.iterations ∧
        s1.attacks.get key = some (h ++ rs) ∧ s1.critAttacks.get key = some (c ++ cs) ∧
        (∀ k, k ≠ key → s1.attacks.get k = s.attacks.get k ∧
          s1.critAttacks.get k = s.critAttacks.get k) ∧
        (∀ r, r ∈ rs → ∃ wd : World, (weapon.attack false false wd).1 = .ok r) ∧
        (∀ r, r ∈ cs → ∃ wd : World, (weapon.attack false true wd).1 = .ok r) := by
  induction n with
  | zero =>
    intro weapon s world h c hw hh hc
    exact ⟨[], [], weapon, s, world, rfl, rfl, rfl, hw, rfl, rfl, rfl, by simpa using hh,
      by simpa using hc, fun _ _ => ⟨rfl, rfl⟩, fun r hr => absurd hr (List.not_mem_nil r),
      fun r hr => absurd hr (List.not_mem_nil r)⟩
  | succ n ih =>
    intro weapon s world h c hw hh hc
    obtain ⟨r, hr⟩ := hw false false world
    obtain ⟨hw1, _⟩ := neverRaises_after_attack weapon hw false false world
    obtain ⟨r2, hr2⟩ := hw1 false true (weapon.attack false false world).2.2
    obtain ⟨hw2, _⟩ := neverRaises_after_attack _ hw1 false true
      (weapon.attack false false world).2.2
    cases h1 : weapon.attack false false world with
    | mk res rest =>
      obtain ⟨weapon1, world1⟩ := rest
      rw [h1] at hr hr2 hw2 hw1
      simp only at hr hr2 hw2 hw1
      subst hr
      cases h2 : weapon1.attack false true world1 with
      | mk res2 rest2 =>
        obtain ⟨weapon2, world2⟩ := rest2
        rw [h2] at hr2 hw2
        simp only at hr2 hw2
        subst hr2
        have e1 : weapon1 = { weapon with numCrits := weapon1.numCrits } := by
          have := (neverRaises_after_attack weapon hw false false world).2
          rw [h1] at this
          exact this
        have e2 : weapon2 = { weapon1 with numCrits := weapon2.numCrits } := by
          have := (neverRaises_after_attack weapon1 hw1 false true world1).2
          rw [h2] at this
          exact this
        have e12 : weapon2 = { weapon with numCrits := weapon2.numCrits } := by
          rw [e2, e1]
        obtain ⟨rs, cs, weapon3, s3, world3, hrun, hl1, hl2, hw3, e3, hwe, hit, ha, hcr, hoth,
            hp1, hp2⟩ :=
          ih weapon2
            { s with
              attacks := s.attacks.set key (h ++ [r])
              critAttacks := s.critAttacks.set key (c ++ [r2]) } world2 (h ++ [r]) (c ++ [r2])
            hw2 (Table.get_set_self _ _ _) (Table.get_set_self _ _ _)
        refine ⟨r :: rs, r2 :: cs, weapon3, s3, world3, ?_, by simp [hl1], by simp [hl2], hw3,
          ?_, hwe, hit, by simpa using ha, by simpa using hcr, ?_, ?_, ?_⟩
        · simp only [Stats.runLoop, hh, h1, hc, h2, hrun]
        · rw [e3, e2, e1]
        · intro k hk
          obtain ⟨o1, o2⟩ := hoth k hk
          exact ⟨o1.trans (Table.get_set_ne _ _ _ _ hk),
            o2.trans (Table.get_set_ne _ _ _ _ hk)⟩
        · intro x hx
          rcases List.mem_cons.mp hx with rfl | hx
          · exact ⟨world, by rw [h1]⟩
          · obtain ⟨wd, hwd⟩ := hp1 x hx
            exact ⟨wd, (attack_result_of_numCrits_eq weapon weapon2 e12 false false wd).symm.trans
              hwd⟩
        · intro x hx
          rcases List.mem_cons.mp hx with rfl | hx
          · refine ⟨world1, (attack_result_of_numCrits_eq weapon weapon1 e1 false true
              world1).symm.trans ?_⟩
            rw [h2]
          · obtain ⟨wd, hwd⟩ := hp2 x hx
            exact ⟨wd, (attack_result_of_numCrits_eq weapon weapon2 e12 false true wd).symm.trans
              hwd⟩

theorem Table.mem_keys_of_get {α : Type} (key : String) (v : α) (t : Table α)
    (h : t.get key = some v) : key ∈ t.keys := by
  rw [Table.mem_keys_iff_get, h]
  exact Option.some_ne_none v

theorem Stats.runKey_ok (n : Nat) (key : String) (s : Stats) (world : World)
    (weapon : Weapon) (h c : List Result) (hget : s.weapons.get key = some weapon)
    (hw : weapon.NeverRaises) (hh : s.attacks.get key = some h)
    (hc : s.critAttacks.get key = some c) :
    ∃ (rs cs : List Result) (weapon1 : Weapon) (s1 : Stats) (world1 : World),
      Stats.runKey n key s world = (.ok (), s1, world1) ∧
      rs.length = n ∧ cs.length = n ∧
      weapon1.NeverRaises ∧ weapon1 = { weapon with numCrits := weapon1.numCrits } ∧
      s1.weapons.get key = some weapon1 ∧ s1.weapons.keys = s.weapons.keys ∧
      s1.iterations = s.iterations ∧
      s1.attacks.get key = some (h ++ rs) ∧ s1.critAttacks.get key = some (c ++ cs) ∧
      (∀ k, k ≠ key → s1.weapons.get k = s.weapons.get k ∧
        s1.attacks.get k = s.attacks.get k ∧ s1.critAttacks.get k = s.critAttacks.get k) ∧
      (∀ r, r ∈ rs → ∃ wd : World, (weapon.attack false false wd).1 = .ok r) ∧
      (∀ r, r ∈ cs → ∃ wd : World, (weapon.attack false true wd).1 = .ok r) := by
  obtain ⟨rs, cs, weapon1, s1, world1, hrun, hl1, hl2, hw1, e1, hwe, hit, ha, hcr, hoth, hp1,
      hp2⟩ :=
    Stats.runLoop_ok key n weapon s world h c hw hh hc
  refine ⟨rs, cs, weapon1, { s1 with weapons := s1.weapons.set key weapon1 }, world1, ?_, hl1,
    hl2, hw1, e1, Table.get_set_self _ _ _, ?_, hit, ha, hcr, ?_, hp1, hp2⟩
  · simp only [Stats.runKey, hget, hrun]
  · show (s1.weapons.set key weapon1).keys = s.weapons.keys
    rw [hwe]
    exact Table.keys_set_of_mem _ _ _ (Table.mem_keys_of_get _ _ _ hget)
  · intro k hk
    obtain ⟨o1, o2⟩ := hoth k hk
    refine ⟨?_, o1, o2⟩
    show (s1.weapons.set key weapon1).get k = s.weapons.get k
    rw [hwe]
    exact Table.get_set_ne _ _ _ _ hk

theorem Stats.runKeys_ok (n : Nat) (ks : List String) :
    ks.Nodup → ∀ (s : Stats) (world : World),
      (∀ k, k ∈ ks → ∃ (w : Weapon) (h c : List Result), s.weapons.get k = some w ∧
        w.NeverRaises ∧ s.attacks.get k = some h ∧ s.critAttacks.get k = some c) →
      ∃ (s1 : Stats) (world1 : World),
        Stats.runKeys n ks s world = (.ok (), s1, world1) ∧
        s1.iterations = s.iterations ∧ s1.weapons.keys = s.weapons.keys ∧
        (∀ k, k ∉ ks → s1.weapons.get k = s.weapons.get k ∧
          s1.attacks.get k = s.attacks.get k ∧ s1.critAttacks.get k = s.critAttacks.get k) ∧
        (∀ k, k ∈ ks → ∃ (w w1 : Weapon) (h c rs cs : List Result),
          s.weapons.get k = some w ∧ s1.weapons.get k = some w1 ∧
          w1 = { w with numCrits := w1.numCrits } ∧
          s.attacks.get k = some h ∧ s.critAttacks.get k = some c ∧
          s1.attacks.get k = some (h ++ rs) ∧ rs.length = n ∧
          s1.critAttacks.get k = some (c ++ cs) ∧ cs.length = n ∧
          (∀ r, r ∈ rs → ∃ wd : World, (w.attack false false wd).1 = .ok r) ∧
          (∀ r, r ∈ cs → ∃ wd : World, (w.attack false true wd).1 = .ok r)) := by
  induction ks with
  | nil =>
    intro _ s world _
    exact ⟨s, world, rfl, rfl, rfl, fun _ _ => ⟨rfl, rfl, rfl⟩,
      fun k hk => absurd hk (List.not_mem_nil k)⟩
  | cons k0 rest ih =>
    intro hnd s world hpre
    obtain ⟨hnotin, hnd2⟩ := List.nodup_cons.mp hnd
    obtain ⟨w, h, c, hget, hw, hh, hc⟩ := hpre k0 (List.mem_cons_self k0 rest)
    obtain ⟨rs, cs, w1, s1, world1, hrun, hl1, hl2, _, e1, hg1, hkeys1, hit1, ha1, hc1, hoth1,
        hp1, hp2⟩ :=
      Stats.runKey_ok n k0 s world w h c hget hw hh hc
    have hpre2 : ∀ k, k ∈ rest → ∃ (w : Weapon) (h c : List Result),
        s1.weapons.get k = some w ∧ w.NeverRaises ∧ s1.attacks.get k = some h ∧
        s1.critAttacks.get k = some c := by
      intro k hk
      have hne : k ≠ k0 := fun e => hnotin (e ▸ hk)
      obtain ⟨wk, hk1, ck, g1, g2, g3, g4⟩ := hpre k (List.mem_cons_of_mem k0 hk)
      obtain ⟨o1, o2, o3⟩ := hoth1 k hne
      exact ⟨wk, hk1, ck, o1.trans g1, g2, o2.trans g3, o3.trans g4⟩
    obtain ⟨s2, world2, hrun2, hit2, hkeys2, hout2, hin2⟩ := ih hnd2 s1 world1 hpre2
    refine ⟨s2, world2, ?_, hit2.trans hit1, hkeys2.trans hkeys1, ?_, ?_⟩
    · simp only [Stats.runKeys, hrun, hrun2]
    · intro k hk
      have hne : k ≠ k0 := fun e => hk (e ▸ List.mem_cons_self k0 rest)
      have hnr : k ∉ rest := fun e => hk (List.mem_cons_of_mem k0 e)
      obtain ⟨o1, o2, o3⟩ := hoth1 k hne
      obtain ⟨p1, p2, p3⟩ := hout2 k hnr
      exact ⟨p1.trans o1, p2.trans o2, p3.trans o3⟩
    · intro k hk
      rcases List.mem_cons.mp hk with rfl | hk
      · obtain ⟨p1, p2, p3⟩ := hout2 k hnotin
        exact ⟨w, w1, h, c, rs, cs, hget, p1.trans hg1, e1, hh, hc, p2.trans ha1, hl1,
          p3.trans hc1, hl2, hp1, hp2⟩
      · have hne : k ≠ k0 := fun e => hnotin (e ▸ hk)
        obtain ⟨o1, o2, o3⟩ := hoth1 k hne
        obtain ⟨wk, wk1, hk1, ck, rk, ckk, g1, g2, g3, g4, g5, g6, g7, g8, g9, g10, g11⟩ :=
          hin2 k hk
        exact ⟨wk, wk1, hk1, ck, rk, ckk, o1 ▸ g1, g2, g3, o2 ▸ g4, o3 ▸ g5, g6, g7, g8, g9,
          g10, g11⟩

theorem Table.keys_set {α : Type} (key : String) (v : α) (t : Table α) :
    (t.set key v).keys = if key ∈ t.keys then t.keys else t.keys ++ [key] := by
  induction t with
  | nil => simp [Table.set, Table.keys]
  | cons kv t ih =>
    obtain ⟨k, x⟩ := kv
    by_cases hk : k = key
    · simp [Table.set, Table.keys, hk]
    · have hk2 : ¬ key = k := fun e => hk e.symm
      simp only [Table.keys] at ih
      simp only [Table.set, hk, if_false, Table.keys, List.map_cons, List.mem_cons, hk2,
        false_or, ih]
      split <;> simp

theorem Table.nodup_keys_set {α : Type} (key : String) (v : α) (t : Table α)
    (h : t.keys.Nodup) : (t.set key v).keys.Nodup := by
  rw [Table.keys_set]
  split
  · exact h
  · rename_i hk
    rw [List.nodup_append]
    refine ⟨h, List.nodup_singleton key, ?_⟩
    intro a ha hb
    simp only [List.mem_singleton] at hb
    subst hb
    exact hk ha

/-! ## `Stats`: the registered keys and their histories -/

theorem Stats.runLoop_weapons (key : String) (n : Nat) :
    ∀ (weapon : Weapon) (s : Stats) (world : World),
      (Stats.runLoop key n weapon s world).2.2.1.weapons = s.weapons := by
  induction n with
  | zero => intro weapon s world; rfl
  | succ n ih =>
    intro weapon s world
    simp only [Stats.runLoop]
    cases ha : s.attacks.get key with
    | none => rfl
    | some history =>
      simp only []
      cases h1 : weapon.attack false false world with
      | mk res rest =>
        obtain ⟨weapon1, world1⟩ := rest
        cases res with
        | error e => rfl
        | ok result =>
          simp only []
          cases hc : s.critAttacks.get key with
          | none => rfl
          | some critHistory =>
            simp only []
            cases h2 : weapon1.attack false true world1 with
            | mk res2 rest2 =>
              obtain ⟨weapon2, world2⟩ := rest2
              cases res2 with
              | error e => rfl
              | ok critResult =>
                simp only []
                exact ih weapon2 _ world2

theorem Stats.runKey_weapons_keys (n : Nat) (key : String) (s : Stats) (world : World) :
    (Stats.runKey n key s world).2.1.weapons.keys = s.weapons.keys := by
  simp only [Stats.runKey]
  cases hget : s.weapons.get key with
  | none => rfl
  | some weapon =>
    show (Table.set key _ (Stats.runLoop key n weapon s world).2.2.1.weapons).keys = _
    rw [Stats.runLoop_weapons]
    exact Table.keys_set_of_mem _ _ _ (Table.mem_keys_of_get _ _ _ hget)

theorem Stats.runKeys_weapons_keys (n : Nat) (keys : List String) :
    ∀ (s : Stats) (world : World),
      (Stats.runKeys n keys s world).2.1.weapons.keys = s.weapons.keys := by
  induction keys with
  | nil => intro s world; rfl
  | cons key rest ih =>
    intro s world
    simp only [Stats.runKeys]
    have hk := Stats.runKey_weapons_keys n key s world
    cases h : Stats.runKey n key s world with
    | mk res st =>
      obtain ⟨s1, world1⟩ := st
      rw [h] at hk
      cases res with
      | error e => exact hk
      | ok u => exact (ih s1 world1).trans hk

theorem Stats.run_weapons_keys (s : Stats) (n : Nat) (world : World) :
    (s.run n world).2.1.weapons.keys = s.weapons.keys := by
  simp only [Stats.run]
  have hk := Stats.runKeys_weapons_keys n s.weapons.keys s world
  cases h : Stats.runKeys n s.weapons.keys s world with
  | mk res st =>
    obtain ⟨s1, world1⟩ := st
    rw [h] at hk
    cases res with
    | error e => exact hk
    | ok u => exact hk

theorem Stats.run_consistent (s : Stats) (n : Nat) (world : World) (h : s.Consistent) :
    (s.run n world).2.1.Consistent := by
  obtain ⟨hnd, hhist⟩ := h
  obtain ⟨_, ha, hc⟩ := Stats.run_keeps s n world
  refine ⟨(Stats.run_weapons_keys s n world).symm ▸ hnd, ?_⟩
  intro k hk
  rw [Stats.run_weapons_keys] at hk
  obtain ⟨⟨h0, hh0⟩, ⟨c0, hc0⟩⟩ := hhist k hk
  obtain ⟨h1, e1, _⟩ := ha k h0 hh0
  obtain ⟨c1, e2, _⟩ := hc k c0 hc0
  exact ⟨⟨h1, e1⟩, ⟨c1, e2⟩⟩

theorem Stats.bind_consistent (s : Stats) (key : String) (w : Weapon) (h : s.Consistent) :
    (s.bind key w).Consistent := by
  obtain ⟨hnd, hhist⟩ := h
  refine ⟨Table.nodup_keys_set key w s.weapons hnd, ?_⟩
  intro k hk
  by_cases hkey : k = key
  · subst hkey
    obtain ⟨_, g2, g3, _⟩ := Stats.bind_get s k w
    exact ⟨⟨[], g2⟩, ⟨[], g3⟩⟩
  · obtain ⟨o1, o2, o3⟩ := Stats.bind_get_other s key k w hkey
    rw [Table.mem_keys_iff_get, o1, ← Table.mem_keys_iff_get] at hk
    rw [o2, o3]
    exact hhist k hk

theorem Stats.registerList_consistent (ws : List Weapon) :
    ∀ s : Stats, s.Consistent → (Stats.registerList ws s).Consistent := by
  induction ws with
  | nil => intro s h; exact h
  | cons w ws ih => intro s h; exact ih _ (Stats.bind_consistent s _ w h)

theorem Stats.register_consistent (s s1 : Stats) (arg : Registrable)
    (h : s.register arg = .ok s1) (hs : s.Consistent) : s1.Consistent := by
  cases arg with
  | weapon w =>
    simp only [Stats.register, Except.ok.injEq] at h
    subst h
    exact Stats.bind_consistent s _ w hs
  | list ws =>
    simp only [Stats.register, Except.ok.injEq] at h
    subst h
    exact Stats.registerList_consistent ws s hs
  | mapping kvs =>
    cases kvs with
    | nil =>
      simp only [Stats.register, Stats.registerMapping, Except.ok.injEq] at h
      subst h
      exact hs
    | cons kv rest =>
      obtain ⟨key, w⟩ := kv
      simp [Stats.register, Stats.registerMapping, Stats.unboundWeapon] at h
  | null => simp [Stats.register] at h
  | scalar =>
    simp only [Stats.register, Except.ok.injEq] at h
    subst h
    exact hs

theorem Stats.reachable_consistent (s : Stats) (h : s.Reachable) : s.Consistent := by
  induction h with
  | new arg s h _ =>
    refine Stats.register_consistent ⟨[], [], [], 0⟩ s arg h ⟨List.nodup_nil, ?_⟩
    intro k hk
    exact absurd hk (List.not_mem_nil k)
  | register s s1 arg _ h _ ih => exact Stats.register_consistent s s1 arg h ih
  | run s n world _ ih => exact Stats.run_consistent s n world ih

theorem neverRaises_of_wellFormed (w : Weapon)
    (h : ∀ b, b ∈ w.enchantments ++ w.bonuses → DiceExpression b.bonus) : w.NeverRaises := by
  intro max crit world
  obtain ⟨vals1, w3, h1, _⟩ := evaluateAll_wellFormed max w.enchantments
    (fun b hb => h b (List.mem_append_left _ hb))
    (Dice.roll w.damage max (Dice.d20 (.num (.int 1)) (max || crit) world).2).2
  obtain ⟨vals2, w4, h2, _⟩ := evaluateAll_wellFormed max w.bonuses
    (fun b hb => h b (List.mem_append_right _ hb)) w3
  exact ⟨_, (attack_eq_accumulate w max crit world w3 w4 _ _ h1 h2).1⟩

theorem sampleWeapon_neverRaises : sampleWeapon.NeverRaises :=
  neverRaises_of_wellFormed sampleWeapon (fun b hb => (sampleWeapon_wellFormed b hb).2)

/-- C15 (counterexample): the weapon built from
`{name: 'Broken', bonus: [{type: 'Fire', bonus: 'abc'}]}` is registered by the constructor
of `Stats`; `run(1)` on that aggregator throws `Invalid bonus syntax` in its first attack,
appends nothing to either history and leaves the counter at 0. -/
theorem run_throws_on_malformed_bonus :
    Weapon.new (.obj [("name", .str "Broken"),
      ("bonus", .arr [.obj [("type", .str "Fire"), ("bonus", .str "abc")]])])
      = .ok brokenWeapon ∧
    Stats.new (.weapon brokenWeapon) = .ok brokenStats ∧
    (brokenStats.run 1 sampleWorld).1 = .error (.error "Invalid bonus syntax") ∧
    (brokenStats.run 1 sampleWorld).2.1.attacks.get "Broken" = some [] ∧
    (brokenStats.run 1 sampleWorld).2.1.critAttacks.get "Broken" = some [] ∧
    (brokenStats.run 1 sampleWorld).2.1.iterations = 0 :=
  ⟨rfl, rfl, rfl, rfl, rfl, rfl⟩

/-- C15 (amended): on a reachable aggregator none of whose registered weapons has an attack
that raises, `run(n)` returns for every `n >= 0`; it increases the counter by exactly `n`,
once; it leaves the registered keys as they were, each still bound to its weapon, changed in
nothing but its crit counter; and for every registered key it appends exactly `n` entries to
the normal history, each the result of an `attack()` of that weapon, and exactly `n` entries
to the crit history, each the result of an `attack(false, true)` of that weapon. -/
theorem run_appends (s : Stats) (hs : s.Reachable)
    (hw : ∀ (k : String) (w : Weapon), s.weapons.get k = some w → w.NeverRaises)
    (n : Nat) (world : World) :
    ∃ (s1 : Stats) (world1 : World),
      s.run n world = (.ok (), s1, world1) ∧
      s1.iterations = s.iterations + n ∧ s1.weapons.keys = s.weapons.keys ∧
      ∀ k, k ∈ s.weapons.keys → ∃ (w w1 : Weapon) (h c rs cs : List Result),
        s.weapons.get k = some w ∧ s1.weapons.get k = some w1 ∧
        w1 = { w with numCrits := w1.numCrits } ∧
        s.attacks.get k = some h ∧ s.critAttacks.get k = some c ∧
        s1.attacks.get k = some (h ++ rs) ∧ rs.length = n ∧
        s1.critAttacks.get k = some (c ++ cs) ∧ cs.length = n ∧
        (∀ r, r ∈ rs → ∃ wd : World, (w.attack false false wd).1 = .ok r) ∧
        (∀ r, r ∈ cs → ∃ wd : World, (w.attack false true wd).1 = .ok r) := by
  obtain ⟨hnd, hhist⟩ := Stats.reachable_consistent s hs
  have hpre : ∀ k, k ∈ s.weapons.keys → ∃ (w : Weapon) (h c : List Result),
      s.weapons.get k = some w ∧ w.NeverRaises ∧ s.attacks.get k = some h ∧
      s.critAttacks.get k = some c := by
    intro k hk
    obtain ⟨⟨h0, hh0⟩, ⟨c0, hc0⟩⟩ := hhist k hk
    cases hget : s.weapons.get k with
    | none => exact absurd hget ((Table.mem_keys_iff_get k s.weapons).mp hk)
    | some w => exact ⟨w, h0, c0, rfl, hw k w hget, hh0, hc0⟩
  obtain ⟨s1, world1, hrun, hit, hkeys, _, hin⟩ :=
    Stats.runKeys_ok n s.weapons.keys hnd s world hpre
  refine ⟨{ s1 with iterations := s1.iterations + n }, world1, ?_, ?_, hkeys, hin⟩
  · simp only [Stats.run, hrun]
  · show s1.iterations + n = s.iterations + n
    rw [hit]

/-- C15 (amended) at the aggregator `new Stats(sampleWeapon)`: it is reachable, its weapon
never raises, and `run(3)` returns with the counter at 3. -/
theorem run_appends_witness :
    Stats.Reachable sampleStats ∧
    (∀ (k : String) (w : Weapon), sampleStats.weapons.get k = some w → w.NeverRaises) ∧
    ∃ (s1 : Stats) (world1 : World),
      sampleStats.run 3 sampleWorld = (.ok (), s1, world1) ∧ s1.iterations = 3 ∧
      s1.weapons.keys = ["Flaming sword"] := by
  have hs : Stats.Reachable sampleStats :=
    Stats.Reachable.new (.weapon sampleWeapon) sampleStats rfl (by decide)
  have hw : ∀ (k : String) (w : Weapon), sampleStats.weapons.get k = some w →
      w.NeverRaises := by
    intro k w hk
    simp only [sampleStats, Table.get] at hk
    split at hk
    · simp only [Option.some.injEq] at hk
      exact hk ▸ sampleWeapon_neverRaises
    · exact absurd hk (by simp)
  obtain ⟨s1, world1, h1, h2, h3, _⟩ := run_appends sampleStats hs hw 3 sampleWorld
  exact ⟨hs, hw, s1, world1, h1, by simpa [sampleStats] using h2, h3⟩

/-! ## `reduceResults` and `calcAverages` -/

theorem Result.set_eq_table (key : String) (v : JSNum) (r : Result) :
    Result.set key v r = Table.set key v r := by
  induction r with
  | nil => rfl
  | cons kv r ih =>
    obtain ⟨k, x⟩ := kv
    simp only [Result.set, Table.set, ih]

theorem Result.set_keys_nodup (key : String) (v : JSNum) (r : Result) (h : r.keys.Nodup) :
    (r.set key v).keys.Nodup := by
  rw [Result.set_eq_table]
  exact Table.nodup_keys_set key v r h

theorem sums_set (pre : Result) (done : List (String × Int)) (k : String) (v : Int)
    (h : Sums pre done) :
    Sums (pre.set k (.int (sumOf k done + v))) (done ++ [(k, v)]) := by
  intro t
  by_cases htk : t = k
  · subst htk
    have hmem : t ∈ (done ++ [(t, v)]).map Prod.fst := by simp
    have hsum : sumOf t (done ++ [(t, v)]) = sumOf t done + v := by
      simp [sumOf_append, sumOf]
    rw [if_pos hmem, hsum, Result.get_set_same]
  · have hmem : t ∈ (done ++ [(k, v)]).map Prod.fst ↔ t ∈ done.map Prod.fst := by
      simp [htk]
    have hsum : sumOf t (done ++ [(k, v)]) = sumOf t done := by
      have : ¬ k = t := fun e => htk e.symm
      simp [sumOf_append, sumOf, this]
    rw [Result.get_set_other _ _ _ _ htk, h t, hsum]
    by_cases hin : t ∈ done.map Prod.fst
    · rw [if_pos hin, if_pos (hmem.mpr hin)]
    · rw [if_neg hin, if_neg (fun e => hin (hmem.mp e))]

theorem reduceInto_cons (pre : Result) (done : List (String × Int)) (k : String) (v : Int)
    (rest : Result) (h : Sums pre done) :
    reduceInto pre ((k, .int v) :: rest)
      = reduceInto (pre.set k (.int (sumOf k done + v))) rest := by
  have hk := h k
  by_cases hin : k ∈ done.map Prod.fst
  · rw [if_pos hin] at hk
    by_cases hz : sumOf k done = 0
    · simp [reduceInto, hk, JSNum.truthy, hz]
    · simp [reduceInto, hk, JSNum.truthy, hz, JSNum.add]
  · rw [if_neg hin] at hk
    simp [reduceInto, hk, sumOf_of_not_mem k done hin]

theorem reduceInto_sums (cur : List (String × Int)) :
    ∀ (pre : Result) (done : List (String × Int)), Sums pre done →
      Sums (reduceInto pre (asResult cur)) (done ++ cur) := by
  induction cur with
  | nil => intro pre done h; simpa [asResult, reduceInto] using h
  | cons kv cur ih =>
    intro pre done h
    obtain ⟨k, v⟩ := kv
    have := ih _ _ (sums_set pre done k v h)
    rw [List.append_assoc] at this
    simp only [asResult, List.map_cons] at this ⊢
    rw [reduceInto_cons pre done k v _ h]
    exact this

theorem reduceInto_nodup (cur : Result) :
    ∀ pre : Result, pre.keys.Nodup → (reduceInto pre cur).keys.Nodup := by
  induction cur with
  | nil => intro pre h; exact h
  | cons kv cur ih =>
    intro pre h
    obtain ⟨k, v⟩ := kv
    simp only [reduceInto]
    split
    · split <;> exact ih _ (Result.set_keys_nodup _ _ _ h)
    · exact ih _ (Result.set_keys_nodup _ _ _ h)

theorem foldl_reduceInto_sums (history : List (List (String × Int))) :
    ∀ (pre : Result) (done : List (String × Int)), Sums pre done → pre.keys.Nodup →
      Sums (List.foldl reduceInto pre (history.map asResult)) (done ++ history.flatten) ∧
      (List.foldl reduceInto pre (history.map asResult)).keys.Nodup := by
  induction history with
  | nil => intro pre done h hn; simpa using ⟨h, hn⟩
  | cons cur history ih =>
    intro pre done h hn
    have := ih _ _ (reduceInto_sums cur pre done h) (reduceInto_nodup _ pre hn)
    simpa [List.append_assoc] using this

theorem reduceResults_sums (history : List (List (String × Int))) :
    Sums (reduceResults (history.map asResult)) history.flatten ∧
    (reduceResults (history.map asResult)).keys.Nodup := by
  have h0 : Sums [] [] := fun t => rfl
  have := foldl_reduceInto_sums history [] [] h0 List.nodup_nil
  simpa [reduceResults] using this

theorem Result.get_of_mem (r : Result) (h : r.keys.Nodup) (k : String) (v : JSNum)
    (hm : (k, v) ∈ r) : r.get k = some v := by
  induction r with
  | nil => exact absurd hm (List.not_mem_nil _)
  | cons kv r ih =>
    obtain ⟨k0, x⟩ := kv
    simp only [Result.keys, List.map_cons, List.nodup_cons] at h
    rcases List.mem_cons.mp hm with e | hm
    · simp only [Prod.mk.injEq] at e
      obtain ⟨rfl, rfl⟩ := e
      simp [Result.get]
    · have hne : ¬ k0 = k := by
        intro e
        subst e
        exact h.1 (List.mem_map_of_mem Prod.fst hm)
      simp only [Result.get, hne, if_false]
      exact ih h.2 hm

theorem sums_eq_map (r : Result) (done : List (String × Int)) (h : Sums r done)
    (hn : r.keys.Nodup) :
    r = r.keys.map (fun t => (t, JSNum.int (sumOf t done))) ∧
    ∀ t, t ∈ r.keys ↔ t ∈ done.map Prod.fst := by
  have hmem : ∀ t, t ∈ r.keys ↔ t ∈ done.map Prod.fst := by
    intro t
    rw [Result.mem_keys_iff, h t]
    by_cases hin : t ∈ done.map Prod.fst
    · simp [hin]
    · simp [hin]
  refine ⟨?_, hmem⟩
  simp only [Result.keys, List.map_map]
  conv_lhs => rw [← List.map_id r]
  apply List.map_congr_left
  intro p hp
  obtain ⟨k, v⟩ := p
  have hg := Result.get_of_mem r hn k v hp
  have hk : k ∈ done.map Prod.fst :=
    (hmem k).mp (List.mem_map_of_mem Prod.fst hp)
  rw [h k, if_pos hk] at hg
  simp only [Option.some.injEq] at hg
  simp [hg]

theorem divNat_int (k : Int) (n : Nat) (hn : 0 < n) :
    (JSNum.int k).divNat n = toDouble ((k : ℚ) / (n : ℚ)) := by
  have : n ≠ 0 := Nat.pos_iff_ne_zero.mp hn
  simp [JSNum.divNat, this]

theorem Result.keys_set_seen (key : String) (v : JSNum) (r : Result) :
    (r.set key v).keys = seeName r.keys key := by
  rw [Result.set_eq_table]
  exact Table.keys_set key v r

theorem reduceInto_keys (cur : Result) :
    ∀ pre : Result, (reduceInto pre cur).keys = (cur.map Prod.fst).foldl seeName pre.keys := by
  induction cur with
  | nil => intro pre; rfl
  | cons kv cur ih =>
    intro pre
    obtain ⟨k, v⟩ := kv
    simp only [reduceInto, List.map_cons, List.foldl_cons]
    split
    · split <;> rw [ih, Result.keys_set_seen]
    · rw [ih, Result.keys_set_seen]

theorem foldl_reduceInto_keys (hs : List Result) :
    ∀ pre : Result,
      (List.foldl reduceInto pre hs).keys
        = (hs.flatten.map Prod.fst).foldl seeName pre.keys := by
  induction hs with
  | nil => intro pre; rfl
  | cons cur hs ih =>
    intro pre
    simp only [List.foldl_cons, List.flatten_cons, List.map_append, List.foldl_append]
    rw [ih, reduceInto_keys]

theorem asResult_flatten_keys (history : List (List (String × Int))) :
    (history.map asResult).flatten.map Prod.fst = history.flatten.map Prod.fst := by
  induction history with
  | nil => rfl
  | cons r history ih =>
    simp only [List.map_cons, List.flatten_cons, List.map_append, ih]
    simp [asResult]

theorem reduceResults_keys (history : List (List (String × Int))) :
    (reduceResults (history.map asResult)).keys = typesOf history.flatten := by
  unfold reduceResults typesOf
  rw [foldl_reduceInto_keys, asResult_flatten_keys]
  rfl

theorem averageInto_spec (n : Nat) (hn : 0 < n) (f : String → Int) :
    ∀ (ks : List String) (acc : JSQuot) (tbl : Table JSQuot), (tbl.keys ++ ks).Nodup →
      (averageInto n (ks.map (fun t => (t, JSNum.int (f t)))) (acc, tbl)).1
        = ks.foldl (fun a t => a.add (toDouble ((f t : ℚ) / (n : ℚ)))) acc ∧
      (∀ t, (averageInto n (ks.map (fun t => (t, JSNum.int (f t)))) (acc, tbl)).2.get t
        = if t ∈ ks then some (toDouble ((f t : ℚ) / (n : ℚ))) else tbl.get t) ∧
      (averageInto n (ks.map (fun t => (t, JSNum.int (f t)))) (acc, tbl)).2.keys
        = tbl.keys ++ ks := by
  intro ks
  induction ks with
  | nil => intro acc tbl _; simp [averageInto]
  | cons k ks ih =>
    intro acc tbl hnd
    have hk : k ∉ tbl.keys := by
      intro hin
      exact (List.nodup_append.mp hnd).2.2 hin (List.mem_cons_self k ks)
    have hkeys : (tbl.set k (toDouble ((f k : ℚ) / (n : ℚ)))).keys = tbl.keys ++ [k] := by
      rw [Table.keys_set, if_neg hk]
    have hnd2 : ((tbl.set k (toDouble ((f k : ℚ) / (n : ℚ)))).keys ++ ks).Nodup := by
      rw [hkeys, List.append_assoc]
      exact hnd
    have hnotin : k ∉ ks := by
      have := (List.nodup_append.mp hnd).2.1
      exact (List.nodup_cons.mp this).1
    obtain ⟨h1, h2, h3⟩ := ih (acc.add (toDouble ((f k : ℚ) / (n : ℚ))))
      (tbl.set k (toDouble ((f k : ℚ) / (n : ℚ)))) hnd2
    simp only [List.map_cons, averageInto, divNat_int _ n hn, List.foldl_cons]
    refine ⟨h1, ?_, ?_⟩
    · intro t
      rw [h2 t]
      by_cases ht : t ∈ ks
      · simp [ht]
      · by_cases htk : t = k
        · subst htk
          simp [ht, Table.get_set_self]
        · simp [ht, htk, Table.get_set_ne _ _ _ _ htk]
    · rw [h3, hkeys, List.append_assoc]
      rfl

/-- C18 (counterexample): the weapon built from `{enchant: [{type: 'Total Damage', bonus: 3}]}`
is registered and `run(1)` in the sample world leaves the normal history
`[{Physical: 1, 'Total Damage': 3}]`.  `reduceResults` of that history is the same map, and
`calcAverages` of it over 1 iteration is `{Physical: 1, 'Total Damage': 4}`: the entry under
the type `Total Damage` is not that type's sum divided by 1, which is 3.  Also, on the
history `[{Physical: NaN}, {Physical: 5}]` `reduceResults` holds 5 under `Physical`, where
the sum `NaN + 5` is `NaN`. -/
theorem total_damage_entry_overwritten :
    Weapon.new (.obj [("enchant",
      .arr [.obj [("type", .str "Total Damage"), ("bonus", .num (.int 3))]])])
      = .ok totalWeapon ∧
    (∃ s : Stats, Stats.new (.weapon totalWeapon) = .ok s ∧
      (s.run 1 sampleWorld).1 = .ok () ∧ (s.run 1 sampleWorld).2.1.iterations = 1 ∧
      (s.run 1 sampleWorld).2.1.attacks.get "Unnamed Weapon"
        = some [asResult [("Physical", 1), ("Total Damage", 3)]]) ∧
    reduceResults [asResult [("Physical", 1), ("Total Damage", 3)]]
      = asResult [("Physical", 1), ("Total Damage", 3)] ∧
    calcAverages (asResult [("Physical", 1), ("Total Damage", 3)]) 1
      = [("Physical", .fin 1), ("Total Damage", .fin 4)] ∧
    averageOf [("Physical", 1), ("Total Damage", 3)] 1 "Total Damage" = .fin 3 ∧
    (reduceResults [[("Physical", .nan)], [("Physical", .int 5)]]).get "Physical"
      = some (.int 5) ∧
    JSNum.nan.add (.int 5) = .nan :=
  ⟨rfl, ⟨_, rfl, rfl, rfl, rfl⟩, rfl, by decide!, by decide!, rfl, rfl⟩

/-- C18 (amended): for every history of attack results with integer values, given as the
maps in enumeration order, in which no type is named `Total Damage`, after a member
inherited from `Object.prototype` or by an array index, whose values stay below `2 ^ 53` in
total magnitude, and for every positive iteration count `n < 2 ^ 53`: `reduceResults`
returns the map that holds, under each type occurring in the history, the sum of that type's
values over all results, and nothing else, its keys being the types in the order of their
first occurrence; `calcAverages` of it holds under each such type the double nearest to
that sum divided by `n`, and under `Total Damage` the sum of these per-type averages, added
as doubles from `0` in the order of first occurrence; its keys are the types followed by
`Total Damage`. -/
theorem report_averages (history : List (List (String × Int))) (n : Nat) (hn : 0 < n)
    (ht : "Total Damage" ∉ typesOf history.flatten)
    (_hi : ∀ t, t ∈ typesOf history.flatten → t ∉ inheritedKeys ∧ isArrayIndex t = false)
    (_hb : (history.flatten.map (fun p => p.2.natAbs)).sum < 2 ^ 53 ∧ n < 2 ^ 53) :
    (∀ t, (reduceResults (history.map asResult)).get t
      = if t ∈ history.flatten.map Prod.fst then some (.int (sumOf t history.flatten))
        else none) ∧
    (reduceResults (history.map asResult)).keys = typesOf history.flatten ∧
    (∀ t, t ∈ typesOf history.flatten ↔ t ∈ history.flatten.map Prod.fst) ∧
    (∀ t, t ∈ typesOf history.flatten →
      (calcAverages (reduceResults (history.map asResult)) n).get t
        = some (averageOf history.flatten n t)) ∧
    (calcAverages (reduceResults (history.map asResult)) n).get "Total Damage"
      = some (totalOf history.flatten n) ∧
    (calcAverages (reduceResults (history.map asResult)) n).keys
      = typesOf history.flatten ++ ["Total Damage"] := by
  obtain ⟨hs, hnd⟩ := reduceResults_sums history
  obtain ⟨hR, hmem⟩ := sums_eq_map _ _ hs hnd
  have hkeys := reduceResults_keys history
  rw [hkeys] at hR hmem hnd
  have hnd2 : (Table.keys ([] : Table JSQuot) ++ typesOf history.flatten).Nodup := by
    simpa [Table.keys] using hnd
  obtain ⟨a1, a2, a3⟩ := averageInto_spec n hn (fun t => sumOf t history.flatten)
    (typesOf history.flatten) (.fin 0) [] hnd2
  rw [← hR] at a1 a2 a3
  have hnotin : "Total Damage" ∉
      (averageInto n (reduceResults (history.map asResult)) (JSQuot.fin 0, [])).2.keys := by
    rw [a3]
    simpa [Table.keys] using ht
  refine ⟨hs, hkeys, hmem, ?_, ?_, ?_⟩
  · intro t hin
    have hne : t ≠ "Total Damage" := fun e => ht (e ▸ hin)
    simp only [calcAverages]
    rw [Table.get_set_ne _ _ _ _ hne, a2 t, if_pos hin]
    rfl
  · simp only [calcAverages]
    rw [Table.get_set_self, a1]
    rfl
  · simp only [calcAverages]
    rw [Table.keys_set, if_neg hnotin, a3]
    simp [Table.keys]

/-- C18 (amended) at the history `[{Physical: 1, Fire: 2}]` over 10 iterations: the averages
are the doubles `0.1` and `0.2`, and `Total Damage` is their double sum
`0.30000000000000004`, which is `1351079888211149 / 2 ^ 52`. -/
theorem report_averages_witness :
    (0 < 10 ∧ "Total Damage" ∉ typesOf sampleHistory.flatten ∧
      (∀ t, t ∈ typesOf sampleHistory.flatten →
        t ∉ inheritedKeys ∧ isArrayIndex t = false) ∧
      (sampleHistory.flatten.map (fun p => p.2.natAbs)).sum < 2 ^ 53 ∧ 10 < 2 ^ 53) ∧
    (calcAverages (reduceResults (sampleHistory.map asResult)) 10).get "Total Damage"
      = some (totalOf sampleHistory.flatten 10) ∧
    totalOf sampleHistory.flatten 10 = .fin (1351079888211149 / 2 ^ 52) ∧
    averageOf sampleHistory.flatten 10 "Physical" = .fin (3602879701896397 / 2 ^ 55) ∧
    averageOf sampleHistory.flatten 10 "Fire" = .fin (3602879701896397 / 2 ^ 54) :=
  ⟨⟨by decide, by decide, by decide!, by decide, by decide⟩,
    (report_averages sampleHistory 10 (by decide) (by decide) (by decide!)
      ⟨by decide, by decide⟩).2.2.2.2.1,
    by decide!, by decide!, by decide!⟩

end DamageTester
